import Mathlib

/-!
Verification of the core data structures and routing engine of the
smart-traffic-optimizer repository: a shallow embedding in Lean 4 of the
LRU cache (`include/LRUCache.h`), chained hash table (`include/HashTable.h`),
indexed binary min-heap (`include/MinHeap.h`), weighted graph with Dijkstra
(`include/Graph.h`), B-tree (`include/BTree.h`) and the composition layer
(`include/TrafficManager.h`, `include/Models.h`).

Conventions used throughout the embedding:
* C++ `double` is modelled by `ℚ` (all arithmetic the claims exercise is
  exact: sums, products and comparisons of small rationals), with `WithTop ℚ`
  where the code uses `std::numeric_limits<double>::infinity()`.
* `std::unordered_map` auxiliary index maps that the code keeps in lock-step
  with a list/vector (the heap's `indexMap`, the LRU cache's `cacheMap`) are
  modelled by position lookup in the list itself, which is exactly the
  contents of those maps.
* Operations whose C++ counterpart can hit undefined behaviour or throw
  return `Option`, with `none` marking that path; loops without a structural
  termination argument take explicit fuel, `none` meaning the fuel ran out.
-/

namespace TrafficOpt

/-! ## Association-list helpers

Shared small helpers used to model bucket scans / keyed lookups that the C++
code performs by iterating a `std::list` / `std::vector` and comparing keys. -/

/-- First value stored under key `k` in an association list (the C++ pattern
`for (node : bucket) if (node.key == key) ...`). -/
def aFind {K V : Type} [DecidableEq K] (l : List (K × V)) (k : K) : Option V :=
  match l with
  | [] => none
  | p :: ps => if p.1 = k then some p.2 else aFind ps k

/-- Remove the first entry with key `k` (the C++ pattern of erasing the node
found by a key scan). -/
def aErase {K V : Type} [DecidableEq K] (l : List (K × V)) (k : K) : List (K × V) :=
  match l with
  | [] => []
  | p :: ps => if p.1 = k then ps else p :: aErase ps k

/-- Replace the payload of the first entry with key `k` by `a`
(`it->second = a` after a key scan); leaves the list unchanged if absent. -/
def aSet {K V : Type} [DecidableEq K] (l : List (K × V)) (k : K) (a : V) : List (K × V) :=
  match l with
  | [] => []
  | p :: ps => if p.1 = k then (p.1, a) :: ps else p :: aSet ps k a

@[simp] theorem aFind_nil {K V : Type} [DecidableEq K] (k : K) :
    aFind ([] : List (K × V)) k = none := rfl

@[simp] theorem aFind_cons {K V : Type} [DecidableEq K] (p : K × V) (ps : List (K × V)) (k : K) :
    aFind (p :: ps) k = if p.1 = k then some p.2 else aFind ps k := rfl

theorem aFind_append {K V : Type} [DecidableEq K] (l₁ l₂ : List (K × V)) (k : K) :
    aFind (l₁ ++ l₂) k = (aFind l₁ k).orElse (fun _ => aFind l₂ k) := by
  induction l₁ with
  | nil => simp
  | cons p ps ih =>
    by_cases h : p.1 = k <;> simp [aFind, h, ih]

theorem aFind_eq_some_mem {K V : Type} [DecidableEq K] {l : List (K × V)} {k : K} {v : V}
    (h : aFind l k = some v) : (k, v) ∈ l := by
  induction l with
  | nil => simp [aFind] at h
  | cons p ps ih =>
    rw [aFind_cons] at h
    by_cases hp : p.1 = k
    · simp only [hp, if_true, Option.some.injEq] at h
      have : p = (k, v) := by
        cases p
        simp only [Prod.mk.injEq]
        exact ⟨hp, h⟩
      exact this ▸ List.mem_cons_self _ _
    · simp only [hp, if_false] at h
      exact List.mem_cons_of_mem _ (ih h)

theorem aFind_eq_none_of_not_mem {K V : Type} [DecidableEq K] {l : List (K × V)} {k : K}
    (h : k ∉ l.map Prod.fst) : aFind l k = none := by
  induction l with
  | nil => rfl
  | cons p ps ih =>
    simp only [List.map_cons, List.mem_cons] at h
    push_neg at h
    rw [aFind_cons, if_neg (fun he => h.1 he.symm)]
    exact ih h.2

theorem mem_of_aFind_some {K V : Type} [DecidableEq K] {l : List (K × V)} {k : K} {v : V}
    (h : aFind l k = some v) : v ∈ l.map Prod.snd :=
  List.mem_map.mpr ⟨(k, v), aFind_eq_some_mem h, rfl⟩

/-! ## LRU cache (`include/LRUCache.h`)

The cache is a doubly-linked list of key/value nodes (front = most recently
used) plus a key → list-iterator map. The map is always in bijection with
the list, so it is modelled by the list itself; hit/miss counters are kept. -/

structure LRUCache (K V : Type) where
  capacity : Nat
  hits : Nat
  misses : Nat
  cacheList : List (K × V)

/-- `LRUCache(size_t cap = 100)`. -/
def LRUCache.empty (K V : Type) (cap : Nat) : LRUCache K V :=
  ⟨cap, 0, 0, []⟩

/-- `bool get(const K& key, V* result)`: on hit bumps `hits`, splices the
node to the front and yields its value; on miss bumps `misses`. -/
def LRUCache.get {K V : Type} [DecidableEq K] (c : LRUCache K V) (k : K) :
    Option V × LRUCache K V :=
  match aFind c.cacheList k with
  | none => (none, { c with misses := c.misses + 1 })
  | some v =>
    (some v, { c with hits := c.hits + 1, cacheList := (k, v) :: aErase c.cacheList k })

/-- `void put(const K& key, const V& value)`. On a fresh key at capacity the
code reads `cacheList.back()` and pops it; if the list is empty that access
is out of range (undefined behaviour), modelled as `none`. -/
def LRUCache.put {K V : Type} [DecidableEq K] (c : LRUCache K V) (k : K) (v : V) :
    Option (LRUCache K V) :=
  match aFind c.cacheList k with
  | some _ =>
    some { c with cacheList := (k, v) :: aErase c.cacheList k }
  | none =>
    if c.cacheList.length ≥ c.capacity then
      match c.cacheList.getLast? with
      | none => none
      | some _ =>
        some { c with cacheList := (k, v) :: c.cacheList.dropLast }
    else
      some { c with cacheList := (k, v) :: c.cacheList }

/-- `void clear()`: drops all entries and resets both counters. -/
def LRUCache.clear {K V : Type} (c : LRUCache K V) : LRUCache K V :=
  { c with cacheList := [], hits := 0, misses := 0 }

/-- `size_t size() const`. -/
def LRUCache.size {K V : Type} (c : LRUCache K V) : Nat :=
  c.cacheList.length

/-- C6: on a capacity-2 cache, `put a 1; put b 2; put c 3` with distinct keys
evicts exactly the least-recently-used entry `a`: `get a` then misses and the
subsequent `get b` hits with value `2`. -/
theorem lru_capacity_two_eviction {K : Type} [DecidableEq K] (a b c : K)
    (hab : a ≠ b) (hac : a ≠ c) (hbc : b ≠ c) :
    ∃ s : LRUCache K Nat,
      ((((LRUCache.empty K Nat 2).put a 1).bind (fun s₁ => s₁.put b 2)).bind
        (fun s₂ => s₂.put c 3)) = some s ∧
      (s.get a).1 = none ∧ (((s.get a).2).get b).1 = some 2 := by
  refine ⟨⟨2, 0, 0, [(c, 3), (b, 2)]⟩, ?_, ?_, ?_⟩
  · simp [LRUCache.empty, LRUCache.put, aFind, aErase, hab, hac, hbc,
      Ne.symm hab, Ne.symm hac, Ne.symm hbc, List.getLast?, List.dropLast]
  · simp [LRUCache.get, aFind, hac, hab, hbc, Ne.symm hab, Ne.symm hac, Ne.symm hbc]
  · simp [LRUCache.get, aFind, hac, hab, hbc, Ne.symm hab, Ne.symm hac, Ne.symm hbc]

/-- Witness for C6 at concrete keys 0, 1, 2. -/
theorem lru_capacity_two_eviction_witness :
    (0 : Nat) ≠ 1 ∧ (0 : Nat) ≠ 2 ∧ (1 : Nat) ≠ 2 ∧
    ∃ s : LRUCache Nat Nat,
      ((((LRUCache.empty Nat Nat 2).put 0 1).bind (fun s₁ => s₁.put 1 2)).bind
        (fun s₂ => s₂.put 2 3)) = some s ∧
      (s.get 0).1 = none ∧ (((s.get 0).2).get 1).1 = some 2 :=
  ⟨by decide, by decide, by decide,
    lru_capacity_two_eviction 0 1 2 (by decide) (by decide) (by decide)⟩

/-- C10: the eviction branch of `put` is safe (the list is non-empty when
`back()` is read) whenever the capacity is at least 1, for any cache state;
with capacity 0, the very first `put` on an empty cache reaches `back()` with
an empty list — the out-of-range access is reachable, so capacity ≥ 1 is an
implicit precondition of `put`. -/
theorem lru_put_eviction_safety {K V : Type} [DecidableEq K] :
    (∀ (st : LRUCache K V) (k : K) (v : V), 1 ≤ st.capacity → (st.put k v).isSome = true) ∧
    (∀ (k : K) (v : V), (LRUCache.empty K V 0).put k v = none) := by
  constructor
  · intro st k v hcap
    unfold LRUCache.put
    match h : aFind st.cacheList k with
    | some w => simp
    | none =>
      simp only
      split
      · next hfull =>
        have hne : st.cacheList ≠ [] := by
          intro hnil
          rw [hnil] at hfull
          simp at hfull
          omega
        match hl : st.cacheList.getLast? with
        | some _ => simp
        | none => exact absurd (List.getLast?_eq_none_iff.mp hl) hne
      · simp
  · intro k v
    simp [LRUCache.empty, LRUCache.put, aFind]

/-- Witness for C10 at a concrete capacity-1 cache. -/
theorem lru_put_eviction_safety_witness :
    1 ≤ (LRUCache.empty Nat Nat 1).capacity ∧
    ((LRUCache.empty Nat Nat 1).put 5 7).isSome = true :=
  ⟨by decide, (lru_put_eviction_safety (K := Nat) (V := Nat)).1 _ 5 7 (by decide)⟩

/-! ## Hash table (`include/HashTable.h`)

Chained hash table: a vector of buckets, each a list of key/value nodes.
The C++ hash is type-directed (`getHash`); the embedding takes the hash
function as an explicit parameter `hash : K → Nat` and the bucket index is
`hash k % numBuckets` exactly as in `getHash`. The C++ `float` load-factor
arithmetic is modelled in `ℚ`; for the bucket counts the code produces
(powers of two times the initial size) and small element counts the float
comparison `(numElements+1)/numBuckets > maxLoadFactor` is exact, so the
models agree. -/

structure HashTable (K V : Type) where
  buckets : List (List (K × V))
  numElements : Nat
  numBuckets : Nat
  maxLoadFactor : ℚ

/-- `HashTable(size_t initialSize = 16, float loadFactor = 0.75f)`. -/
def HashTable.mkTable (K V : Type) (initialSize : Nat) (loadFactor : ℚ) : HashTable K V :=
  ⟨List.replicate initialSize [], 0, initialSize, loadFactor⟩

/-- Body of the `rehash` loop: pushes each node into bucket
`hash(key) % newSize` of the accumulator, in iteration order. -/
def distribute {K V : Type} (hash : K → Nat) (newSize : Nat) :
    List (K × V) → List (List (K × V)) → List (List (K × V))
  | [], acc => acc
  | p :: ps, acc =>
    distribute hash newSize ps
      (acc.set (hash p.1 % newSize) ((acc.getD (hash p.1 % newSize) []) ++ [p]))

/-- `void rehash()`: doubles the bucket count and redistributes every node. -/
def HashTable.rehash {K V : Type} (hash : K → Nat) (t : HashTable K V) : HashTable K V :=
  let newSize := t.numBuckets * 2
  { t with
    buckets := distribute hash newSize t.buckets.flatten (List.replicate newSize []),
    numBuckets := newSize }

/-- `bool search(const K& key, V* result) const` as an optional value. -/
def HashTable.search {K V : Type} [DecidableEq K] (hash : K → Nat) (t : HashTable K V)
    (k : K) : Option V :=
  aFind (t.buckets.getD (hash k % t.numBuckets) []) k

/-- `V& get(const K& key)`: the same bucket scan as `search`; `none` models
the `std::runtime_error` thrown on a miss. -/
def HashTable.get {K V : Type} [DecidableEq K] (hash : K → Nat) (t : HashTable K V)
    (k : K) : Option V :=
  aFind (t.buckets.getD (hash k % t.numBuckets) []) k

/-- Second half of `insert`: scan the designated bucket, update the node in
place if the key exists, otherwise append a new node and bump the count. -/
def HashTable.insertScan {K V : Type} [DecidableEq K] (hash : K → Nat) (t1 : HashTable K V)
    (k : K) (v : V) : HashTable K V :=
  let idx := hash k % t1.numBuckets
  let bucket := t1.buckets.getD idx []
  match aFind bucket k with
  | some _ => { t1 with buckets := t1.buckets.set idx (aSet bucket k v) }
  | none =>
    { t1 with
      buckets := t1.buckets.set idx (bucket ++ [(k, v)]),
      numElements := t1.numElements + 1 }

/-- `void insert(const K& key, const V& value)`: maybe rehash (load-factor
check happens before the existence scan), then update in place or append. -/
def HashTable.insert {K V : Type} [DecidableEq K] (hash : K → Nat) (t : HashTable K V)
    (k : K) (v : V) : HashTable K V :=
  HashTable.insertScan hash
    (if ((t.numElements : ℚ) + 1) / (t.numBuckets : ℚ) > t.maxLoadFactor
      then t.rehash hash else t) k v

/-- `V& operator[](const K& key)`: returns the stored value if present,
otherwise maybe rehashes, appends a default-constructed value and returns it. -/
def HashTable.opIndex {K V : Type} [DecidableEq K] [Inhabited V] (hash : K → Nat)
    (t : HashTable K V) (k : K) : V × HashTable K V :=
  match aFind (t.buckets.getD (hash k % t.numBuckets) []) k with
  | some v => (v, t)
  | none =>
    let t1 := if ((t.numElements : ℚ) + 1) / (t.numBuckets : ℚ) > t.maxLoadFactor
      then t.rehash hash else t
    let idx := hash k % t1.numBuckets
    (default,
      { t1 with
        buckets := t1.buckets.set idx ((t1.buckets.getD idx []) ++ [(k, default)]),
        numElements := t1.numElements + 1 })

/-- Structural invariant of the hash table: the bucket counter matches the
vector, the load bound holds, every node sits in its designated bucket, and
no bucket holds two nodes with the same key. -/
def HashTable.WF {K V : Type} (hash : K → Nat) (t : HashTable K V) : Prop :=
  t.numBuckets = t.buckets.length ∧
  1 ≤ t.numBuckets ∧
  1 ≤ t.maxLoadFactor * (t.numBuckets : ℚ) ∧
  (t.numElements : ℚ) ≤ t.maxLoadFactor * (t.numBuckets : ℚ) ∧
  (∀ i, i < t.buckets.length → ∀ k ∈ (t.buckets.getD i []).map Prod.fst,
    hash k % t.numBuckets = i) ∧
  (∀ i, i < t.buckets.length → ((t.buckets.getD i []).map Prod.fst).Nodup)

/-! ### Small list lemmas used by the hash-table proofs -/

theorem aFind_eq_none_iff {K V : Type} [DecidableEq K] {l : List (K × V)} {k : K} :
    aFind l k = none ↔ k ∉ l.map Prod.fst := by
  induction l with
  | nil => simp [aFind]
  | cons p ps ih =>
    rw [aFind_cons]
    by_cases hp : p.1 = k
    · simp [hp]
    · simp only [hp, if_false, ih, List.map_cons, List.mem_cons]
      constructor
      · intro h hk
        rcases hk with hk | hk
        · exact hp hk.symm
        · exact h hk
      · intro h hk
        exact h (Or.inr hk)

theorem aFind_eq_some_iff_of_nodup {K V : Type} [DecidableEq K] {l : List (K × V)} {k : K}
    {v : V} (hnd : (l.map Prod.fst).Nodup) : aFind l k = some v ↔ (k, v) ∈ l := by
  constructor
  · exact aFind_eq_some_mem
  · intro hm
    induction l with
    | nil => cases hm
    | cons p ps ih =>
      rw [List.map_cons, List.nodup_cons] at hnd
      rw [aFind_cons]
      rcases List.mem_cons.mp hm with h1 | h1
      · rw [← h1]
        simp
      · by_cases hp : p.1 = k
        · exact absurd (List.mem_map.mpr ⟨(k, v), h1, rfl⟩) (hp ▸ hnd.1)
        · rw [if_neg hp]
          exact ih hnd.2 h1

theorem aFind_filterKey {K V : Type} [DecidableEq K] (f : K → Bool) (l : List (K × V)) (k : K) :
    aFind (l.filter (fun p => f p.1)) k = if f k then aFind l k else none := by
  induction l with
  | nil => simp [aFind]
  | cons p ps ih =>
    by_cases hf : f p.1
    · rw [List.filter_cons_of_pos (by simpa using hf), aFind_cons, aFind_cons]
      by_cases hp : p.1 = k
      · rw [if_pos hp, if_pos hp, if_pos (hp ▸ hf)]
      · rw [if_neg hp, if_neg hp, ih]
    · rw [List.filter_cons_of_neg (by simpa using hf), aFind_cons, ih]
      by_cases hp : p.1 = k
      · have hfk : ¬ f k = true := hp ▸ (by simpa using hf)
        rw [if_neg hfk, if_neg hfk]
      · rw [if_neg hp]

theorem aSet_map_fst {K V : Type} [DecidableEq K] (l : List (K × V)) (k : K) (a : V) :
    (aSet l k a).map Prod.fst = l.map Prod.fst := by
  induction l with
  | nil => rfl
  | cons p ps ih =>
    unfold aSet
    by_cases hp : p.1 = k <;> simp [hp, ih]

theorem aFind_aSet_self {K V : Type} [DecidableEq K] (l : List (K × V)) (k : K) (a : V) :
    aFind (aSet l k a) k = (aFind l k).map (fun _ => a) := by
  induction l with
  | nil => rfl
  | cons p ps ih =>
    unfold aSet
    by_cases hp : p.1 = k <;> simp [hp, aFind_cons, ih]

theorem aFind_aSet_ne {K V : Type} [DecidableEq K] (l : List (K × V)) (k k' : K) (a : V)
    (h : k' ≠ k) : aFind (aSet l k a) k' = aFind l k' := by
  induction l with
  | nil => rfl
  | cons p ps ih =>
    unfold aSet
    by_cases hp : p.1 = k
    · rw [if_pos hp, aFind_cons, aFind_cons]
      simp only
      rw [if_neg (hp ▸ fun he => h he.symm), if_neg (hp ▸ fun he => h he.symm)]
    · rw [if_neg hp, aFind_cons, aFind_cons, ih]

theorem getD_set_self {α : Type} (l : List α) (i : Nat) (x d : α) (h : i < l.length) :
    (l.set i x).getD i d = x := by
  rw [List.getD_eq_getElem?_getD, List.getElem?_set]
  simp [h]

theorem getD_set_ne {α : Type} (l : List α) (i j : Nat) (x d : α) (h : i ≠ j) :
    (l.set i x).getD j d = l.getD j d := by
  rw [List.getD_eq_getElem?_getD, List.getElem?_set, if_neg h, ← List.getD_eq_getElem?_getD]

theorem getD_replicate_nil {α : Type} (n j : Nat) :
    (List.replicate n ([] : List α)).getD j [] = [] := by
  rw [List.getD_eq_getElem?_getD]
  rcases h : (List.replicate n ([] : List α))[j]? with _ | x
  · rfl
  · obtain ⟨hlt, hx⟩ := List.getElem?_eq_some_iff.mp h
    rw [List.getElem_replicate] at hx
    rw [← hx]
    rfl

/-! ### `distribute` (the rehash loop) -/

theorem distribute_length {K V : Type} (hash : K → Nat) (ns : Nat) :
    ∀ (entries : List (K × V)) (acc : List (List (K × V))),
      (distribute hash ns entries acc).length = acc.length := by
  intro entries
  induction entries with
  | nil => intro acc; rfl
  | cons p ps ih =>
    intro acc
    rw [distribute, ih, List.length_set]

theorem distribute_getD {K V : Type} (hash : K → Nat) (ns : Nat) :
    ∀ (entries : List (K × V)) (acc : List (List (K × V))), acc.length = ns →
      ∀ j, j < ns →
      (distribute hash ns entries acc).getD j [] =
        acc.getD j [] ++ entries.filter (fun p => hash p.1 % ns = j) := by
  intro entries
  induction entries with
  | nil =>
    intro acc _ j _
    simp [distribute]
  | cons p ps ih =>
    intro acc hacc j hj
    rw [distribute]
    set i := hash p.1 % ns with hi
    have hilt : i < acc.length := by
      rw [hacc]
      exact Nat.mod_lt _ (by omega)
    rw [ih _ (by rw [List.length_set]; exact hacc) j hj]
    by_cases hij : i = j
    · subst hij
      rw [getD_set_self _ _ _ _ hilt, List.filter_cons_of_pos (by simp [← hi])]
      simp
    · rw [getD_set_ne _ _ _ _ _ hij, List.filter_cons_of_neg (by simp [← hi, hij])]

/-! ### Rehash preserves the invariant and every lookup -/

theorem HashTable.WF.flatten_keys_nodup {K V : Type} {hash : K → Nat} {t : HashTable K V}
    (hwf : t.WF hash) : (t.buckets.flatten.map Prod.fst).Nodup := by
  obtain ⟨hlen, hB, _, _, hplace, hnd⟩ := hwf
  rw [List.map_flatten, List.nodup_flatten]
  constructor
  · intro s hs
    obtain ⟨b, hb, rfl⟩ := List.mem_map.mp hs
    obtain ⟨i, hi, rfl⟩ := List.mem_iff_getElem.mp hb
    have := hnd i hi
    rwa [List.getD_eq_getElem _ _ hi] at this
  · rw [List.pairwise_iff_getElem]
    intro i j hi hj hij
    rw [List.length_map] at hi hj
    intro a hai haj
    rw [List.getElem_map] at hai haj
    have h1 := hplace i hi a (by rwa [List.getD_eq_getElem _ _ hi])
    have h2 := hplace j hj a (by rwa [List.getD_eq_getElem _ _ hj])
    omega

theorem HashTable.search_eq_aFind_flatten {K V : Type} [DecidableEq K] {hash : K → Nat}
    {t : HashTable K V} (hwf : t.WF hash) (k : K) :
    t.search hash k = aFind t.buckets.flatten k := by
  have hflat := hwf.flatten_keys_nodup
  obtain ⟨hlen, hB, _, _, hplace, hnd⟩ := hwf
  rcases h : t.search hash k with _ | v
  · unfold HashTable.search at h
    symm
    apply aFind_eq_none_of_not_mem
    intro hk
    rw [List.map_flatten, List.mem_flatten] at hk
    obtain ⟨s, hs, hks⟩ := hk
    obtain ⟨b, hb, rfl⟩ := List.mem_map.mp hs
    obtain ⟨i, hi, rfl⟩ := List.mem_iff_getElem.mp hb
    have hpi := hplace i hi k (by rwa [List.getD_eq_getElem _ _ hi])
    rw [aFind_eq_none_iff] at h
    apply h
    rw [hpi, List.getD_eq_getElem _ _ hi]
    exact hks
  · have hmem := aFind_eq_some_mem h
    symm
    rw [aFind_eq_some_iff_of_nodup hflat, List.mem_flatten]
    have hjlt : hash k % t.numBuckets < t.buckets.length := by
      rw [← hlen]
      exact Nat.mod_lt _ (by omega)
    refine ⟨t.buckets.getD (hash k % t.numBuckets) [], ?_, hmem⟩
    rw [List.getD_eq_getElem _ _ hjlt]
    exact List.getElem_mem _

theorem HashTable.rehash_numBuckets {K V : Type} (hash : K → Nat) (t : HashTable K V) :
    (t.rehash hash).numBuckets = t.numBuckets * 2 := rfl

theorem HashTable.rehash_getD {K V : Type} {hash : K → Nat} {t : HashTable K V}
    (hB : 1 ≤ t.numBuckets) (j : Nat) (hj : j < t.numBuckets * 2) :
    (t.rehash hash).buckets.getD j [] =
      t.buckets.flatten.filter (fun p => hash p.1 % (t.numBuckets * 2) = j) := by
  show (distribute hash _ _ _).getD j [] = _
  rw [distribute_getD hash (t.numBuckets * 2) _ _ (by rw [List.length_replicate]) j hj,
    getD_replicate_nil, List.nil_append]

theorem HashTable.rehash_search {K V : Type} [DecidableEq K] {hash : K → Nat}
    {t : HashTable K V} (hwf : t.WF hash) (k : K) :
    (t.rehash hash).search hash k = t.search hash k := by
  have hB := hwf.2.1
  have hj : hash k % (t.numBuckets * 2) < t.numBuckets * 2 := Nat.mod_lt _ (by omega)
  unfold HashTable.search
  rw [HashTable.rehash_numBuckets]
  rw [show (t.rehash hash).buckets = (t.rehash hash).buckets from rfl]
  rw [HashTable.rehash_getD hB _ hj]
  rw [aFind_filterKey (fun key => hash key % (t.numBuckets * 2) = hash k % (t.numBuckets * 2))]
  rw [if_pos (by simp)]
  exact (HashTable.search_eq_aFind_flatten hwf k).symm

theorem HashTable.rehash_WF {K V : Type} {hash : K → Nat} {t : HashTable K V}
    (hwf : t.WF hash) : (t.rehash hash).WF hash := by
  have hflat := hwf.flatten_keys_nodup
  obtain ⟨hlen, hB, hlf, hcnt, hplace, hnd⟩ := hwf
  have hlen2 : (t.rehash hash).buckets.length = t.numBuckets * 2 := by
    show (distribute hash _ _ _).length = _
    rw [distribute_length, List.length_replicate]
  have hlfpos : (0 : ℚ) < t.maxLoadFactor * (t.numBuckets : ℚ) := lt_of_lt_of_le one_pos hlf
  refine ⟨by rw [hlen2]; rfl, by show 1 ≤ t.numBuckets * 2; omega, ?_, ?_, ?_, ?_⟩
  · show (1 : ℚ) ≤ t.maxLoadFactor * ((t.numBuckets * 2 : Nat) : ℚ)
    push_cast
    nlinarith
  · show (t.numElements : ℚ) ≤ t.maxLoadFactor * ((t.numBuckets * 2 : Nat) : ℚ)
    push_cast
    nlinarith
  · intro i hi k hk
    rw [hlen2] at hi
    rw [HashTable.rehash_getD hB i hi] at hk
    obtain ⟨p, hp, rfl⟩ := List.mem_map.mp hk
    have := (List.mem_filter.mp hp).2
    simpa using this
  · intro i hi
    rw [hlen2] at hi
    rw [HashTable.rehash_getD hB i hi]
    exact List.Nodup.sublist ((List.filter_sublist _).map Prod.fst) hflat

/-! ### Insert preserves the invariant and acts as an upsert on lookups -/

theorem HashTable.insertScan_spec {K V : Type} [DecidableEq K] {hash : K → Nat}
    {t1 : HashTable K V} (hwf : t1.WF hash) (k : K) (v : V)
    (hload : (t1.numElements : ℚ) + 1 ≤ t1.maxLoadFactor * (t1.numBuckets : ℚ)) :
    (HashTable.insertScan hash t1 k v).WF hash ∧
    ∀ k', (HashTable.insertScan hash t1 k v).search hash k' =
      if k' = k then some v else t1.search hash k' := by
  obtain ⟨hlen, hB, hlf, hcnt, hplace, hnd⟩ := hwf
  have hilt : hash k % t1.numBuckets < t1.buckets.length := by
    rw [← hlen]
    exact Nat.mod_lt _ (by omega)
  simp only [HashTable.insertScan]
  rcases hf : aFind (t1.buckets.getD (hash k % t1.numBuckets) []) k with _ | w
  · -- key absent: append a node
    simp only
    constructor
    · refine ⟨by rw [List.length_set]; exact hlen, hB, hlf, ?_, ?_, ?_⟩
      · show ((t1.numElements + 1 : Nat) : ℚ) ≤ _
        push_cast
        exact hload
      · intro i hi key hkey
        rw [List.length_set] at hi
        by_cases hij : hash k % t1.numBuckets = i
        · rw [← hij] at hkey ⊢
          rw [getD_set_self _ _ _ _ hilt, List.map_append] at hkey
          rcases List.mem_append.mp hkey with hk1 | hk1
          · exact hplace _ hilt key hk1
          · simp at hk1
            rw [hk1]
        · rw [getD_set_ne _ _ _ _ _ hij] at hkey
          exact hplace i hi key hkey
      · intro i hi
        rw [List.length_set] at hi
        by_cases hij : hash k % t1.numBuckets = i
        · rw [← hij, getD_set_self _ _ _ _ hilt, List.map_append]
          simp only [List.map_cons, List.map_nil]
          rw [List.nodup_append]
          refine ⟨hnd _ hilt, List.nodup_singleton _, ?_⟩
          intro key hk1 hk2
          simp at hk2
          rw [hk2] at hk1
          exact (aFind_eq_none_iff.mp hf) hk1
        · rw [getD_set_ne _ _ _ _ _ hij]
          exact hnd i hi
    · intro k'
      unfold HashTable.search
      by_cases hkk : k' = k
      · subst hkk
        simp only [if_pos rfl]
        rw [getD_set_self _ _ _ _ hilt, aFind_append, hf]
        simp [aFind]
      · rw [if_neg hkk]
        by_cases hij : hash k % t1.numBuckets = hash k' % t1.numBuckets
        · rw [← hij, getD_set_self _ _ _ _ hilt, aFind_append]
          have hkk' : ¬ k = k' := fun h => hkk h.symm
          have h1 : aFind [(k, v)] k' = none := by simp [aFind, hkk']
          rw [h1]
          rcases aFind (t1.buckets.getD (hash k % t1.numBuckets) []) k' with _ | u <;> rfl
        · rw [getD_set_ne _ _ _ _ _ hij]
  · -- key present: update the node value in place
    simp only
    constructor
    · refine ⟨by rw [List.length_set]; exact hlen, hB, hlf, hcnt, ?_, ?_⟩
      · intro i hi key hkey
        rw [List.length_set] at hi
        by_cases hij : hash k % t1.numBuckets = i
        · rw [← hij] at hkey ⊢
          rw [getD_set_self _ _ _ _ hilt, aSet_map_fst] at hkey
          exact hplace _ hilt key hkey
        · rw [getD_set_ne _ _ _ _ _ hij] at hkey
          exact hplace i hi key hkey
      · intro i hi
        rw [List.length_set] at hi
        by_cases hij : hash k % t1.numBuckets = i
        · rw [← hij, getD_set_self _ _ _ _ hilt, aSet_map_fst]
          exact hnd _ hilt
        · rw [getD_set_ne _ _ _ _ _ hij]
          exact hnd i hi
    · intro k'
      unfold HashTable.search
      by_cases hkk : k' = k
      · subst hkk
        simp only [if_pos rfl]
        rw [getD_set_self _ _ _ _ hilt, aFind_aSet_self, hf]
        rfl
      · rw [if_neg hkk]
        by_cases hij : hash k % t1.numBuckets = hash k' % t1.numBuckets
        · rw [← hij, getD_set_self _ _ _ _ hilt, aFind_aSet_ne _ _ _ _ hkk]
        · rw [getD_set_ne _ _ _ _ _ hij]

theorem HashTable.insert_spec {K V : Type} [DecidableEq K] {hash : K → Nat}
    {t : HashTable K V} (hwf : t.WF hash) (k : K) (v : V) :
    (t.insert hash k v).WF hash ∧
    ∀ k', (t.insert hash k v).search hash k' =
      if k' = k then some v else t.search hash k' := by
  unfold HashTable.insert
  by_cases htrig : ((t.numElements : ℚ) + 1) / (t.numBuckets : ℚ) > t.maxLoadFactor
  · rw [if_pos htrig]
    have hwf2 := HashTable.rehash_WF hwf
    have hload : ((t.rehash hash).numElements : ℚ) + 1 ≤
        (t.rehash hash).maxLoadFactor * ((t.rehash hash).numBuckets : ℚ) := by
      show (t.numElements : ℚ) + 1 ≤ t.maxLoadFactor * ((t.numBuckets * 2 : Nat) : ℚ)
      have h1 := hwf.2.2.1
      have h2 := hwf.2.2.2.1
      push_cast
      nlinarith
    obtain ⟨h1, h2⟩ := HashTable.insertScan_spec hwf2 k v hload
    refine ⟨h1, fun k' => ?_⟩
    rw [h2 k']
    by_cases hkk : k' = k
    · rw [if_pos hkk, if_pos hkk]
    · rw [if_neg hkk, if_neg hkk, HashTable.rehash_search hwf]
  · rw [if_neg htrig]
    have hBpos : (0 : ℚ) < (t.numBuckets : ℚ) := by
      have := hwf.2.1
      exact_mod_cast by omega
    have hload : (t.numElements : ℚ) + 1 ≤ t.maxLoadFactor * (t.numBuckets : ℚ) := by
      rw [not_lt] at htrig
      calc (t.numElements : ℚ) + 1
          = (((t.numElements : ℚ) + 1) / (t.numBuckets : ℚ)) * (t.numBuckets : ℚ) := by
            field_simp
        _ ≤ t.maxLoadFactor * (t.numBuckets : ℚ) := by
            exact mul_le_mul_of_nonneg_right htrig (le_of_lt hBpos)
    exact HashTable.insertScan_spec hwf k v hload

/-- Constructor invariant: a fresh table of `initialSize ≥ 1` buckets with
`1 ≤ loadFactor * initialSize` is well formed. -/
theorem HashTable.mkTable_WF {K V : Type} (hash : K → Nat) (initialSize : Nat)
    (loadFactor : ℚ) (hsize : 1 ≤ initialSize)
    (hlf : 1 ≤ loadFactor * (initialSize : ℚ)) :
    (HashTable.mkTable K V initialSize loadFactor).WF hash := by
  have hb : (HashTable.mkTable K V initialSize loadFactor).buckets
      = List.replicate initialSize [] := rfl
  refine ⟨by simp [HashTable.mkTable], hsize, hlf, ?_, ?_, ?_⟩
  · show ((0 : Nat) : ℚ) ≤ loadFactor * (initialSize : ℚ)
    push_cast
    linarith
  · intro i hi key hkey
    rw [hb, getD_replicate_nil] at hkey
    simp at hkey
  · intro i hi
    rw [hb, getD_replicate_nil]
    simp

theorem aFind_append_some {K V : Type} [DecidableEq K] {l₁ l₂ : List (K × V)} {k : K}
    {u : V} (h : aFind l₁ k = some u) : aFind (l₁ ++ l₂) k = some u := by
  rw [aFind_append, h]
  rfl

theorem aFind_append_none {K V : Type} [DecidableEq K] {l₁ : List (K × V)}
    (l₂ : List (K × V)) {k : K} (h : aFind l₁ k = none) :
    aFind (l₁ ++ l₂) k = aFind l₂ k := by
  rw [aFind_append, h]
  rfl

theorem aFind_append_eq_none {K V : Type} [DecidableEq K] {l₁ l₂ : List (K × V)} {k : K} :
    aFind (l₁ ++ l₂) k = none ↔ aFind l₁ k = none ∧ aFind l₂ k = none := by
  rw [aFind_append]
  rcases h : aFind l₁ k with _ | u
  · show (Option.orElse none fun _ => aFind l₂ k) = none ↔ _
    simp [Option.orElse]
  · show (Option.orElse (some u) fun _ => aFind l₂ k) = none ↔ _
    simp [Option.orElse]

theorem HashTable.foldl_insert_spec {K V : Type} [DecidableEq K] {hash : K → Nat} :
    ∀ (ops : List (K × V)) (t : HashTable K V), t.WF hash →
      (ops.foldl (fun s p => s.insert hash p.1 p.2) t).WF hash ∧
      (∀ k v, aFind ops.reverse k = some v →
        (ops.foldl (fun s p => s.insert hash p.1 p.2) t).search hash k = some v) ∧
      (∀ k, aFind ops.reverse k = none →
        (ops.foldl (fun s p => s.insert hash p.1 p.2) t).search hash k = t.search hash k) := by
  intro ops
  induction ops with
  | nil =>
    intro t hwf
    refine ⟨hwf, fun k v h => ?_, fun k _ => rfl⟩
    cases h
  | cons p ps ih =>
    intro t hwf
    obtain ⟨hwf1, hs1⟩ := HashTable.insert_spec hwf p.1 p.2
    obtain ⟨hwf2, hsA, hsB⟩ := ih _ hwf1
    refine ⟨hwf2, ?_, ?_⟩
    · intro k v hk
      rw [List.reverse_cons] at hk
      rw [List.foldl_cons]
      rcases hps : aFind ps.reverse k with _ | u
      · rw [aFind_append_none _ hps, aFind_cons] at hk
        by_cases hq : p.1 = k
        · rw [if_pos hq] at hk
          rw [hsB k hps, hs1 k, if_pos hq.symm]
          exact hk
        · rw [if_neg hq] at hk
          cases hk
      · rw [aFind_append_some hps] at hk
        injection hk with hk
        rw [← hk]
        exact hsA k u hps
    · intro k hk
      rw [List.reverse_cons, aFind_append_eq_none] at hk
      rw [List.foldl_cons, hsB k hk.1, hs1 k, if_neg]
      have h2 := hk.2
      rw [aFind_cons] at h2
      intro he
      rw [if_pos he.symm] at h2
      cases h2

/-- Sample inputs used by the C4 witness. -/
def sampleHash : Int → Nat := fun z => z.natAbs

/-- Sample insert sequence (with one overwrite) used by the C4 witness. -/
def sampleOps : List (Int × String) := [(5, "a"), (21, "b"), (5, "c")]

/-- The default-shaped table (16 buckets, load factor 0.75) after running
`sampleOps` through `insert`. -/
def sampleTable : HashTable Int String :=
  sampleOps.foldl (fun s p => s.insert sampleHash p.1 p.2)
    (HashTable.mkTable Int String 16 (3 / 4))

/-- C4: after any sequence of `insert` calls on a freshly constructed table
(with at least one bucket and `1 ≤ loadFactor · initialSize`, as with the
default `HashTable(16, 0.75)`), the load bound
`elementCount ≤ maxLoadFactor * bucketCount` holds, and every inserted key is
retrievable by `search` with its most recently inserted value, across all
doubling rehashes. -/
theorem hashTable_insert_load_bound_and_lookup {K V : Type} [DecidableEq K]
    (hash : K → Nat) (ops : List (K × V)) (initialSize : Nat) (loadFactor : ℚ)
    (hsize : 1 ≤ initialSize) (hlf : 1 ≤ loadFactor * (initialSize : ℚ)) :
    (((ops.foldl (fun s p => s.insert hash p.1 p.2)
        (HashTable.mkTable K V initialSize loadFactor)).numElements : ℚ) ≤
      (ops.foldl (fun s p => s.insert hash p.1 p.2)
        (HashTable.mkTable K V initialSize loadFactor)).maxLoadFactor *
      ((ops.foldl (fun s p => s.insert hash p.1 p.2)
        (HashTable.mkTable K V initialSize loadFactor)).numBuckets : ℚ)) ∧
    ∀ k v, aFind ops.reverse k = some v →
      (ops.foldl (fun s p => s.insert hash p.1 p.2)
        (HashTable.mkTable K V initialSize loadFactor)).search hash k = some v := by
  obtain ⟨hwf, hsA, _⟩ := HashTable.foldl_insert_spec ops _
    (HashTable.mkTable_WF hash initialSize loadFactor hsize hlf)
  exact ⟨hwf.2.2.2.1, hsA⟩

/-- Witness for C4: three inserts (one overwriting) on the default table. -/
theorem hashTable_insert_load_bound_and_lookup_witness :
    1 ≤ 16 ∧ (1 : ℚ) ≤ (3 / 4 : ℚ) * ((16 : Nat) : ℚ) ∧
    (((sampleTable.numElements : ℚ) ≤
        sampleTable.maxLoadFactor * (sampleTable.numBuckets : ℚ)) ∧
      ∀ k v, aFind sampleOps.reverse k = some v →
        sampleTable.search sampleHash k = some v) :=
  ⟨by decide, by norm_num,
    hashTable_insert_load_bound_and_lookup sampleHash sampleOps 16 (3 / 4)
      (by decide) (by norm_num)⟩

/-! ### `get` on a miss versus `operator[]` on a miss -/

theorem HashTable.insertScan_of_absent {K V : Type} [DecidableEq K] {hash : K → Nat}
    (t1 : HashTable K V) (k : K) (v : V) (h1 : t1.search hash k = none) :
    HashTable.insertScan hash t1 k v =
      { t1 with
        buckets := t1.buckets.set (hash k % t1.numBuckets)
          ((t1.buckets.getD (hash k % t1.numBuckets) []) ++ [(k, v)]),
        numElements := t1.numElements + 1 } := by
  have h1' : aFind (t1.buckets.getD (hash k % t1.numBuckets) []) k = none := h1
  simp only [HashTable.insertScan]
  rw [h1']

theorem HashTable.opIndex_spec {K V : Type} [DecidableEq K] [Inhabited V] {hash : K → Nat}
    {t : HashTable K V} (hwf : t.WF hash) {k : K} (habs : t.search hash k = none) :
    (t.opIndex hash k).1 = (default : V) ∧
    (t.opIndex hash k).2 = t.insert hash k (default : V) := by
  have habs' : aFind (t.buckets.getD (hash k % t.numBuckets) []) k = none := habs
  simp only [HashTable.opIndex]
  rw [habs']
  refine ⟨rfl, ?_⟩
  unfold HashTable.insert
  by_cases htrig : ((t.numElements : ℚ) + 1) / (t.numBuckets : ℚ) > t.maxLoadFactor
  · rw [if_pos htrig,
      HashTable.insertScan_of_absent _ _ _ (by rw [HashTable.rehash_search hwf k]; exact habs)]
  · rw [if_neg htrig, HashTable.insertScan_of_absent _ _ _ habs]

theorem HashTable.insert_numElements_of_absent {K V : Type} [DecidableEq K] {hash : K → Nat}
    {t : HashTable K V} (hwf : t.WF hash) {k : K} (v : V) (habs : t.search hash k = none) :
    (t.insert hash k v).numElements = t.numElements + 1 := by
  unfold HashTable.insert
  by_cases htrig : ((t.numElements : ℚ) + 1) / (t.numBuckets : ℚ) > t.maxLoadFactor
  · rw [if_pos htrig,
      HashTable.insertScan_of_absent _ _ _ (by rw [HashTable.rehash_search hwf k]; exact habs)]
    rfl
  · rw [if_neg htrig, HashTable.insertScan_of_absent _ _ _ habs]

/-- C9: on an absent key, `get` signals NotFound (the thrown
`std::runtime_error`, modelled as `none`) — being a pure scan it does not
modify the table — whereas `operator[]` inserts a default-constructed value
for the key (raising the element count by one) and returns that default;
afterwards the key maps to the default and every other key still maps to
exactly what it mapped to before. -/
theorem hashTable_get_miss_vs_opIndex {K V : Type} [DecidableEq K] [Inhabited V]
    (hash : K → Nat) (t : HashTable K V) (k : K) (hwf : t.WF hash)
    (habs : t.search hash k = none) :
    t.get hash k = none ∧
    (t.opIndex hash k).1 = (default : V) ∧
    (t.opIndex hash k).2.numElements = t.numElements + 1 ∧
    (t.opIndex hash k).2.search hash k = some (default : V) ∧
    ∀ k', k' ≠ k → (t.opIndex hash k).2.search hash k' = t.search hash k' := by
  obtain ⟨hd, heq⟩ := HashTable.opIndex_spec hwf habs
  obtain ⟨_, hs1⟩ := HashTable.insert_spec hwf k (default : V)
  refine ⟨habs, hd, ?_, ?_, ?_⟩
  · rw [heq]
    exact HashTable.insert_numElements_of_absent hwf _ habs
  · rw [heq, hs1 k, if_pos rfl]
  · intro k' hk'
    rw [heq, hs1 k', if_neg hk']

/-- Witness for C9 on the fresh default table with absent key 7. -/
theorem hashTable_get_miss_vs_opIndex_witness :
    ((HashTable.mkTable Int String 16 (3 / 4)).WF sampleHash ∧
      (HashTable.mkTable Int String 16 (3 / 4)).search sampleHash 7 = none) ∧
    ((HashTable.mkTable Int String 16 (3 / 4)).get sampleHash 7 = none ∧
      ((HashTable.mkTable Int String 16 (3 / 4)).opIndex sampleHash 7).1 = (default : String) ∧
      ((HashTable.mkTable Int String 16 (3 / 4)).opIndex sampleHash 7).2.numElements =
        (HashTable.mkTable Int String 16 (3 / 4)).numElements + 1 ∧
      ((HashTable.mkTable Int String 16 (3 / 4)).opIndex sampleHash 7).2.search sampleHash 7 =
        some (default : String) ∧
      ∀ k', k' ≠ 7 →
        ((HashTable.mkTable Int String 16 (3 / 4)).opIndex sampleHash 7).2.search sampleHash k' =
        (HashTable.mkTable Int String 16 (3 / 4)).search sampleHash k') :=
  ⟨⟨HashTable.mkTable_WF sampleHash 16 (3 / 4) (by decide) (by norm_num), rfl⟩,
    hashTable_get_miss_vs_opIndex sampleHash (HashTable.mkTable Int String 16 (3 / 4)) 7
      (HashTable.mkTable_WF sampleHash 16 (3 / 4) (by decide) (by norm_num)) rfl⟩

/-! ## Indexed min-heap (`include/MinHeap.h`)

The heap is the backing `std::vector<HeapNode>` of (data, priority) nodes,
modelled as a `List (T × P)`. The auxiliary `indexMap` is updated on every
swap so it always maps each datum to its position in the vector; it is
therefore modelled by positional search (`findIdx?`) in the list itself.
`siftUp`/`siftDown` take fuel (`i` resp. `length`) that provably never runs
out, so the wrappers compute exactly the C++ loops. -/

/-- `heap[i].priority < heap[j].priority`; `false` if an index is out of
range (the C++ loops check the ranges before comparing). -/
def pLess {T P : Type} [LinearOrder P] (l : List (T × P)) (i j : Nat) : Bool :=
  match l[i]?, l[j]? with
  | some a, some b => a.2 < b.2
  | _, _ => false

/-- `swapNodes(i, j)`: swap two vector slots (the index map follows along). -/
def swapNodes {T P : Type} (l : List (T × P)) (i j : Nat) : List (T × P) :=
  match l[i]?, l[j]? with
  | some a, some b => (l.set i b).set j a
  | _, _ => l

/-- `siftUp` loop, fuelled: while `i > 0` and the parent has strictly larger
priority, swap with the parent `(i-1)/2` and continue from there. -/
def siftUpF {T P : Type} [LinearOrder P] : Nat → List (T × P) → Nat → List (T × P)
  | 0, l, _ => l
  | fuel + 1, l, i =>
    if 0 < i ∧ pLess l i ((i - 1) / 2) then
      siftUpF fuel (swapNodes l i ((i - 1) / 2)) ((i - 1) / 2)
    else l

/-- `void siftUp(size_t i)`: fuel `i` suffices since the index strictly
decreases. -/
def siftUp {T P : Type} [LinearOrder P] (l : List (T × P)) (i : Nat) : List (T × P) :=
  siftUpF i l i

/-- `siftDown` loop, fuelled: pick the smallest of slot `i` and its two
children; swap and recurse there if it is not `i`. -/
def siftDownF {T P : Type} [LinearOrder P] : Nat → List (T × P) → Nat → List (T × P)
  | 0, l, _ => l
  | fuel + 1, l, i =>
    let m1 := if pLess l (2 * i + 1) i then 2 * i + 1 else i
    let m := if pLess l (2 * i + 2) m1 then 2 * i + 2 else m1
    if m ≠ i then siftDownF fuel (swapNodes l i m) m else l

/-- `void siftDown(size_t i)`: fuel `length` suffices since the index
strictly increases while staying below `length`. -/
def siftDown {T P : Type} [LinearOrder P] (l : List (T × P)) (i : Nat) : List (T × P) :=
  siftDownF l.length l i

/-- `insert(data, priority)` and `decreaseKey(data, newPriority)`. Each
delegates to the other in its first branch (`insert` on a present datum calls
`decreaseKey`; `decreaseKey` on an absent datum calls `insert`), so both C++
methods compute this one function: lower a present node's priority in place
and sift up when strictly smaller, do nothing for a present node otherwise,
and append-and-sift-up an absent datum. -/
def heapUpsert {T P : Type} [DecidableEq T] [LinearOrder P] (l : List (T × P)) (x : T)
    (p : P) : List (T × P) :=
  match l.findIdx? (fun e => e.1 = x) with
  | some i =>
    match l[i]? with
    | some e => if p < e.2 then siftUp (l.set i (e.1, p)) i else l
    | none => l
  | none => siftUp (l ++ [(x, p)]) l.length

/-- `T extractMin()`: returns the root node; with two or more nodes the last
node replaces the root, `pop_back`, then sift down from the root. The
`std::runtime_error` on an empty heap is modelled by `none`. -/
def heapExtractMin {T P : Type} [LinearOrder P] (l : List (T × P)) :
    Option ((T × P) × List (T × P)) :=
  match l with
  | [] => none
  | [e] => some (e, [])
  | e :: f :: rest =>
    some (e, siftDown (((f :: rest).getLastD e) :: (f :: rest).dropLast) 0)

/-- `bool contains(const T& data) const`. -/
def heapContains {T P : Type} [DecidableEq T] (l : List (T × P)) (x : T) : Bool :=
  (l.findIdx? (fun e => e.1 = x)).isSome

/-! ### Structural lemmas: swaps and sifts permute the node list -/

theorem pLess_lt_length {T P : Type} [LinearOrder P] {l : List (T × P)} {i j : Nat}
    (h : pLess l i j = true) : i < l.length ∧ j < l.length := by
  unfold pLess at h
  rcases hi : l[i]? with _ | a <;> rcases hj : l[j]? with _ | b <;> rw [hi, hj] at h <;>
    first
    | cases h
    | exact ⟨List.getElem?_eq_some_iff.mp hi |>.1, List.getElem?_eq_some_iff.mp hj |>.1⟩

theorem swapNodes_length {T P : Type} (l : List (T × P)) (i j : Nat) :
    (swapNodes l i j).length = l.length := by
  unfold swapNodes
  rcases hi : l[i]? with _ | a <;> rcases hj : l[j]? with _ | b <;> simp

theorem swapNodes_getElem? {T P : Type} {l : List (T × P)} {i j : Nat} {a b : T × P}
    (hi : l[i]? = some a) (hj : l[j]? = some b) :
    ∀ n, (swapNodes l i j)[n]? = if n = i then l[j]? else if n = j then l[i]? else l[n]? := by
  intro n
  have hil : i < l.length := (List.getElem?_eq_some_iff.mp hi).1
  have hjl : j < l.length := (List.getElem?_eq_some_iff.mp hj).1
  unfold swapNodes
  rw [hi, hj, List.getElem?_set, List.getElem?_set, List.length_set]
  by_cases hni : n = i <;> by_cases hnj : n = j
  · rw [if_pos hnj.symm, if_pos hjl, if_pos hni, ← hi, ← hj,
      show i = j from hni.symm.trans hnj]
  · have h1 : ¬(j = n) := fun h => hnj h.symm
    rw [if_neg h1, if_pos hni.symm, if_pos hil, if_pos hni]
  · rw [if_pos hnj.symm, if_pos hjl, if_neg hni, if_pos hnj]
  · rw [if_neg (fun h : j = n => hnj h.symm), if_neg (fun h : i = n => hni h.symm),
      if_neg hni, if_neg hnj]

theorem swapNodes_mem {T P : Type} (l : List (T × P)) (i j : Nat) :
    ∀ x, x ∈ swapNodes l i j ↔ x ∈ l := by
  intro x
  rcases hi : l[i]? with _ | a
  · unfold swapNodes
    rw [hi]
  rcases hj : l[j]? with _ | b
  · unfold swapNodes
    rw [hi, hj]
  have hsw := swapNodes_getElem? hi hj
  rw [List.mem_iff_getElem?, List.mem_iff_getElem?]
  constructor
  · rintro ⟨n, hn⟩
    rw [hsw n] at hn
    by_cases hni : n = i
    · rw [if_pos hni] at hn
      exact ⟨j, hn⟩
    · rw [if_neg hni] at hn
      by_cases hnj : n = j
      · rw [if_pos hnj] at hn
        exact ⟨i, hn⟩
      · rw [if_neg hnj] at hn
        exact ⟨n, hn⟩
  · rintro ⟨n, hn⟩
    by_cases hni : n = i
    · refine ⟨j, ?_⟩
      rw [hsw j]
      by_cases hji : j = i
      · rw [if_pos hji, hji, ← hni]
        exact hn
      · rw [if_neg hji, if_pos rfl, ← hni]
        exact hn
    · by_cases hnj : n = j
      · refine ⟨i, ?_⟩
        rw [hsw i, if_pos rfl, ← hnj]
        exact hn
      · refine ⟨n, ?_⟩
        rw [hsw n, if_neg hni, if_neg hnj]
        exact hn

theorem siftUpF_length {T P : Type} [LinearOrder P] :
    ∀ (fuel : Nat) (l : List (T × P)) (i : Nat), (siftUpF fuel l i).length = l.length := by
  intro fuel
  induction fuel with
  | zero => intro l i; rfl
  | succ n ih =>
    intro l i
    rw [siftUpF]
    split
    · rw [ih, swapNodes_length]
    · rfl

theorem siftUpF_mem {T P : Type} [LinearOrder P] :
    ∀ (fuel : Nat) (l : List (T × P)) (i : Nat) (x : T × P),
      x ∈ siftUpF fuel l i ↔ x ∈ l := by
  intro fuel
  induction fuel with
  | zero => intro l i x; rfl
  | succ n ih =>
    intro l i x
    rw [siftUpF]
    split
    · rw [ih, swapNodes_mem]
    · rfl

theorem siftDownF_length {T P : Type} [LinearOrder P] :
    ∀ (fuel : Nat) (l : List (T × P)) (i : Nat), (siftDownF fuel l i).length = l.length := by
  intro fuel
  induction fuel with
  | zero => intro l i; rfl
  | succ n ih =>
    intro l i
    rw [siftDownF]
    set m1 := if pLess l (2 * i + 1) i = true then 2 * i + 1 else i with hm1
    set m := if pLess l (2 * i + 2) m1 = true then 2 * i + 2 else m1 with hm
    by_cases h : m ≠ i
    · rw [if_pos h, ih, swapNodes_length]
    · rw [if_neg h]

theorem siftDownF_mem {T P : Type} [LinearOrder P] :
    ∀ (fuel : Nat) (l : List (T × P)) (i : Nat) (x : T × P),
      x ∈ siftDownF fuel l i ↔ x ∈ l := by
  intro fuel
  induction fuel with
  | zero => intro l i x; rfl
  | succ n ih =>
    intro l i x
    rw [siftDownF]
    set m1 := if pLess l (2 * i + 1) i = true then 2 * i + 1 else i with hm1
    set m := if pLess l (2 * i + 2) m1 = true then 2 * i + 2 else m1 with hm
    by_cases h : m ≠ i
    · rw [if_pos h, ih, swapNodes_mem]
    · rw [if_neg h]

theorem siftUp_mem {T P : Type} [LinearOrder P] (l : List (T × P)) (i : Nat) (x : T × P) :
    x ∈ siftUp l i ↔ x ∈ l := siftUpF_mem i l i x

theorem siftDown_mem {T P : Type} [LinearOrder P] (l : List (T × P)) (i : Nat) (x : T × P) :
    x ∈ siftDown l i ↔ x ∈ l := siftDownF_mem l.length l i x

theorem siftDown_length {T P : Type} [LinearOrder P] (l : List (T × P)) (i : Nat) :
    (siftDown l i).length = l.length := siftDownF_length l.length l i

/-! ### The fuelled sifts compute the C++ loops exactly -/

theorem pLess_eq_false_iff {T P : Type} [LinearOrder P] {l : List (T × P)} {i j : Nat}
    {a b : T × P} (hi : l[i]? = some a) (hj : l[j]? = some b) :
    pLess l i j = false ↔ ¬(a.2 < b.2) := by
  unfold pLess
  rw [hi, hj]
  simp

theorem pLess_eq_true_iff {T P : Type} [LinearOrder P] {l : List (T × P)} {i j : Nat}
    {a b : T × P} (hi : l[i]? = some a) (hj : l[j]? = some b) :
    pLess l i j = true ↔ a.2 < b.2 := by
  unfold pLess
  rw [hi, hj]
  simp

theorem siftUpF_congr {T P : Type} [LinearOrder P] :
    ∀ (i f f' : Nat) (l : List (T × P)), i ≤ f → i ≤ f' →
      siftUpF f l i = siftUpF f' l i := by
  intro i
  induction i using Nat.strong_induction_on with
  | _ i ih =>
    intro f f' l hf hf'
    rcases i with _ | n
    · have h0 : ∀ g, siftUpF g l 0 = l := by
        intro g
        cases g with
        | zero => rfl
        | succ g => rw [siftUpF]; simp
      rw [h0, h0]
    · rcases f with _ | fa
      · omega
      rcases f' with _ | fb
      · omega
      rw [siftUpF, siftUpF]
      by_cases hc : 0 < n + 1 ∧ pLess l (n + 1) ((n + 1 - 1) / 2) = true
      · rw [if_pos hc, if_pos hc]
        exact ih ((n + 1 - 1) / 2) (by omega) _ _ _ (by omega) (by omega)
      · rw [if_neg hc, if_neg hc]

theorem siftUp_unfold {T P : Type} [LinearOrder P] (l : List (T × P)) (i : Nat) :
    siftUp l i = if 0 < i ∧ pLess l i ((i - 1) / 2) = true then
      siftUp (swapNodes l i ((i - 1) / 2)) ((i - 1) / 2) else l := by
  unfold siftUp
  rcases i with _ | n
  · rw [if_neg (by simp)]
    rfl
  · rw [siftUpF]
    by_cases hc : 0 < n + 1 ∧ pLess l (n + 1) ((n + 1 - 1) / 2) = true
    · rw [if_pos hc, if_pos hc]
      exact siftUpF_congr _ _ _ _ (by omega) (by omega)
    · rw [if_neg hc, if_neg hc]

theorem siftDownF_of_oor {T P : Type} [LinearOrder P] (l : List (T × P)) (i : Nat)
    (h : l.length ≤ i) : ∀ g, siftDownF g l i = l := by
  intro g
  cases g with
  | zero => rfl
  | succ g =>
    rw [siftDownF]
    have h1 : pLess l (2 * i + 1) i = false := by
      cases hb : pLess l (2 * i + 1) i
      · rfl
      · exact absurd (pLess_lt_length hb).2 (by omega)
    have h2 : pLess l (2 * i + 2) i = false := by
      cases hb : pLess l (2 * i + 2) i
      · rfl
      · exact absurd (pLess_lt_length hb).2 (by omega)
    rw [h1]
    simp only [Bool.false_eq_true, if_false]
    rw [h2]
    simp

theorem siftDownF_congr {T P : Type} [LinearOrder P] :
    ∀ (f f' : Nat) (l : List (T × P)) (i : Nat),
      l.length - i ≤ f → l.length - i ≤ f' → siftDownF f l i = siftDownF f' l i := by
  intro f
  induction f with
  | zero =>
    intro f' l i hf hf'
    have hle : l.length ≤ i := by omega
    rw [siftDownF_of_oor l i hle, siftDownF_of_oor l i hle]
  | succ fa ih =>
    intro f' l i hf hf'
    by_cases hle : l.length ≤ i
    · rw [siftDownF_of_oor l i hle, siftDownF_of_oor l i hle]
    · push_neg at hle
      rcases f' with _ | fb
      · omega
      rw [siftDownF, siftDownF]
      set m1 := if pLess l (2 * i + 1) i = true then 2 * i + 1 else i with hm1
      set m := if pLess l (2 * i + 2) m1 = true then 2 * i + 2 else m1 with hm
      by_cases hmi : m ≠ i
      · have hbound : i < m ∧ m < l.length := by
          rw [hm]
          by_cases hc1 : pLess l (2 * i + 2) m1 = true
          · rw [if_pos hc1]
            exact ⟨by omega, (pLess_lt_length hc1).1⟩
          · rw [if_neg hc1]
            rw [hm1]
            by_cases hc2 : pLess l (2 * i + 1) i = true
            · rw [if_pos hc2]
              exact ⟨by omega, (pLess_lt_length hc2).1⟩
            · exfalso
              apply hmi
              rw [hm, if_neg hc1, hm1, if_neg hc2]
        rw [if_pos hmi, if_pos hmi]
        apply ih
        · rw [swapNodes_length]
          omega
        · rw [swapNodes_length]
          omega
      · rw [if_neg hmi, if_neg hmi]

theorem siftDown_unfold {T P : Type} [LinearOrder P] (l : List (T × P)) (i : Nat) :
    siftDown l i =
      (let m1 := if pLess l (2 * i + 1) i = true then 2 * i + 1 else i
       let m := if pLess l (2 * i + 2) m1 = true then 2 * i + 2 else m1
       if m ≠ i then siftDown (swapNodes l i m) m else l) := by
  unfold siftDown
  by_cases hle : l.length ≤ i
  · rw [siftDownF_of_oor l i hle]
    have h1 : pLess l (2 * i + 1) i = false := by
      cases hb : pLess l (2 * i + 1) i
      · rfl
      · exact absurd (pLess_lt_length hb).2 (by omega)
    have h2 : pLess l (2 * i + 2) i = false := by
      cases hb : pLess l (2 * i + 2) i
      · rfl
      · exact absurd (pLess_lt_length hb).2 (by omega)
    rw [h1]
    simp only [Bool.false_eq_true, if_false]
    rw [h2]
    simp
  · push_neg at hle
    obtain ⟨g, hg⟩ : ∃ g, l.length = g + 1 := ⟨l.length - 1, by omega⟩
    rw [hg, siftDownF]
    simp only
    set m1 := if pLess l (2 * i + 1) i = true then 2 * i + 1 else i with hm1
    set m := if pLess l (2 * i + 2) m1 = true then 2 * i + 2 else m1 with hm
    by_cases hmi : m ≠ i
    · have hbound : i < m ∧ m < l.length := by
        rw [hm]
        by_cases hc1 : pLess l (2 * i + 2) m1 = true
        · rw [if_pos hc1]
          exact ⟨by omega, (pLess_lt_length hc1).1⟩
        · rw [if_neg hc1]
          rw [hm1]
          by_cases hc2 : pLess l (2 * i + 1) i = true
          · rw [if_pos hc2]
            exact ⟨by omega, (pLess_lt_length hc2).1⟩
          · exfalso
            apply hmi
            rw [hm, if_neg hc1, hm1, if_neg hc2]
      rw [if_pos hmi, if_pos hmi]
      apply siftDownF_congr
      · rw [swapNodes_length]
        omega
      · rw [swapNodes_length]
        omega
    · rw [if_neg hmi, if_neg hmi]

/-! ### The heap ordering invariant -/

/-- The min-heap property of the node vector: every node with a parent has
priority at least its parent's. -/
def IsHeap {T P : Type} [LinearOrder P] (l : List (T × P)) : Prop :=
  ∀ j : Nat, 0 < j → ∀ pe e : T × P,
    l[(j - 1) / 2]? = some pe → l[j]? = some e → pe.2 ≤ e.2

/-- Sifting up restores the heap invariant: if every parent/child pair is
ordered except possibly the pair above slot `i`, and additionally slot `i`'s
parent is bounded by `i`'s children, then `siftUp i` produces a heap. -/
theorem siftUp_isHeap {T P : Type} [LinearOrder P] :
    ∀ (i : Nat) (l : List (T × P)),
      (∀ j, 0 < j → j ≠ i → ∀ pe e : T × P,
        l[(j - 1) / 2]? = some pe → l[j]? = some e → pe.2 ≤ e.2) →
      (∀ j, 0 < j → (j - 1) / 2 = i → ∀ pe e : T × P,
        l[(i - 1) / 2]? = some pe → l[j]? = some e → pe.2 ≤ e.2) →
      IsHeap (siftUp l i) := by
  intro i
  induction i using Nat.strong_induction_on with
  | _ i ih =>
    intro l ha hb
    rw [siftUp_unfold]
    by_cases hc : 0 < i ∧ pLess l i ((i - 1) / 2) = true
    · rw [if_pos hc]
      obtain ⟨hipos, hplt⟩ := hc
      obtain ⟨hil, hpl⟩ := pLess_lt_length hplt
      set p := (i - 1) / 2 with hp
      rcases hli : l[i]? with _ | li
      · rw [List.getElem?_eq_none_iff] at hli
        omega
      rcases hlp : l[p]? with _ | lp
      · rw [List.getElem?_eq_none_iff] at hlp
        omega
      have hlt : li.2 < lp.2 := (pLess_eq_true_iff hli hlp).mp hplt
      have hppos : p < i := by omega
      have hsw := swapNodes_getElem? hli hlp
      refine ih p hppos (swapNodes l i p) ?_ ?_
      · intro j hj0 hjp pe e hpe he
        rw [hsw ((j - 1) / 2)] at hpe
        rw [hsw j] at he
        by_cases hji : j = i
        · subst hji
          rw [if_pos rfl, hlp] at he
          injection he with he
          rw [if_neg (show ¬ p = j from by omega), if_pos rfl, hli] at hpe
          injection hpe with hpe
          rw [← hpe, ← he]
          exact le_of_lt hlt
        · rw [if_neg hji, if_neg hjp] at he
          by_cases hqi : (j - 1) / 2 = i
          · rw [if_pos hqi, hlp] at hpe
            injection hpe with hpe
            have h2 := hb j hj0 hqi lp e hlp he
            rw [← hpe]
            exact h2
          · by_cases hqp : (j - 1) / 2 = p
            · rw [if_neg hqi, if_pos hqp, hli] at hpe
              injection hpe with hpe
              have h2 := ha j hj0 hji lp e (by rw [hqp]; exact hlp) he
              rw [← hpe]
              exact le_trans (le_of_lt hlt) h2
            · rw [if_neg hqi, if_neg hqp] at hpe
              exact ha j hj0 hji pe e hpe he
      · intro j hj0 hjp pe e hpe he
        rw [hsw ((p - 1) / 2)] at hpe
        rw [hsw j] at he
        have hgne : ¬ (p - 1) / 2 = i := by omega
        rw [if_neg hgne] at hpe
        have hjnep : ¬ j = p := by omega
        by_cases hji : j = i
        · subst hji
          rw [if_pos rfl, hlp] at he
          injection he with he
          by_cases hgp : (p - 1) / 2 = p
          · rw [if_pos hgp, hli] at hpe
            injection hpe with hpe
            rw [← hpe, ← he]
            exact le_of_lt hlt
          · rw [if_neg hgp] at hpe
            have h2 := ha p (by omega) (by omega) pe lp hpe hlp
            rw [← he]
            exact h2
        · rw [if_neg hji, if_neg hjnep] at he
          have h2 := ha j hj0 hji lp e (by rw [hjp]; exact hlp) he
          by_cases hgp : (p - 1) / 2 = p
          · rw [if_pos hgp, hli] at hpe
            injection hpe with hpe
            rw [← hpe]
            exact le_trans (le_of_lt hlt) h2
          · rw [if_neg hgp] at hpe
            have h3 := ha p (by omega) (by omega) pe lp hpe hlp
            exact le_trans h3 h2
    · rw [if_neg hc]
      intro j hj0 pe e hpe he
      by_cases hji : j = i
      · subst hji
        have hfalse : pLess l j ((j - 1) / 2) = false := by
          cases hbo : pLess l j ((j - 1) / 2)
          · rfl
          · exact absurd ⟨hj0, hbo⟩ hc
        exact not_lt.mp ((pLess_eq_false_iff he hpe).mp hfalse)
      · exact ha j hj0 hji pe e hpe he

theorem bneFalse {b : Bool} (h : ¬ b = true) : b = false := by
  cases b
  · rfl
  · exact absurd rfl h

/-- When the `siftDown` step at slot `i` picks `m ≠ i`, slot `m` is a child
of `i` holding the strict minimum of slot `i` and its in-range children. -/
theorem down_min_facts {T P : Type} [LinearOrder P] {l : List (T × P)} {i m : Nat}
    (hme : m = (if pLess l (2 * i + 2)
          (if pLess l (2 * i + 1) i = true then 2 * i + 1 else i) = true
        then 2 * i + 2
        else if pLess l (2 * i + 1) i = true then 2 * i + 1 else i))
    (hmne : m ≠ i) :
    ∃ li lm : T × P, (m = 2 * i + 1 ∨ m = 2 * i + 2) ∧ m < l.length ∧
      l[i]? = some li ∧ l[m]? = some lm ∧ lm.2 < li.2 ∧
      ∀ c (e : T × P), (c = 2 * i + 1 ∨ c = 2 * i + 2) → l[c]? = some e → lm.2 ≤ e.2 := by
  by_cases hc2 : pLess l (2 * i + 1) i = true
  · rw [if_pos hc2] at hme
    obtain ⟨h1l, hil⟩ := pLess_lt_length hc2
    rcases hle : l[2 * i + 1]? with _ | e1
    · rw [List.getElem?_eq_none_iff] at hle
      omega
    rcases hli : l[i]? with _ | li
    · rw [List.getElem?_eq_none_iff] at hli
      omega
    have h1lt : e1.2 < li.2 := (pLess_eq_true_iff hle hli).mp hc2
    by_cases hc1 : pLess l (2 * i + 2) (2 * i + 1) = true
    · rw [if_pos hc1] at hme
      obtain ⟨h2l, _⟩ := pLess_lt_length hc1
      rcases hle2 : l[2 * i + 2]? with _ | e2
      · rw [List.getElem?_eq_none_iff] at hle2
        omega
      have h2lt : e2.2 < e1.2 := (pLess_eq_true_iff hle2 hle).mp hc1
      subst hme
      refine ⟨li, e2, Or.inr rfl, h2l, rfl, hle2, lt_trans h2lt h1lt, ?_⟩
      intro c e hcor he
      rcases hcor with hcor | hcor <;> subst hcor
      · rw [hle] at he
        injection he with he
        rw [← he]
        exact le_of_lt h2lt
      · rw [hle2] at he
        injection he with he
        rw [← he]
    · rw [if_neg hc1] at hme
      subst hme
      refine ⟨li, e1, Or.inl rfl, h1l, rfl, hle, h1lt, ?_⟩
      intro c e hcor he
      rcases hcor with hcor | hcor <;> subst hcor
      · rw [hle] at he
        injection he with he
        rw [← he]
      · exact le_of_not_lt ((pLess_eq_false_iff he hle).mp (bneFalse hc1))
  · rw [if_neg hc2] at hme
    by_cases hc1 : pLess l (2 * i + 2) i = true
    · rw [if_pos hc1] at hme
      obtain ⟨h2l, hil⟩ := pLess_lt_length hc1
      rcases hle2 : l[2 * i + 2]? with _ | e2
      · rw [List.getElem?_eq_none_iff] at hle2
        omega
      rcases hli : l[i]? with _ | li
      · rw [List.getElem?_eq_none_iff] at hli
        omega
      have h2lt : e2.2 < li.2 := (pLess_eq_true_iff hle2 hli).mp hc1
      subst hme
      refine ⟨li, e2, Or.inr rfl, h2l, rfl, hle2, h2lt, ?_⟩
      intro c e hcor he
      rcases hcor with hcor | hcor <;> subst hcor
      · have hlei : li.2 ≤ e.2 := le_of_not_lt ((pLess_eq_false_iff he hli).mp (bneFalse hc2))
        exact le_trans (le_of_lt h2lt) hlei
      · rw [hle2] at he
        injection he with he
        rw [← he]
    · rw [if_neg hc1] at hme
      exact absurd hme hmne

/-- Sifting down restores the heap invariant: if every parent/child pair is
ordered except possibly the pairs below slot `i`, and (for `i > 0`) slot
`i`'s parent is bounded by `i`'s children, then `siftDown i` is a heap. -/
theorem siftDown_isHeap {T P : Type} [LinearOrder P] :
    ∀ (n : Nat) (l : List (T × P)) (i : Nat), l.length - i ≤ n →
      (∀ j, 0 < j → (j - 1) / 2 ≠ i → ∀ pe e : T × P,
        l[(j - 1) / 2]? = some pe → l[j]? = some e → pe.2 ≤ e.2) →
      (0 < i → ∀ j, 0 < j → (j - 1) / 2 = i → ∀ pe e : T × P,
        l[(i - 1) / 2]? = some pe → l[j]? = some e → pe.2 ≤ e.2) →
      IsHeap (siftDown l i) := by
  intro n
  induction n with
  | zero =>
    intro l i hn ha hb
    have hle : l.length ≤ i := by omega
    show IsHeap (siftDownF l.length l i)
    rw [siftDownF_of_oor l i hle]
    intro j hj0 pe e hpe he
    by_cases hqi : (j - 1) / 2 = i
    · exfalso
      have hjl := (List.getElem?_eq_some_iff.mp he).1
      omega
    · exact ha j hj0 hqi pe e hpe he
  | succ nn ih =>
    intro l i hn ha hb
    rw [siftDown_unfold]
    simp only
    set m1 := if pLess l (2 * i + 1) i = true then 2 * i + 1 else i with hm1
    set m := if pLess l (2 * i + 2) m1 = true then 2 * i + 2 else m1 with hm
    by_cases hmi : m ≠ i
    · rw [if_pos hmi]
      obtain ⟨li, lm, hm_or, hml, hli, hlm, hlt, hmin⟩ :=
        down_min_facts (by rw [hm, hm1]) hmi
      have himl : i < m := by omega
      have hsw := swapNodes_getElem? hli hlm
      apply ih (swapNodes l i m) m
      · rw [swapNodes_length]
        omega
      · -- pairs away from m hold in the swapped vector
        intro j hj0 hjm' pe e hpe he
        rw [hsw ((j - 1) / 2)] at hpe
        rw [hsw j] at he
        by_cases hji : j = i
        · -- the pair above slot i: grandparent against the value moved up
          have hipos : 0 < i := hji ▸ hj0
          have hq1 : ¬ (i - 1) / 2 = i := by omega
          have hq2 : ¬ (i - 1) / 2 = m := by omega
          rw [hji, if_neg hq1, if_neg hq2] at hpe
          rw [if_pos hji, hlm] at he
          injection he with he
          rw [← he]
          exact hb hipos m (by omega) (by omega) pe lm hpe hlm
        · by_cases hqi : (j - 1) / 2 = i
          · rw [if_pos hqi, hlm] at hpe
            injection hpe with hpe
            by_cases hjm : j = m
            · rw [if_neg hji, if_pos hjm, hli] at he
              injection he with he
              rw [← hpe, ← he]
              exact le_of_lt hlt
            · rw [if_neg hji, if_neg hjm] at he
              rw [← hpe]
              exact hmin j e (by omega) he
          · have hjm : ¬ j = m := by omega
            rw [if_neg hqi, if_neg hjm'] at hpe
            rw [if_neg hji, if_neg hjm] at he
            exact ha j hj0 hqi pe e hpe he
      · -- grandparent condition at the new slot m
        intro hmpos j hj0 hjm pe e hpe he
        rw [hsw ((m - 1) / 2)] at hpe
        rw [hsw j] at he
        have hqm_i : (m - 1) / 2 = i := by omega
        rw [if_pos hqm_i, hlm] at hpe
        injection hpe with hpe
        have hji : ¬ j = i := by omega
        have hjm2 : ¬ j = m := by omega
        rw [if_neg hji, if_neg hjm2] at he
        rw [← hpe]
        exact ha j hj0 (by omega) lm e (by rw [hjm]; exact hlm) he
    · rw [if_neg hmi]
      push_neg at hmi
      have hc1 : pLess l (2 * i + 2) m1 = false := by
        cases hx : pLess l (2 * i + 2) m1
        · rfl
        · exfalso
          have : m = 2 * i + 2 := by rw [hm, if_pos hx]
          omega
      have hm1i : m1 = i := by
        have := hm
        rw [hc1] at this
        simp at this
        omega
      have hc2 : pLess l (2 * i + 1) i = false := by
        cases hx : pLess l (2 * i + 1) i
        · rfl
        · exfalso
          have : m1 = 2 * i + 1 := by rw [hm1, if_pos hx]
          omega
      intro j hj0 pe e hpe he
      by_cases hqi : (j - 1) / 2 = i
      · have hjor : j = 2 * i + 1 ∨ j = 2 * i + 2 := by omega
        rw [hqi] at hpe
        rcases hjor with hj | hj <;> subst hj
        · exact le_of_not_lt ((pLess_eq_false_iff he hpe).mp hc2)
        · rw [hm1i] at hc1
          exact le_of_not_lt ((pLess_eq_false_iff he hpe).mp hc1)
      · exact ha j hj0 hqi pe e hpe he

/-- In a heap the root has minimal priority. -/
theorem isHeap_root_min {T P : Type} [LinearOrder P] {l : List (T × P)} (h : IsHeap l)
    {r : T × P} (hr : l[0]? = some r) :
    ∀ (j : Nat) (e : T × P), l[j]? = some e → r.2 ≤ e.2 := by
  intro j
  induction j using Nat.strong_induction_on with
  | _ j ih =>
    intro e he
    rcases Nat.eq_zero_or_pos j with hj0 | hjpos
    · subst hj0
      rw [hr] at he
      injection he with he
      rw [he]
    · have hq : (j - 1) / 2 < j := by omega
      have hjl := (List.getElem?_eq_some_iff.mp he).1
      rcases hpe : l[(j - 1) / 2]? with _ | pe
      · rw [List.getElem?_eq_none_iff] at hpe
        omega
      exact le_trans (ih _ hq pe hpe) (h j hjpos pe e hpe he)

/-- `insert`/`decreaseKey` preserve the heap invariant. -/
theorem heapUpsert_isHeap {T P : Type} [DecidableEq T] [LinearOrder P] {l : List (T × P)}
    (h : IsHeap l) (x : T) (p : P) : IsHeap (heapUpsert l x p) := by
  unfold heapUpsert
  rcases hidx : l.findIdx? (fun e => e.1 = x) with _ | i
  · rw [hidx]
    apply siftUp_isHeap
    · intro j hj0 hji pe e hpe he
      have hjl := (List.getElem?_eq_some_iff.mp he).1
      rw [List.length_append, List.length_singleton] at hjl
      have hjl2 : j < l.length := by omega
      have hql2 : (j - 1) / 2 < l.length := by omega
      rw [List.getElem?_append_left hjl2] at he
      rw [List.getElem?_append_left hql2] at hpe
      exact h j hj0 pe e hpe he
    · intro j hj0 hjq pe e hpe he
      exfalso
      have hjl := (List.getElem?_eq_some_iff.mp he).1
      rw [List.length_append, List.length_singleton] at hjl
      omega
  · rw [hidx]
    change IsHeap (match l[i]? with
      | some e => if p < e.2 then siftUp (l.set i (e.1, p)) i else l
      | none => l)
    rcases hie : l[i]? with _ | e0
    · exact h
    change IsHeap (if p < e0.2 then siftUp (l.set i (e0.1, p)) i else l)
    by_cases hplt : p < e0.2
    · rw [if_pos hplt]
      have hil : i < l.length := (List.getElem?_eq_some_iff.mp hie).1
      apply siftUp_isHeap
      · intro j hj0 hji pe e hpe he
        rw [List.getElem?_set] at he hpe
        rw [if_neg (fun hh : i = j => hji hh.symm)] at he
        by_cases hqi : i = (j - 1) / 2
        · rw [if_pos hqi, if_pos hil] at hpe
          injection hpe with hpe
          have h2 := h j hj0 e0 e (by rw [← hqi]; exact hie) he
          rw [← hpe]
          exact le_trans (le_of_lt hplt) h2
        · rw [if_neg hqi] at hpe
          exact h j hj0 pe e hpe he
      · intro j hj0 hjq pe e hpe he
        have hjne : ¬ i = j := by omega
        rw [List.getElem?_set, if_neg hjne] at he
        rw [List.getElem?_set] at hpe
        by_cases hi0 : i = 0
        · rw [if_pos (by omega), if_pos hil] at hpe
          injection hpe with hpe
          have h2 := h j hj0 e0 e (by rw [hjq]; exact hie) he
          rw [← hpe]
          exact le_trans (le_of_lt hplt) h2
        · rw [if_neg (by omega)] at hpe
          have h2 := h i (by omega) pe e0 hpe hie
          have h3 := h j hj0 e0 e (by rw [hjq]; exact hie) he
          exact le_trans h2 h3
    · rw [if_neg hplt]
      exact h

theorem heapExtractMin_elim {T P : Type} [LinearOrder P] {l : List (T × P)}
    {r : T × P} {l' : List (T × P)} (h : heapExtractMin l = some (r, l')) :
    l[0]? = some r ∧ (∀ x ∈ l', x ∈ l) ∧ l'.length = l.length - 1 := by
  rcases l with _ | ⟨e, l2⟩
  · cases h
  rcases l2 with _ | ⟨f, rest⟩
  · simp only [heapExtractMin, Option.some.injEq, Prod.mk.injEq] at h
    obtain ⟨h1, h2⟩ := h
    subst h1
    subst h2
    refine ⟨rfl, ?_, rfl⟩
    intro x hx
    cases hx
  · simp only [heapExtractMin, Option.some.injEq, Prod.mk.injEq] at h
    obtain ⟨h1, h2⟩ := h
    subst h1
    refine ⟨rfl, ?_, ?_⟩
    · intro x hx
      rw [← h2, siftDown_mem] at hx
      rcases List.mem_cons.mp hx with h3 | h3
      · rcases hg : (f :: rest).getLast? with _ | g
        · rw [List.getLast?_eq_none_iff] at hg
          cases hg
        · rw [List.getLastD_eq_getLast?, hg] at h3
          have := List.mem_of_mem_getLast? hg
          rw [h3]
          exact List.mem_cons_of_mem _ this
      · exact List.mem_cons_of_mem _ ((List.dropLast_sublist (f :: rest)).mem h3)
    · rw [← h2, siftDown_length]
      simp

theorem heapExtractMin_isHeap {T P : Type} [LinearOrder P] {l : List (T × P)}
    (hh : IsHeap l) {r : T × P} {l' : List (T × P)}
    (h : heapExtractMin l = some (r, l')) : IsHeap l' := by
  rcases l with _ | ⟨e, l2⟩
  · cases h
  rcases l2 with _ | ⟨f, rest⟩
  · simp only [heapExtractMin, Option.some.injEq, Prod.mk.injEq] at h
    rw [← h.2]
    intro j hj0 pe e2 hpe he
    cases he
  · simp only [heapExtractMin, Option.some.injEq, Prod.mk.injEq] at h
    rw [← h.2]
    set l0 := ((f :: rest).getLastD e) :: (f :: rest).dropLast with hl0
    have hpos_get : ∀ n (y : T × P), 0 < n → l0[n]? = some y → (e :: f :: rest)[n]? = some y := by
      intro n y hn hy
      obtain ⟨k, rfl⟩ : ∃ k, n = k + 1 := ⟨n - 1, by omega⟩
      rw [hl0, List.getElem?_cons_succ, List.getElem?_dropLast] at hy
      rw [List.getElem?_cons_succ]
      by_cases hk : k < (f :: rest).length - 1
      · rwa [if_pos hk] at hy
      · rw [if_neg hk] at hy
        cases hy
    apply siftDown_isHeap l0.length l0 0 (by omega)
    · intro j hj0 hjq pe e2 hpe he
      have hq0 : 0 < (j - 1) / 2 := by omega
      have h1 := hpos_get _ _ hq0 hpe
      have h2 := hpos_get _ _ hj0 he
      exact hh j hj0 pe e2 h1 h2
    · intro h0
      exact absurd h0 (by omega)

/-- `extractMin` until empty, fuelled. -/
def extractAllF {T P : Type} [LinearOrder P] : Nat → List (T × P) → List (T × P)
  | 0, _ => []
  | fuel + 1, l =>
    match heapExtractMin l with
    | none => []
    | some (e, l') => e :: extractAllF fuel l'

/-- Repeatedly call `extractMin` until the heap is empty, collecting the
extracted nodes in order; each call shrinks the vector by one node, so
`length` rounds drain the heap completely. -/
def extractAll {T P : Type} [LinearOrder P] (l : List (T × P)) : List (T × P) :=
  extractAllF l.length l

theorem extractAllF_sorted {T P : Type} [LinearOrder P] :
    ∀ (fuel : Nat) (l : List (T × P)), IsHeap l →
      List.Sorted (· ≤ ·) ((extractAllF fuel l).map Prod.snd) ∧
      ∀ x ∈ extractAllF fuel l, x ∈ l := by
  intro fuel
  induction fuel with
  | zero =>
    intro l h
    exact ⟨List.sorted_nil, fun x hx => by cases hx⟩
  | succ n ih =>
    intro l h
    rw [extractAllF]
    rcases hx : heapExtractMin l with _ | ⟨⟨r, l'⟩⟩
    · exact ⟨List.sorted_nil, fun x hx2 => by cases hx2⟩
    · obtain ⟨hroot, hmem, _⟩ := heapExtractMin_elim hx
      have hh' := heapExtractMin_isHeap h hx
      obtain ⟨hs, hm⟩ := ih l' hh'
      constructor
      · rw [List.map_cons, List.sorted_cons]
        refine ⟨?_, hs⟩
        intro b hb
        obtain ⟨y, hy, rfl⟩ := List.mem_map.mp hb
        obtain ⟨jn, hjn⟩ := List.mem_iff_getElem?.mp (hmem y (hm y hy))
        exact isHeap_root_min h hroot jn y hjn
      · intro x hx2
        rcases List.mem_cons.mp hx2 with h1 | h1
        · subst h1
          exact List.mem_iff_getElem?.mpr ⟨0, hroot⟩
        · exact hmem x (hm x h1)

/-- Load a heap with a sequence of `insert` calls. -/
def heapOfList {T P : Type} [DecidableEq T] [LinearOrder P] (xs : List (T × P)) :
    List (T × P) :=
  xs.foldl (fun l e => heapUpsert l e.1 e.2) []

theorem heapOfList_isHeap {T P : Type} [DecidableEq T] [LinearOrder P] (xs : List (T × P)) :
    IsHeap (heapOfList xs) := by
  have hgen : ∀ (ys : List (T × P)) (l : List (T × P)), IsHeap l →
      IsHeap (ys.foldl (fun s e => heapUpsert s e.1 e.2) l) := by
    intro ys
    induction ys with
    | nil => intro l hl; exact hl
    | cons y ys ih =>
      intro l hl
      exact ih _ (heapUpsert_isHeap hl y.1 y.2)
  exact hgen xs [] (fun j hj0 pe e hpe he => by cases he)

/-- C5: loading a min-heap through `insert` calls with pairwise-distinct
elements and arbitrary priorities, then repeatedly calling `extractMin` until
the heap is empty, returns the nodes in non-decreasing order of priority. -/
theorem minHeap_extract_sorted {T P : Type} [DecidableEq T] [LinearOrder P]
    (xs : List (T × P)) (hnd : (xs.map Prod.fst).Nodup) :
    List.Sorted (· ≤ ·) ((extractAll (heapOfList xs)).map Prod.snd) :=
  (extractAllF_sorted _ _ (heapOfList_isHeap xs)).1

/-- Witness for C5 with three distinct elements and shuffled priorities. -/
theorem minHeap_extract_sorted_witness :
    (([(0, 5), (1, 3), (2, 4)] : List (Nat × Int)).map Prod.fst).Nodup ∧
    List.Sorted (· ≤ ·)
      ((extractAll (heapOfList ([(0, 5), (1, 3), (2, 4)] : List (Nat × Int)))).map Prod.snd) :=
  ⟨by decide, minHeap_extract_sorted _ (by decide)⟩

/-! ## Weighted graph and Dijkstra (`include/Graph.h`)

The adjacency structure is `std::unordered_map<int, std::vector<Edge>>`,
modelled as an association list keyed by vertex id (`addVertex` inserts each
id once, so keys are unique and map semantics coincide). `double` distances
and times are `ℚ`, and `std::numeric_limits<double>::infinity()` is `⊤` in
`WithTop ℚ`. In the C++ `dijkstra`, `distances`/`times` are initialised to
`INF` for every stored vertex and `0` for the source, and are only ever read
at stored vertices (every popped id and every edge destination is a vertex by
construction), so they are modelled as total functions that are `0` at the
source and `⊤` elsewhere. -/

structure Edge where
  destination : Int
  distance : ℚ
  baseTime : ℚ
  trafficMultiplier : ℚ
  roadName : String
deriving DecidableEq

/-- `double getActualTime() const`. -/
def Edge.getActualTime (e : Edge) : ℚ :=
  e.baseTime * e.trafficMultiplier

structure Graph where
  adjacencyList : List (Int × List Edge)
  numVertices : Nat

/-- `Graph() : numVertices(0)`. -/
def Graph.emptyGraph : Graph := ⟨[], 0⟩

/-- `bool hasVertex(int id) const`. -/
def Graph.hasVertex (g : Graph) (id : Int) : Bool :=
  (aFind g.adjacencyList id).isSome

/-- `void addVertex(int id)`. -/
def Graph.addVertex (g : Graph) (id : Int) : Graph :=
  if g.hasVertex id then g
  else ⟨g.adjacencyList ++ [(id, [])], g.numVertices + 1⟩

/-- `getNeighbors(id)`: the stored edge vector, or empty if absent. -/
def Graph.getNeighbors (g : Graph) (id : Int) : List Edge :=
  (aFind g.adjacencyList id).getD []

/-- `void addEdge(...)`: ensure both endpoints exist, then push the edge
(with traffic multiplier 1.0, as in the `Edge` constructor) onto the
source's vector. -/
def Graph.addEdge (g : Graph) (source destination : Int) (distance baseTime : ℚ)
    (roadName : String) : Graph :=
  let g1 := (g.addVertex source).addVertex destination
  { g1 with
    adjacencyList := aSet g1.adjacencyList source
      (g1.getNeighbors source ++ [⟨destination, distance, baseTime, 1, roadName⟩]) }

/-- `void addUndirectedEdge(...)`: the edge and its mirror. -/
def Graph.addUndirectedEdge (g : Graph) (source destination : Int)
    (distance baseTime : ℚ) (roadName : String) : Graph :=
  (g.addEdge source destination distance baseTime roadName).addEdge
    destination source distance baseTime roadName

/-- Body of `updateTraffic`: mutate the first matching edge of the vector. -/
def updateFirstEdge : List Edge → Int → ℚ → Bool × List Edge
  | [], _, _ => (false, [])
  | e :: rest, destination, m =>
    if e.destination = destination then (true, { e with trafficMultiplier := m } :: rest)
    else
      let r := updateFirstEdge rest destination m
      (r.1, e :: r.2)

/-- `bool updateTraffic(int source, int destination, double multiplier)`. -/
def Graph.updateTraffic (g : Graph) (source destination : Int) (multiplier : ℚ) :
    Bool × Graph :=
  match aFind g.adjacencyList source with
  | none => (false, g)
  | some edges =>
    let r := updateFirstEdge edges destination multiplier
    (r.1, { g with adjacencyList := aSet g.adjacencyList source r.2 })

/-- `void updateTrafficBidirectional(...)`. -/
def Graph.updateTrafficBidirectional (g : Graph) (source destination : Int)
    (multiplier : ℚ) : Graph :=
  ((g.updateTraffic source destination multiplier).2.updateTraffic
    destination source multiplier).2

/-- `Edge* getEdge(int source, int destination)`. -/
def Graph.getEdge (g : Graph) (source destination : Int) : Option Edge :=
  (g.getNeighbors source).find? (fun e => e.destination = destination)

structure PathResult where
  path : List Int
  totalDistance : WithTop ℚ
  totalTime : WithTop ℚ
  found : Bool
deriving DecidableEq

/-- `PathResult()`. -/
def PathResult.emptyResult : PathResult := ⟨[], 0, 0, false⟩

/-- Working state of `dijkstra`: the three `unordered_map`s and the heap. -/
structure DijkstraState where
  distances : Int → WithTop ℚ
  times : Int → WithTop ℚ
  previous : Int → Option Int
  pq : List (Int × WithTop ℚ)

/-- Pointwise map update (`map[k] = v`). -/
def upd (f : Int → WithTop ℚ) (k : Int) (v : WithTop ℚ) : Int → WithTop ℚ :=
  fun x => if x = k then v else f x

/-- The relaxation loop over the popped vertex's edge vector. `currentCost`
is read once before the loop, exactly as in the source; the stored
distance/time of `current` are re-read at each update. -/
def relaxEdges (useTime : Bool) (current : Int) (currentCost : WithTop ℚ)
    (edges : List Edge) (st : DijkstraState) : DijkstraState :=
  edges.foldl (fun st edge =>
    let neighbor := edge.destination
    let edgeCost : ℚ := if useTime then edge.getActualTime else edge.distance
    let newCost := currentCost + (edgeCost : WithTop ℚ)
    let neighborCost := if useTime then st.times neighbor else st.distances neighbor
    if newCost < neighborCost then
      { distances := upd st.distances neighbor
          (st.distances current + (edge.distance : WithTop ℚ)),
        times := upd st.times neighbor
          (st.times current + (edge.getActualTime : WithTop ℚ)),
        previous := fun v => if v = neighbor then some current else st.previous v,
        pq := heapUpsert st.pq neighbor newCost }
    else st) st

/-- The `while (!pq.empty())` loop: pop the minimum, stop when the
destination is popped, otherwise relax its edges; fuelled (`none` = fuel ran
out before the loop finished). -/
def dijkstraLoop (g : Graph) (destination : Int) (useTime : Bool) :
    Nat → DijkstraState → Option DijkstraState
  | 0, _ => none
  | fuel + 1, st =>
    match heapExtractMin st.pq with
    | none => some st
    | some (node, pq') =>
      let current := node.1
      if current = destination then some { st with pq := pq' }
      else
        let st1 := { st with pq := pq' }
        let currentCost := if useTime then st1.times current else st1.distances current
        dijkstraLoop g destination useTime fuel
          (relaxEdges useTime current currentCost (g.getNeighbors current) st1)

/-- Path reconstruction: push vertices while walking `previous` pointers back
to the source, then append the source and reverse; a missing pointer is the
defensive not-found branch (flag `false`, partial unreversed path, exactly as
in the source). -/
def buildPath (previous : Int → Option Int) (source : Int) :
    Nat → Int → List Int → Option (Bool × List Int)
  | 0, _, _ => none
  | fuel + 1, current, acc =>
    if current = source then some (true, (acc ++ [source]).reverse)
    else
      let acc2 := acc ++ [current]
      match previous current with
      | none => some (false, acc2)
      | some pnode => buildPath previous source fuel pnode acc2

/-- `PathResult dijkstra(int source, int destination, bool useTime)`. -/
def Graph.dijkstra (g : Graph) (source destination : Int) (useTime : Bool)
    (fuel : Nat) : Option PathResult :=
  if !g.hasVertex source || !g.hasVertex destination then
    some PathResult.emptyResult
  else
    let st0 : DijkstraState :=
      { distances := fun v => if v = source then (0 : WithTop ℚ) else ⊤,
        times := fun v => if v = source then (0 : WithTop ℚ) else ⊤,
        previous := fun _ => none,
        pq := heapUpsert [] source 0 }
    match dijkstraLoop g destination useTime fuel st0 with
    | none => none
    | some st =>
      if st.distances destination ≠ ⊤ then
        match buildPath st.previous source fuel destination [] with
        | none => none
        | some (ok, path) =>
          some ⟨path, st.distances destination, st.times destination, ok⟩
      else
        some PathResult.emptyResult

/-! ### Evaluation lemmas for `WithTop ℚ` arithmetic

Rewriting `WithTop` arithmetic and comparisons into plain `ℚ` facts keeps
concrete runs of `dijkstra` reducible by `simp`/`norm_num`. -/

theorem wtq_zero : (0 : WithTop ℚ) = ((0 : ℚ) : WithTop ℚ) := rfl

theorem wtq_add (a b : ℚ) : ((a : WithTop ℚ) + (b : WithTop ℚ)) = ((a + b : ℚ) : WithTop ℚ) :=
  (WithTop.coe_add a b).symm

theorem wtq_mul (a b : ℚ) : ((a : WithTop ℚ) * (b : WithTop ℚ)) = ((a * b : ℚ) : WithTop ℚ) := by
  simp

theorem wtq_lt (a b : ℚ) : (((a : WithTop ℚ) < (b : WithTop ℚ))) = (a < b) := by
  simp

theorem wtq_lt_top (a : ℚ) : (((a : WithTop ℚ) < (⊤ : WithTop ℚ))) = True := by
  simp

theorem wtq_top_lt (x : WithTop ℚ) : (((⊤ : WithTop ℚ) < x)) = False := by
  simp

theorem wtq_le (a b : ℚ) : (((a : WithTop ℚ) ≤ (b : WithTop ℚ))) = (a ≤ b) := by
  simp

theorem wtq_ne_top (a : ℚ) : (((a : WithTop ℚ) ≠ (⊤ : WithTop ℚ))) = True := by
  simp

theorem wtq_eq_coe (a b : ℚ) : (((a : WithTop ℚ)) = (b : WithTop ℚ)) = (a = b) := by
  simp

/-- The triangle road network of the specification's worked example:
vertices `{1,2,3}`, two-way roads `1↔2` and `2↔3` of distance 1 and `1↔3` of
distance 3 (base times mirror the distances; they play no role when
optimising for distance). -/
def triangleGraph : Graph :=
  ((Graph.emptyGraph.addUndirectedEdge 1 2 1 1 "a").addUndirectedEdge
    2 3 1 1 "b").addUndirectedEdge 1 3 3 3 "c"

set_option maxRecDepth 4000

/-- C1: on the triangle graph with undirected edges `1↔2` (weight 1), `2↔3`
(weight 1) and `1↔3` (weight 3), `dijkstra(1, 3, useTime := false)` returns
`found = true`, `path = [1, 2, 3]` and `totalDistance = 2` — the two-hop
route, not the direct edge of weight 3. (Fuel 10 more than covers the three
loop iterations and the three path-reconstruction steps; the loop returns
`some` precisely when it ran to completion.) -/
theorem dijkstra_triangle :
    triangleGraph.dijkstra 1 3 false 10 =
      some ⟨[1, 2, 3], ((2 : ℚ) : WithTop ℚ), ((2 : ℚ) : WithTop ℚ), true⟩ := by
  norm_num [triangleGraph, Graph.dijkstra, Graph.emptyGraph, Graph.addUndirectedEdge,
    Graph.addEdge, Graph.addVertex, Graph.hasVertex, Graph.getNeighbors, aFind, aSet,
    dijkstraLoop, relaxEdges, heapUpsert, heapExtractMin, siftUp, siftUpF, siftDownF,
    siftDown, swapNodes, pLess, upd, buildPath, Edge.getActualTime,
    PathResult.emptyResult, List.findIdx?_nil, List.findIdx?_cons,
    wtq_zero, wtq_add, wtq_mul, wtq_lt, wtq_lt_top, wtq_top_lt, wtq_le, wtq_ne_top,
    wtq_eq_coe, -WithTop.coe_ofNat, -WithTop.coe_zero, -WithTop.coe_one,
    -WithTop.coe_add, -WithTop.coe_mul]

/-! ### Reachability and the unreachable-destination case -/

/-- One road hop: some stored edge of `a` points to `b`. -/
def gstep (g : Graph) (a b : Int) : Prop :=
  ∃ e ∈ g.getNeighbors a, e.destination = b

/-- `b` can be reached from `a` along stored edges. -/
def Graph.reachable (g : Graph) (a b : Int) : Prop :=
  Relation.ReflTransGen (gstep g) a b

/-- Loop invariant for `dijkstra`: every vertex with a finite tentative
distance, and every key in the priority queue, is reachable from the
source. -/
def DInv (g : Graph) (s : Int) (st : DijkstraState) : Prop :=
  (∀ v, st.distances v ≠ ⊤ → g.reachable s v) ∧
  (∀ x ∈ st.pq, g.reachable s x.1)

/-- Anything in the heap after an upsert either carries the upserted datum or
was already present (with some priority). -/
theorem heapUpsert_mem_fst {T P : Type} [DecidableEq T] [LinearOrder P]
    {l : List (T × P)} {x : T} {p : P} :
    ∀ y ∈ heapUpsert l x p, y.1 = x ∨ ∃ q, (y.1, q) ∈ l := by
  intro y hy
  unfold heapUpsert at hy
  rcases hidx : l.findIdx? (fun e => e.1 = x) with _ | i <;>
    simp only [hidx] at hy
  · rw [siftUp_mem] at hy
    rcases List.mem_append.mp hy with h | h
    · exact Or.inr ⟨y.2, h⟩
    · rw [List.mem_singleton] at h
      rw [h]
      exact Or.inl rfl
  · rcases hie : l[i]? with _ | e <;> simp only [hie] at hy
    · exact Or.inr ⟨y.2, hy⟩
    · by_cases hp : p < e.2
      · rw [if_pos hp, siftUp_mem] at hy
        rcases List.mem_or_eq_of_mem_set hy with h | h
        · exact Or.inr ⟨y.2, h⟩
        · refine Or.inr ⟨e.2, ?_⟩
          rw [h]
          exact List.mem_iff_getElem?.mpr ⟨i, hie⟩
      · rw [if_neg hp] at hy
        exact Or.inr ⟨y.2, hy⟩

/-- Relaxing the edge vector of a reachable vertex preserves the loop
invariant. -/
theorem relaxEdges_inv {g : Graph} {s : Int} (u : Bool) (c : Int) (cost : WithTop ℚ)
    (hc : g.reachable s c) :
    ∀ (edges : List Edge) (st : DijkstraState),
      (∀ e ∈ edges, e ∈ g.getNeighbors c) → DInv g s st →
      DInv g s (relaxEdges u c cost edges st) := by
  intro edges
  induction edges with
  | nil => intro st _ hst; exact hst
  | cons e rest ih =>
    intro st hsub hst
    rw [relaxEdges, List.foldl_cons, ← relaxEdges]
    refine ih _ (fun x hx => hsub x (List.mem_cons_of_mem e hx)) ?_
    dsimp only
    have hstep : g.reachable s e.destination :=
      Relation.ReflTransGen.tail hc ⟨e, hsub e (List.mem_cons_self e rest), rfl⟩
    by_cases hlt : cost + (((if u = true then e.getActualTime else e.distance) : ℚ) : WithTop ℚ) <
        (if u = true then st.times e.destination else st.distances e.destination)
    · rw [if_pos hlt]
      constructor
      · intro v hv
        simp only [upd] at hv
        by_cases hvd : v = e.destination
        · rw [hvd]
          exact hstep
        · rw [if_neg hvd] at hv
          exact hst.1 v hv
      · intro y hy
        rcases heapUpsert_mem_fst y hy with h | ⟨q, hq⟩
        · rw [h]
          exact hstep
        · exact hst.2 (y.1, q) hq
    · rw [if_neg hlt]
      exact hst

/-- The Dijkstra loop preserves the reachability invariant. -/
theorem dijkstraLoop_inv {g : Graph} {d : Int} {u : Bool} {s : Int} :
    ∀ (fuel : Nat) (st st' : DijkstraState), DInv g s st →
      dijkstraLoop g d u fuel st = some st' → DInv g s st' := by
  intro fuel
  induction fuel with
  | zero => intro st st' _ h; cases h
  | succ n ih =>
    intro st st' hst h
    rw [dijkstraLoop] at h
    rcases hx : heapExtractMin st.pq with _ | ⟨node, pq'⟩ <;> simp only [hx] at h
    · injection h with h
      rw [← h]
      exact hst
    · have helim := heapExtractMin_elim hx
      have hnode : g.reachable s node.1 :=
        hst.2 node (List.mem_iff_getElem?.mpr ⟨0, helim.1⟩)
      have hst1 : DInv g s { st with pq := pq' } :=
        ⟨hst.1, fun x hxm => hst.2 x (helim.2.1 x hxm)⟩
      by_cases hd : node.1 = d
      · rw [if_pos hd] at h
        injection h with h
        rw [← h]
        exact hst1
      · rw [if_neg hd] at h
        exact ih _ _ (relaxEdges_inv u node.1 _ hnode _ _ (fun _ he => he) hst1) h

/-- C8: whenever the destination is unreachable from the source — in
particular when either endpoint is missing from the graph — any completed
run of `dijkstra` (the loop returns `some`, i.e. it terminated normally with
no exception) produces the default `PathResult`: `found = false`,
`totalDistance = 0`, `totalTime = 0` and an empty path. -/
theorem dijkstra_unreachable (g : Graph) (s d : Int) (u : Bool) (fuel : Nat)
    (r : PathResult)
    (hnr : g.hasVertex s = false ∨ g.hasVertex d = false ∨ ¬ g.reachable s d)
    (h : g.dijkstra s d u fuel = some r) :
    r = PathResult.emptyResult := by
  simp only [Graph.dijkstra] at h
  by_cases hv : (!g.hasVertex s || !g.hasVertex d) = true
  · rw [if_pos hv] at h
    injection h with h
    exact h.symm
  · rw [if_neg hv] at h
    have hvs : g.hasVertex s = true := by
      cases hs : g.hasVertex s
      · rw [hs] at hv
        simp at hv
      · rfl
    have hvd : g.hasVertex d = true := by
      cases hds : g.hasVertex d
      · rw [hds] at hv
        simp at hv
      · rfl
    have hnr2 : ¬ g.reachable s d := by
      rcases hnr with h1 | h1 | h1
      · rw [hvs] at h1
        cases h1
      · rw [hvd] at h1
        cases h1
      · exact h1
    rcases hloop : dijkstraLoop g d u fuel
        { distances := fun v => if v = s then (0 : WithTop ℚ) else ⊤,
          times := fun v => if v = s then (0 : WithTop ℚ) else ⊤,
          previous := fun _ => none,
          pq := heapUpsert [] s 0 } with _ | st
    · simp only [hloop] at h
      exact Option.noConfusion h
    simp only [hloop] at h
    have hinv0 : DInv g s
        { distances := fun v => if v = s then (0 : WithTop ℚ) else ⊤,
          times := fun v => if v = s then (0 : WithTop ℚ) else ⊤,
          previous := fun _ => none,
          pq := heapUpsert [] s 0 } := by
      constructor
      · intro v hv2
        dsimp only at hv2
        by_cases hvv : v = s
        · rw [hvv]
          exact Relation.ReflTransGen.refl
        · rw [if_neg hvv] at hv2
          exact absurd rfl hv2
      · intro y hy
        dsimp only at hy
        rcases heapUpsert_mem_fst y hy with h1 | ⟨q, hq⟩
        · rw [h1]
          exact Relation.ReflTransGen.refl
        · cases hq
    have hinv := dijkstraLoop_inv fuel _ st hinv0 hloop
    have hdd : st.distances d = ⊤ := by
      by_contra hne
      exact hnr2 (hinv.1 d hne)
    rw [if_neg (by rw [hdd]; exact fun hc => hc rfl)] at h
    injection h with h
    exact h.symm

/-- Closure argument for refuting reachability: a set of vertices containing
the start and closed under road hops contains everything reachable. -/
theorem reachable_subset (g : Graph) (S : Int → Prop)
    (hcl : ∀ a b, S a → gstep g a b → S b) :
    ∀ a b, g.reachable a b → S a → S b := by
  intro a b h
  induction h with
  | refl => exact id
  | tail _ h2 ih => intro ha; exact hcl _ _ (ih ha) h2

/-- A road network where junction 4 is stored but cut off: one directed road
`1 → 2`, and the isolated junction `4`. -/
def lineGraph : Graph :=
  (Graph.emptyGraph.addEdge 1 2 1 1 "r").addVertex 4

/-- Fuel 10 runs `dijkstra 1 4` on `lineGraph` to completion; the loop
drains the queue and the destination's distance is still `∞`. -/
theorem lineGraph_dijkstra_eval :
    lineGraph.dijkstra 1 4 false 10 = some PathResult.emptyResult := by
  norm_num [lineGraph, Graph.dijkstra, Graph.emptyGraph, Graph.addEdge,
    Graph.addVertex, Graph.hasVertex, Graph.getNeighbors, aFind, aSet,
    dijkstraLoop, relaxEdges, heapUpsert, heapExtractMin, siftUp, siftUpF, siftDownF,
    siftDown, swapNodes, pLess, upd, buildPath, Edge.getActualTime,
    PathResult.emptyResult, List.findIdx?_nil, List.findIdx?_cons,
    wtq_zero, wtq_add, wtq_mul, wtq_lt, wtq_lt_top, wtq_top_lt, wtq_le, wtq_ne_top,
    wtq_eq_coe, -WithTop.coe_ofNat, -WithTop.coe_zero, -WithTop.coe_one,
    -WithTop.coe_add, -WithTop.coe_mul]

theorem dijkstra_unreachable_witness :
    ¬ Graph.reachable lineGraph 1 4 ∧ PathResult.emptyResult = PathResult.emptyResult := by
  have hnr : ¬ Graph.reachable lineGraph 1 4 := by
    intro h
    have hcl : ∀ a b, (a = 1 ∨ a = 2) → gstep lineGraph a b → (b = 1 ∨ b = 2) := by
      intro a b ha hb
      rcases hb with ⟨e, he, hdest⟩
      rcases ha with rfl | rfl
      · have hn : lineGraph.getNeighbors 1 = [⟨2, 1, 1, 1, "r"⟩] := rfl
        rw [hn, List.mem_singleton] at he
        rw [he] at hdest
        exact Or.inr hdest.symm
      · have hn : lineGraph.getNeighbors 2 = [] := rfl
        rw [hn] at he
        cases he
    have h4 := reachable_subset lineGraph (fun v => v = 1 ∨ v = 2) hcl 1 4 h (Or.inl rfl)
    rcases h4 with h4 | h4 <;> exact absurd h4 (by decide)
  exact ⟨hnr,
    dijkstra_unreachable lineGraph 1 4 false 10 PathResult.emptyResult
      (Or.inr (Or.inr hnr)) lineGraph_dijkstra_eval⟩

/-! ## Domain models (`include/Models.h`) and the traffic manager
(`include/TrafficManager.h`)

`TrafficManager` members not touched by the operations verified here (the
B-tree name/city indexes, user and session stores, Nominatim cache and id
counter, and the mutexes) are omitted from the record; `double` fields are
`ℚ` as everywhere else. -/

inductive TrafficLevel where
  | LOW
  | NORMAL
  | HEAVY
  | SEVERE
deriving DecidableEq

/-- `double getTrafficMultiplier(TrafficLevel level)`. -/
def getTrafficMultiplier : TrafficLevel → ℚ
  | .LOW => 0.8
  | .NORMAL => 1
  | .HEAVY => 1.5
  | .SEVERE => 2.5

/-- `std::string trafficLevelToColor(TrafficLevel level)`. -/
def trafficLevelToColor : TrafficLevel → String
  | .LOW => "#10b981"
  | .NORMAL => "#f59e0b"
  | .HEAVY => "#fb923c"
  | .SEVERE => "#ef4444"

structure Junction where
  id : Int
  name : String
  latitude : ℚ
  longitude : ℚ
  city : String
  area : String
  hasTrafficSignal : Bool
  connectedJunctions : List Int

structure Road where
  id : Int
  name : String
  sourceJunction : Int
  destJunction : Int
  distance : ℚ
  speedLimit : ℚ
  baseTime : ℚ
  trafficLevel : TrafficLevel
  isTwoWay : Bool
  roadType : String

structure TrafficSegment where
  fromJunctionId : Int
  toJunctionId : Int
  roadName : String
  distance : ℚ
  time : ℚ
  trafficLevel : TrafficLevel
  color : String

/-- The `TrafficSegment(from, to, name, dist, t, level)` constructor: the
display colour is derived from the level. -/
def TrafficSegment.make (fromId toId : Int) (roadName : String) (distance time : ℚ)
    (level : TrafficLevel) : TrafficSegment :=
  ⟨fromId, toId, roadName, distance, time, level, trafficLevelToColor level⟩

structure RouteResult where
  junctions : List Junction
  roads : List Road
  trafficSegments : List TrafficSegment
  totalDistance : WithTop ℚ
  totalTime : WithTop ℚ
  found : Bool

/-- `RouteResult()`. -/
def RouteResult.emptyRoute : RouteResult := ⟨[], [], [], 0, 0, false⟩

/-- The data structures of `TrafficManager` read or written by
`updateTrafficLevel` and `findRoute`. -/
structure TrafficManager where
  junctionTable : HashTable Int Junction
  roadTable : HashTable Int Road
  roadNetwork : Graph
  routeCache : LRUCache String RouteResult

/-- `hashInt`: `static_cast<size_t>(key)`, i.e. the key modulo `2^64`. -/
def hashInt (k : Int) : Nat := (k % (2 ^ 64)).toNat

/-- `std::string generateCacheKey(int source, int dest, bool useTime)`. -/
def generateCacheKey (source dest : Int) (useTime : Bool) : String :=
  toString source ++ "_" ++ toString dest ++ "_" ++
    (if useTime then "time" else "dist")

/-- `bool updateTrafficLevel(int roadId, TrafficLevel level)`: look the road
up, store it back with the new level, push the matching multiplier into the
graph (both directions for a two-way road), and clear the whole route
cache (`invalidateCache`). -/
def TrafficManager.updateTrafficLevel (tm : TrafficManager) (roadId : Int)
    (level : TrafficLevel) : Bool × TrafficManager :=
  match tm.roadTable.search hashInt roadId with
  | none => (false, tm)
  | some road =>
    let road2 := { road with trafficLevel := level }
    let tm1 := { tm with roadTable := tm.roadTable.insert hashInt roadId road2 }
    let multiplier := getTrafficMultiplier level
    let tm2 :=
      if road2.isTwoWay then
        { tm1 with
          roadNetwork := tm1.roadNetwork.updateTrafficBidirectional
            road2.sourceJunction road2.destJunction multiplier }
      else
        { tm1 with
          roadNetwork := (tm1.roadNetwork.updateTraffic
            road2.sourceJunction road2.destJunction multiplier).2 }
    (true, { tm2 with routeCache := tm2.routeCache.clear })

/-- The junction-details loop of `findRoute`: look every path vertex up and
keep the hits, in order. -/
def routeJunctions (jt : HashTable Int Junction) : List Int → List Junction
  | [] => []
  | j :: rest =>
    match jt.search hashInt j with
    | some junc => junc :: routeJunctions jt rest
    | none => routeJunctions jt rest

/-- The traffic-segment loop of `findRoute`: for each consecutive pair of
path vertices with a stored edge, rederive the level from the edge's
multiplier (`≤ 0.8` LOW, `≤ 1.0` NORMAL, `≤ 1.5` HEAVY, else SEVERE) and
build a segment. -/
def routeSegments (g : Graph) : List Int → List TrafficSegment
  | fromId :: toId :: rest =>
    (match g.getEdge fromId toId with
     | some edge =>
       let level : TrafficLevel :=
         if edge.trafficMultiplier ≤ 0.8 then .LOW
         else if edge.trafficMultiplier ≤ 1 then .NORMAL
         else if edge.trafficMultiplier ≤ 1.5 then .HEAVY
         else .SEVERE
       [TrafficSegment.make fromId toId edge.roadName edge.distance
         edge.getActualTime level]
     | none => []) ++ routeSegments g (toId :: rest)
  | _ => []

/-- The cache-miss path of `findRoute` (everything after the failed
`routeCache.get`, which has already bumped the miss counter in `tm1`): run
`dijkstra`, assemble the `RouteResult`, store it in the cache and return it.
`none` only when the solver ran out of fuel or the cache `put` hit the
capacity-0 out-of-range access. -/
def TrafficManager.computeRoute (tm1 : TrafficManager) (sourceId destId : Int)
    (useTime : Bool) (fuel : Nat) : Option (RouteResult × TrafficManager) :=
  let cacheKey := generateCacheKey sourceId destId useTime
  match tm1.roadNetwork.dijkstra sourceId destId useTime fuel with
  | none => none
  | some pathResult =>
    let result : RouteResult :=
      { junctions :=
          if pathResult.found then routeJunctions tm1.junctionTable pathResult.path
          else [],
        roads := [],
        trafficSegments :=
          if pathResult.found then routeSegments tm1.roadNetwork pathResult.path
          else [],
        totalDistance := pathResult.totalDistance,
        totalTime := pathResult.totalTime,
        found := pathResult.found }
    match tm1.routeCache.put cacheKey result with
    | none => none
    | some cache2 => some (result, { tm1 with routeCache := cache2 })

/-- `RouteResult findRoute(int sourceId, int destId, bool useTime)`: return
the cached result on a hit, otherwise compute. -/
def TrafficManager.findRoute (tm : TrafficManager) (sourceId destId : Int)
    (useTime : Bool) (fuel : Nat) : Option (RouteResult × TrafficManager) :=
  let cacheKey := generateCacheKey sourceId destId useTime
  match tm.routeCache.get cacheKey with
  | (some cached, cache1) => some (cached, { tm with routeCache := cache1 })
  | (none, cache1) =>
    TrafficManager.computeRoute { tm with routeCache := cache1 }
      sourceId destId useTime fuel

/-- C2: for any road id present in the road table, `updateTrafficLevel`
succeeds and empties the entire route cache, so every subsequent `findRoute`
— for any source, destination and `useTime` flag, cached or not — misses the
cache and recomputes through the graph solver (`computeRoute` on the
miss-bumped state, which runs `dijkstra` on the updated network; the changed
`totalTime` after raising a road to Severe is observable exactly because the
recomputation consults the updated multipliers). -/
theorem updateTrafficLevel_clears_cache (tm : TrafficManager) (roadId : Int)
    (level : TrafficLevel) (road : Road)
    (hfound : tm.roadTable.search hashInt roadId = some road) :
    (tm.updateTrafficLevel roadId level).1 = true ∧
    ((tm.updateTrafficLevel roadId level).2).routeCache.cacheList = [] ∧
    ∀ (s d : Int) (u : Bool) (fuel : Nat),
      ((tm.updateTrafficLevel roadId level).2).findRoute s d u fuel =
        TrafficManager.computeRoute
          { (tm.updateTrafficLevel roadId level).2 with
            routeCache := ⟨tm.routeCache.capacity, 0, 1, []⟩ } s d u fuel := by
  refine ⟨?_, ?_, ?_⟩
  · simp only [TrafficManager.updateTrafficLevel, hfound]
  · simp only [TrafficManager.updateTrafficLevel, hfound]
    rfl
  · intro s d u fuel
    simp only [TrafficManager.updateTrafficLevel, hfound]
    rcases htw : ({ road with trafficLevel := level } : Road).isTwoWay <;> rfl
/-- A two-way road used by the cache-invalidation witness. -/
def sampleRoad : Road :=
  { id := 7, name := "MG Road", sourceJunction := 1, destJunction := 2,
    distance := 1, speedLimit := 40, baseTime := 3 / 2,
    trafficLevel := .NORMAL, isTwoWay := true, roadType := "main" }

/-- A manager holding `sampleRoad`, its two junctions' road, and one cached
route. -/
def sampleManager : TrafficManager :=
  { junctionTable := HashTable.mkTable Int Junction 16 (3 / 4),
    roadTable := (HashTable.mkTable Int Road 16 (3 / 4)).insert hashInt 7 sampleRoad,
    roadNetwork := Graph.emptyGraph.addUndirectedEdge 1 2 1 (3 / 2) "MG Road",
    routeCache := ⟨100, 0, 0, [(generateCacheKey 1 2 true, RouteResult.emptyRoute)]⟩ }

theorem updateTrafficLevel_clears_cache_witness :
    sampleManager.roadTable.search hashInt 7 = some sampleRoad ∧
    (sampleManager.updateTrafficLevel 7 TrafficLevel.SEVERE).1 = true ∧
    ((sampleManager.updateTrafficLevel 7 TrafficLevel.SEVERE).2).routeCache.cacheList = [] ∧
    ((sampleManager.updateTrafficLevel 7 TrafficLevel.SEVERE).2).findRoute 1 2 true 10 =
      TrafficManager.computeRoute
        { (sampleManager.updateTrafficLevel 7 TrafficLevel.SEVERE).2 with
          routeCache := ⟨100, 0, 1, []⟩ } 1 2 true 10 := by
  have hfound : sampleManager.roadTable.search hashInt 7 = some sampleRoad := by
    have h := (HashTable.insert_spec
      (HashTable.mkTable_WF hashInt 16 (3 / 4) (by decide) (by norm_num))
      7 sampleRoad).2 7
    simpa using h
  have h := updateTrafficLevel_clears_cache sampleManager 7 TrafficLevel.SEVERE
    sampleRoad hfound
  exact ⟨hfound, h.1, h.2.1, h.2.2 1 2 true 10⟩

/-! ## B-tree (`include/BTree.h`)

Nodes own their key/value vectors and child pointers; the tree holds an
optional root. `traverse` visits child `i` before key `i` and the last child
after all keys; out-of-range accesses that are undefined behaviour in the
C++ (a missing child or value slot, impossible in well-formed trees) read as
an empty child / a skipped pair here. -/

inductive BTreeNode (K V : Type) where
  | node (keys : List K) (values : List V) (children : List (BTreeNode K V)) (isLeaf : Bool)

/-- The in-order interleaving of `traverse`: child `i`, then key `i`, and
the child at index `keys.size` after the loop. -/
def mixT {K V : Type} : List (K × V) → List (List (K × V)) → List (K × V)
  | [], cs => cs.headD []
  | p :: ps, cs => cs.headD [] ++ p :: mixT ps cs.tail

/-- `void traverse(callback)` on a node, as the visit list. -/
def BTreeNode.traverse {K V : Type} : BTreeNode K V → List (K × V)
  | .node keys values children isLeaf =>
    if isLeaf then keys.zip values
    else mixT (keys.zip values) (children.attach.map (fun c => c.1.traverse))
decreasing_by
  simp_wf
  have := List.sizeOf_lt_of_mem c.2
  omega

theorem traverse_node {K V : Type} (keys : List K) (values : List V)
    (children : List (BTreeNode K V)) (isLeaf : Bool) :
    (BTreeNode.node keys values children isLeaf).traverse =
      if isLeaf then keys.zip values
      else mixT (keys.zip values) (children.map BTreeNode.traverse) := by
  rw [BTreeNode.traverse]
  simp [List.attach_map_val]

/-- Final step of `rangeQueryHelper`: after the scan loop ends at index `i`,
visit `children[i]` if present (`cs` is the child-result suffix from `i`; an
absent child contributes nothing, exactly as the `i < children.size()`
guard). -/
def rqEnd {K V : Type} (cs : List (List (K × V))) (isLeaf : Bool) : List (K × V) :=
  if isLeaf = false then cs.headD [] else []

/-- The second `rangeQueryHelper` loop: while `keys[i] ≤ maxKey`, visit
`children[i]`, emit `(keys[i], values[i])` when it lies in the range, advance. -/
def rqMain {K V : Type} [LinearOrder K] (lo hi : K) :
    List K → List V → List (List (K × V)) → Bool → List (K × V)
  | k :: ks, vs, cs, isLeaf =>
    if k ≤ hi then
      (if isLeaf = false then cs.headD [] else []) ++
      (if lo ≤ k ∧ k ≤ hi then
        (match vs with | v :: _ => [(k, v)] | [] => []) else []) ++
      rqMain lo hi ks vs.tail cs.tail isLeaf
    else rqEnd cs isLeaf
  | [], _, cs, isLeaf => rqEnd cs isLeaf

/-- The first `rangeQueryHelper` loop: skip keys (and their left children)
strictly below `minKey`, then hand over to the scan loop. -/
def rqSkip {K V : Type} [LinearOrder K] (lo hi : K) :
    List K → List V → List (List (K × V)) → Bool → List (K × V)
  | k :: ks, vs, cs, isLeaf =>
    if k < lo then rqSkip lo hi ks vs.tail cs.tail isLeaf
    else rqMain lo hi (k :: ks) vs cs isLeaf
  | [], _, cs, isLeaf => rqEnd cs isLeaf

/-- `void rangeQueryHelper(node, minKey, maxKey, results)` as the emitted
list. Recursive child visits are precomputed positionally; the loops select
exactly the ones the C++ visits, so the value agrees with the source on
every tree. -/
def BTreeNode.rangeQueryHelper {K V : Type} [LinearOrder K] (lo hi : K) :
    BTreeNode K V → List (K × V)
  | .node keys values children isLeaf =>
    rqSkip lo hi keys values
      (children.attach.map (fun c => c.1.rangeQueryHelper lo hi)) isLeaf
decreasing_by
  simp_wf
  have := List.sizeOf_lt_of_mem c.2
  omega

theorem rangeQueryHelper_node {K V : Type} [LinearOrder K] (lo hi : K) (keys : List K)
    (values : List V) (children : List (BTreeNode K V)) (isLeaf : Bool) :
    (BTreeNode.node keys values children isLeaf).rangeQueryHelper lo hi =
      rqSkip lo hi keys values (children.map (BTreeNode.rangeQueryHelper lo hi)) isLeaf := by
  rw [BTreeNode.rangeQueryHelper]
  simp [List.attach_map_val]

/-- `BTree(int degree = 3)`: an optional root and the minimum degree. -/
structure BTree (K V : Type) where
  root : Option (BTreeNode K V)
  minDegree : Nat

def BTree.emptyTree (K V : Type) (degree : Nat) : BTree K V := ⟨none, degree⟩

/-- `std::vector<std::pair<K, V>> getAll() const` (the tree-level
`traverse`). -/
def BTree.getAll {K V : Type} (t : BTree K V) : List (K × V) :=
  match t.root with
  | none => []
  | some r => r.traverse

/-- `std::vector<std::pair<K, V>> rangeQuery(minKey, maxKey) const`. -/
def BTree.rangeQuery {K V : Type} [LinearOrder K] (t : BTree K V) (lo hi : K) :
    List (K × V) :=
  match t.root with
  | none => []
  | some r => r.rangeQueryHelper lo hi

/-! ### The B-tree ordering invariant -/

/-- Strict lower bound, `none` meaning unbounded. -/
def lbLt {K : Type} [LT K] : Option K → K → Prop
  | none, _ => True
  | some a, k => a < k

/-- Strict upper bound, `none` meaning unbounded. -/
def ubLt {K : Type} [LT K] (k : K) : Option K → Prop
  | none => True
  | some a => k < a

theorem lbLt_trans {K : Type} [Preorder K] {b : Option K} {x y : K}
    (h1 : lbLt b x) (h2 : x < y) : lbLt b y := by
  cases b with
  | none => trivial
  | some a => exact lt_trans h1 h2

theorem ubLt_trans {K : Type} [Preorder K] {x y : K} {b : Option K}
    (h1 : x < y) (h2 : ubLt y b) : ubLt x b := by
  cases b with
  | none => trivial
  | some a => exact lt_trans h1 h2

/-- Lower bound of child `i`: the node's own lower bound for the first
child, otherwise the key to its left. -/
def childLo {K : Type} (b1 : Option K) (keys : List K) (i : Nat) : Option K :=
  if i = 0 then b1 else keys[i-1]?

/-- Upper bound of child `i`: the key to its right, or the node's own upper
bound for the last child. -/
def childHi {K : Type} (b2 : Option K) (keys : List K) (i : Nat) : Option K :=
  if i < keys.length then keys[i]? else b2

theorem childLo_succ {K : Type} (b1 : Option K) (k : K) (ks : List K) (i : Nat) :
    childLo b1 (k :: ks) (i + 1) = childLo (some k) ks i := by
  unfold childLo
  rcases i with _ | i
  · simp
  · simp

theorem childHi_succ {K : Type} (b2 : Option K) (k : K) (ks : List K) (i : Nat) :
    childHi b2 (k :: ks) (i + 1) = childHi b2 ks i := by
  unfold childHi
  by_cases hi : i < ks.length
  · rw [if_pos (by simp; omega), if_pos hi]
    simp
  · rw [if_neg (by simp; omega), if_neg hi]

/-- The B-tree ordering/shape invariant: key and value vectors have equal
length, keys are strictly increasing and lie strictly inside the bounds,
leaves have no children, and an internal node has `keys + 1` children each
ordered within the bounds induced by the adjacent keys. -/
inductive BTreeNode.Ordered {K V : Type} [LT K] : Option K → Option K → BTreeNode K V → Prop where
  | leaf : ∀ (b1 b2 : Option K) (keys : List K) (values : List V),
      keys.length = values.length →
      List.Chain' (· < ·) keys →
      (∀ k ∈ keys, lbLt b1 k ∧ ubLt k b2) →
      BTreeNode.Ordered b1 b2 (.node keys values [] true)
  | internal : ∀ (b1 b2 : Option K) (keys : List K) (values : List V)
      (children : List (BTreeNode K V)),
      keys.length = values.length →
      children.length = keys.length + 1 →
      List.Chain' (· < ·) keys →
      (∀ k ∈ keys, lbLt b1 k ∧ ubLt k b2) →
      (∀ i c, children[i]? = some c →
        BTreeNode.Ordered (childLo b1 keys i) (childHi b2 keys i) c) →
      BTreeNode.Ordered b1 b2 (.node keys values children false)

/-- Membership in the interleaving: a pair comes from the node itself or from
a visited child (index at most `keys.size`). -/
theorem mem_mixT {K V : Type} {p : K × V} : ∀ (ps : List (K × V)) (cs : List (List (K × V))),
    p ∈ mixT ps cs → p ∈ ps ∨ ∃ i c, i ≤ ps.length ∧ cs[i]? = some c ∧ p ∈ c := by
  intro ps
  induction ps with
  | nil =>
    intro cs h
    cases cs with
    | nil => cases h
    | cons c cs' => exact Or.inr ⟨0, c, Nat.zero_le _, by simp, h⟩
  | cons q ps ih =>
    intro cs h
    rw [mixT] at h
    rcases List.mem_append.mp h with h1 | h1
    · cases cs with
      | nil => cases h1
      | cons c cs' => exact Or.inr ⟨0, c, Nat.zero_le _, by simp, h1⟩
    · rcases List.mem_cons.mp h1 with h2 | h2
      · exact Or.inl (h2 ▸ List.mem_cons_self q ps)
      · rcases ih cs.tail h2 with h3 | ⟨i, c, hle, hc, hp⟩
        · exact Or.inl (List.mem_cons_of_mem _ h3)
        · refine Or.inr ⟨i + 1, c, by simpa using Nat.succ_le_succ hle, ?_, hp⟩
          cases cs with
          | nil => cases hc
          | cons c0 cs' => simpa using hc

/-- Every traversed pair of an ordered subtree lies strictly inside its
bounds. -/
theorem traverse_bounds {K V : Type} [Preorder K] : ∀ {b1 b2 : Option K} {t : BTreeNode K V},
    BTreeNode.Ordered b1 b2 t → ∀ p ∈ t.traverse, lbLt b1 p.1 ∧ ubLt p.1 b2 := by
  intro b1 b2 t hord
  induction hord with
  | leaf b1 b2 keys values hlen hchain hbnd =>
    intro p hp
    rw [traverse_node] at hp
    rw [if_pos rfl] at hp
    rcases p with ⟨k, v⟩
    exact hbnd k (List.of_mem_zip hp).1
  | internal b1 b2 keys values children hlen hclen hchain hbnd hch ih =>
    intro p hp
    rw [traverse_node] at hp
    rw [if_neg (by simp)] at hp
    rcases mem_mixT _ _ hp with h1 | ⟨i, tc, hle, htc, hptc⟩
    · rcases p with ⟨k, v⟩
      exact hbnd k (List.of_mem_zip h1).1
    · rw [List.getElem?_map] at htc
      rcases hc : children[i]? with _ | c
      · rw [hc] at htc
        cases htc
      · rw [hc] at htc
        injection htc with htc
        have hpb := ih i c hc p (by rw [htc]; exact hptc)
        have hil : i ≤ keys.length := by
          rw [List.length_zip] at hle
          omega
        constructor
        · by_cases hi0 : i = 0
          · rw [childLo, if_pos hi0] at hpb
            exact hpb.1
          · rw [childLo, if_neg hi0] at hpb
            have hidx : i - 1 < keys.length := by rw [hlen]; omega
            rw [List.getElem?_eq_getElem hidx] at hpb
            have hkmem : keys[i-1] ∈ keys := List.getElem_mem hidx
            exact lbLt_trans (hbnd _ hkmem).1 hpb.1
        · by_cases hik : i < keys.length
          · rw [childHi, if_pos hik] at hpb
            rw [List.getElem?_eq_getElem hik] at hpb
            have hkmem : keys[i] ∈ keys := List.getElem_mem hik
            exact ubLt_trans hpb.2 (hbnd _ hkmem).2
          · rw [childHi, if_neg hik] at hpb
            exact hpb.2

/-- The rolling bound structure the range-query loops consume: under a strict
lower bound `b`, the first child's pairs lie between `b` and the first key,
the first key exceeds `b`, and the remainder continues above that key. -/
def ChainL {K V : Type} [LT K] : Option K → List K → List (List (K × V)) → Prop
  | b, [], tcs => ∀ p ∈ tcs.headD [], lbLt b p.1
  | b, k :: ks, tcs =>
    (∀ p ∈ tcs.headD [], lbLt b p.1 ∧ p.1 < k) ∧ lbLt b k ∧ ChainL (some k) ks tcs.tail

/-- A leaf's keys (no children) form a chain under any bound below them. -/
theorem chainL_leaf {K V : Type} [Preorder K] :
    ∀ (keys : List K) (b : Option K), List.Pairwise (· < ·) keys →
      (∀ k ∈ keys, lbLt b k) → ChainL b keys ([] : List (List (K × V))) := by
  intro keys
  induction keys with
  | nil =>
    intro b _ _
    intro p hp
    cases hp
  | cons k ks ih =>
    intro b hpw hb
    refine ⟨fun p hp => absurd hp (by simp), hb k (List.mem_cons_self k ks), ?_⟩
    exact ih (some k) (List.Pairwise.of_cons hpw) (fun x hx => (List.pairwise_cons.mp hpw).1 x hx)

/-- Bounded child traversals interleave with the node's keys into a chain. -/
theorem chainL_intro {K V : Type} [Preorder K] :
    ∀ (keys : List K) (children : List (BTreeNode K V)) (b1 b2 : Option K),
      List.Pairwise (· < ·) keys →
      (∀ k ∈ keys, lbLt b1 k) →
      (∀ i c, children[i]? = some c →
        ∀ p ∈ c.traverse, lbLt (childLo b1 keys i) p.1 ∧ ubLt p.1 (childHi b2 keys i)) →
      ChainL b1 keys (children.map BTreeNode.traverse) := by
  intro keys
  induction keys with
  | nil =>
    intro children b1 b2 _ _ hc
    cases children with
    | nil => intro p hp; cases hp
    | cons c cs =>
      intro p hp
      have h := hc 0 c (by simp) p (by simpa using hp)
      rw [childLo, if_pos rfl] at h
      exact h.1
  | cons k ks ih =>
    intro children b1 b2 hpw hkb hc
    refine ⟨?_, hkb k (List.mem_cons_self k ks), ?_⟩
    · cases children with
      | nil => intro p hp; cases hp
      | cons c cs =>
        intro p hp
        have h := hc 0 c (by simp) p (by simpa using hp)
        rw [childLo, if_pos rfl, childHi, if_pos (by simp)] at h
        simpa using h
    · have htail : (List.map BTreeNode.traverse children).tail
          = List.map BTreeNode.traverse children.tail := by
        cases children <;> rfl
      rw [htail]
      refine ih children.tail (some k) b2 (List.Pairwise.of_cons hpw)
        (fun x hx => (List.pairwise_cons.mp hpw).1 x hx) ?_
      intro i c hic
      have hic2 : children[i+1]? = some c := by
        cases children with
        | nil => cases hic
        | cons c0 cs => simpa using hic
      have h := hc (i+1) c hic2
      rw [childLo_succ, childHi_succ] at h
      exact h

/-- Everything in the interleaving of a chain lies above its lower bound. -/
theorem chainL_all {K V : Type} [Preorder K] :
    ∀ (keys : List K) (values : List V) (tcs : List (List (K × V))) (b : Option K),
      ChainL b keys tcs → ∀ p ∈ mixT (keys.zip values) tcs, lbLt b p.1 := by
  intro keys
  induction keys with
  | nil =>
    intro values tcs b hch p hp
    rw [List.zip_nil_left] at hp
    exact hch p hp
  | cons k ks ih =>
    intro values tcs b hch p hp
    cases values with
    | nil =>
      rw [List.zip_nil_right] at hp
      exact (hch.1 p hp).1
    | cons v vs =>
      rw [List.zip_cons_cons, mixT] at hp
      rcases List.mem_append.mp hp with h1 | h1
      · exact (hch.1 p h1).1
      · rcases List.mem_cons.mp h1 with h2 | h2
        · rw [h2]
          exact hch.2.1
        · exact lbLt_trans hch.2.1 (ih vs tcs.tail (some k) hch.2.2 p h2)

/-- The range predicate of the claim: `minKey ≤ k ∧ k ≤ maxKey`. -/
def rqP {K V : Type} [LinearOrder K] (lo hi : K) : K × V → Bool :=
  fun p => decide (lo ≤ p.1 ∧ p.1 ≤ hi)

theorem mixT_nil {K V : Type} : ∀ ps : List (K × V), mixT ps [] = ps := by
  intro ps
  induction ps with
  | nil => rfl
  | cons p ps ih => rw [mixT]; simp [ih]

theorem rqEnd_spec {K V : Type} [LinearOrder K] (lo hi : K)
    (tcs : List (List (K × V))) (isLeaf : Bool) (hleaf : isLeaf = true → tcs = []) :
    rqEnd (tcs.map (List.filter (rqP lo hi))) isLeaf
      = (tcs.headD []).filter (rqP lo hi) := by
  cases isLeaf with
  | false =>
    rw [rqEnd, if_pos rfl]
    cases tcs with
    | nil => rfl
    | cons t ts => rfl
  | true =>
    rw [hleaf rfl]
    rfl

theorem rqMain_spec {K V : Type} [LinearOrder K] (lo hi : K) :
    ∀ (keys : List K) (values : List V) (tcs : List (List (K × V))) (b : Option K)
      (isLeaf : Bool),
      keys.length = values.length →
      (isLeaf = true → tcs = []) →
      ChainL b keys tcs →
      rqMain lo hi keys values (tcs.map (List.filter (rqP lo hi))) isLeaf
        = (mixT (keys.zip values) tcs).filter (rqP lo hi) := by
  intro keys
  induction keys with
  | nil =>
    intro values tcs b isLeaf _ hleaf _
    rw [rqMain]
    exact rqEnd_spec lo hi tcs isLeaf hleaf
  | cons k ks ih =>
    intro values tcs b isLeaf hlen hleaf hch
    cases values with
    | nil => cases hlen
    | cons v vs =>
      have hlen2 : ks.length = vs.length := by simpa using hlen
      have htail : (tcs.map (List.filter (rqP lo hi))).tail
          = tcs.tail.map (List.filter (rqP lo hi)) := by
        cases tcs <;> rfl
      have hleaf2 : isLeaf = true → tcs.tail = [] := by
        intro h
        rw [hleaf h]
        rfl
      have hhead : (if isLeaf = false then (tcs.map (List.filter (rqP lo hi))).headD [] else [])
          = (tcs.headD []).filter (rqP lo hi) := by
        cases isLeaf with
        | false =>
          rw [if_pos rfl]
          cases tcs <;> rfl
        | true =>
          rw [hleaf rfl]
          rfl
      by_cases hk : k ≤ hi
      · rw [rqMain, if_pos hk]
        simp only [List.tail_cons]
        rw [htail, hhead, ih vs tcs.tail (some k) isLeaf hlen2 hleaf2 hch.2.2]
        rw [List.zip_cons_cons, mixT, List.filter_append, List.filter_cons]
        by_cases hin : lo ≤ k ∧ k ≤ hi
        · rw [if_pos hin, if_pos (by simpa [rqP] using hin)]
          simp
        · rw [if_neg hin, if_neg (by simpa [rqP] using hin)]
          simp
      · rw [rqMain, if_neg hk]
        rw [List.zip_cons_cons, mixT, List.filter_append, List.filter_cons]
        have hnotP : ¬ (rqP lo hi (k, v) = true) := by
          simp only [rqP, decide_eq_true_eq]
          rintro ⟨-, h2⟩
          exact hk h2
        rw [if_neg hnotP]
        have hnil : (mixT (ks.zip vs) tcs.tail).filter (rqP lo hi) = [] := by
          apply List.filter_eq_nil_iff.mpr
          intro p hp
          have hgt : k < p.1 := chainL_all ks vs tcs.tail (some k) hch.2.2 p hp
          simp only [rqP, decide_eq_true_eq]
          rintro ⟨-, h2⟩
          exact hk (le_of_lt (lt_of_lt_of_le hgt h2))
        rw [hnil, rqEnd_spec lo hi tcs isLeaf hleaf]
        simp

theorem rqSkip_spec {K V : Type} [LinearOrder K] (lo hi : K) :
    ∀ (keys : List K) (values : List V) (tcs : List (List (K × V))) (b : Option K)
      (isLeaf : Bool),
      keys.length = values.length →
      (isLeaf = true → tcs = []) →
      ChainL b keys tcs →
      rqSkip lo hi keys values (tcs.map (List.filter (rqP lo hi))) isLeaf
        = (mixT (keys.zip values) tcs).filter (rqP lo hi) := by
  intro keys
  induction keys with
  | nil =>
    intro values tcs b isLeaf _ hleaf _
    rw [rqSkip]
    exact rqEnd_spec lo hi tcs isLeaf hleaf
  | cons k ks ih =>
    intro values tcs b isLeaf hlen hleaf hch
    cases values with
    | nil => cases hlen
    | cons v vs =>
      have hlen2 : ks.length = vs.length := by simpa using hlen
      have htail : (tcs.map (List.filter (rqP lo hi))).tail
          = tcs.tail.map (List.filter (rqP lo hi)) := by
        cases tcs <;> rfl
      have hleaf2 : isLeaf = true → tcs.tail = [] := by
        intro h
        rw [hleaf h]
        rfl
      by_cases hk : k < lo
      · rw [rqSkip, if_pos hk]
        simp only [List.tail_cons]
        rw [htail, ih vs tcs.tail (some k) isLeaf hlen2 hleaf2 hch.2.2]
        rw [List.zip_cons_cons, mixT, List.filter_append, List.filter_cons]
        have hnotP : ¬ (rqP lo hi (k, v) = true) := by
          simp only [rqP, decide_eq_true_eq]
          rintro ⟨h1, -⟩
          exact absurd h1 (not_le_of_lt hk)
        rw [if_neg hnotP]
        have hnil : (tcs.headD []).filter (rqP lo hi) = [] := by
          apply List.filter_eq_nil_iff.mpr
          intro p hp
          have hlt : p.1 < k := (hch.1 p hp).2
          simp only [rqP, decide_eq_true_eq]
          rintro ⟨h1, -⟩
          exact absurd h1 (not_le_of_lt (lt_trans hlt hk))
        rw [hnil]
        rfl
      · rw [rqSkip, if_neg hk]
        exact rqMain_spec lo hi (k :: ks) (v :: vs) tcs b isLeaf hlen hleaf hch

/-- Range query on an ordered subtree is exactly the filtered traversal. -/
theorem rangeQueryHelper_eq_filter {K V : Type} [LinearOrder K] (lo hi : K) :
    ∀ {b1 b2 : Option K} {t : BTreeNode K V}, BTreeNode.Ordered b1 b2 t →
      t.rangeQueryHelper lo hi = t.traverse.filter (rqP lo hi) := by
  intro b1 b2 t hord
  induction hord with
  | leaf b1 b2 keys values hlen hchain hbnd =>
    rw [rangeQueryHelper_node, traverse_node, if_pos rfl]
    have h := rqSkip_spec lo hi keys values ([] : List (List (K × V))) b1 true hlen
      (fun _ => rfl)
      (chainL_leaf keys b1 (List.chain'_iff_pairwise.mp hchain)
        (fun k hk => (hbnd k hk).1))
    rw [List.map_nil] at h
    rw [List.map_nil, h, mixT_nil]
  | internal b1 b2 keys values children hlen hclen hchain hbnd hch ih =>
    rw [rangeQueryHelper_node, traverse_node, if_neg (by simp)]
    have hmap : children.map (BTreeNode.rangeQueryHelper lo hi)
        = (children.map BTreeNode.traverse).map (List.filter (rqP lo hi)) := by
      rw [List.map_map]
      apply List.map_congr_left
      intro c hc
      rcases List.mem_iff_getElem?.mp hc with ⟨i, hi⟩
      exact ih i c hi
    rw [hmap]
    exact rqSkip_spec lo hi keys values (children.map BTreeNode.traverse) b1 false hlen
      (fun h => absurd h (by decide))
      (chainL_intro keys children b1 b2 (List.chain'_iff_pairwise.mp hchain)
        (fun k hk => (hbnd k hk).1)
        (fun i c hic => traverse_bounds (hch i c hic)))

/-- Tree-level ordering: the root, if any, is ordered with open bounds. -/
def BTree.OrderedT {K V : Type} [LT K] (t : BTree K V) : Prop :=
  ∀ r, t.root = some r → BTreeNode.Ordered none none r

/-- C7: on every ordered B-tree, `rangeQuery(minKey, maxKey)` returns exactly
the stored pairs whose key lies in `[minKey, maxKey]` — it equals the
in-order traversal filtered by `minKey ≤ k ∧ k ≤ maxKey`, so each stored
pair in range appears exactly once (traversal order) and nothing outside the
range appears. -/
theorem rangeQuery_eq_filter {K V : Type} [LinearOrder K] (t : BTree K V) (lo hi : K)
    (hord : t.OrderedT) :
    t.rangeQuery lo hi
      = t.getAll.filter (fun p => decide (lo ≤ p.1 ∧ p.1 ≤ hi)) := by
  unfold BTree.rangeQuery BTree.getAll
  rcases hr : t.root with _ | r
  · rfl
  · exact rangeQueryHelper_eq_filter lo hi (hord r hr)

/-- A small ordered tree: root key 10 with leaf children `[5]` and `[15]`. -/
def sampleBTree : BTree Int String :=
  ⟨some (.node [10] ["r"]
    [.node [5] ["a"] [] true, .node [15] ["b"] [] true] false), 3⟩

theorem rangeQuery_eq_filter_witness :
    sampleBTree.OrderedT ∧
    sampleBTree.rangeQuery 4 12
      = sampleBTree.getAll.filter (fun p => decide (4 ≤ p.1 ∧ p.1 ≤ 12)) := by
  have hord : sampleBTree.OrderedT := by
    intro r hr
    injection hr with hr
    rw [← hr]
    refine BTreeNode.Ordered.internal none none [10] ["r"] _ (by decide) (by decide)
      (by simp) (fun k hk => ⟨trivial, trivial⟩) ?_
    intro i c hc
    match i, hc with
    | 0, hc =>
      injection hc with hc
      rw [← hc]
      refine BTreeNode.Ordered.leaf _ _ [5] ["a"] (by decide) (by simp) ?_
      intro k hk
      rw [List.mem_singleton] at hk
      subst hk
      exact ⟨trivial, by norm_num [childHi, ubLt]⟩
    | 1, hc =>
      injection hc with hc
      rw [← hc]
      refine BTreeNode.Ordered.leaf _ _ [15] ["b"] (by decide) (by simp) ?_
      intro k hk
      rw [List.mem_singleton] at hk
      subst hk
      exact ⟨by norm_num [childLo, lbLt], by simp [childHi, ubLt]⟩
    | n + 2, hc => exact absurd hc (by simp)
  exact ⟨hord, rangeQuery_eq_filter sampleBTree 4 12 hord⟩

/-! ### B-tree insert and remove

`std::vector::insert(begin()+i, x)` and `erase(begin()+i)` are `splice` /
`spliceOut`; reads through a raw index that the C++ performs unchecked
(undefined behaviour when absent, unreachable from well-formed states) use
`getD`/`getLastD`/`headD` with the `Inhabited` default — the C++ itself
requires default-constructible `K`/`V` (`keys.push_back(K())`). The
recursive operations take explicit fuel and return `none` when it runs out
or an unchecked access misses. -/

instance {K V : Type} : Inhabited (BTreeNode K V) := ⟨.node [] [] [] true⟩

def splice {α : Type} (l : List α) (i : Nat) (x : α) : List α :=
  l.take i ++ x :: l.drop i

def spliceOut {α : Type} (l : List α) (i : Nat) : List α :=
  l.take i ++ l.drop (i + 1)

/-- `int findKey(const K& k)`: the scan stops at the first key `≥ k`. -/
def findKey {K : Type} [LinearOrder K] (keys : List K) (k : K) : Nat :=
  (keys.takeWhile (fun x => x < k)).length

/-- The insertion scan of `insertNonFull` (from the back, while
`keys[i] > k`): the final slot `i+1`. -/
def insertPos {K : Type} [LinearOrder K] (keys : List K) (k : K) : Nat :=
  keys.length - (keys.reverse.takeWhile (fun x => k < x)).length

def BTreeNode.keysLen {K V : Type} : BTreeNode K V → Nat
  | .node keys _ _ _ => keys.length

def BTreeNode.keysOf {K V : Type} : BTreeNode K V → List K
  | .node keys _ _ _ => keys

def BTreeNode.childrenOf {K V : Type} : BTreeNode K V → List (BTreeNode K V)
  | .node _ _ children _ => children

/-- `void splitChild(int i, BTreeNode* y)` (with `y = children[i]`): split the
full child into two `t-1`-key halves and pull its middle entry up to slot
`i`. -/
def BTreeNode.splitChild {K V : Type} [Inhabited K] [Inhabited V] (t : Nat) :
    BTreeNode K V → Nat → BTreeNode K V
  | .node keys values children isLeaf, i =>
    match children[i]? with
    | none => .node keys values children isLeaf
    | some (.node yk yv yc yl) =>
      let z : BTreeNode K V := .node ((yk.drop t).take (t - 1)) ((yv.drop t).take (t - 1))
        (if yl then [] else (yc.drop t).take t) yl
      let y2 : BTreeNode K V := .node (yk.take (t - 1)) (yv.take (t - 1))
        (if yl then yc else yc.take t) yl
      .node (splice keys i (yk.getD (t - 1) default))
        (splice values i (yv.getD (t - 1) default))
        (splice (children.set i y2) (i + 1) z) isLeaf

/-- `void insertNonFull(const K& k, const V& v)`. -/
def BTreeNode.insertNonFull {K V : Type} [LinearOrder K] [Inhabited K] [Inhabited V]
    (t : Nat) (k : K) (v : V) : Nat → BTreeNode K V → Option (BTreeNode K V)
  | 0, _ => none
  | fuel + 1, .node keys values children isLeaf =>
    if isLeaf then
      let p := insertPos keys k
      some (.node (splice keys p k) (splice values p v) children isLeaf)
    else
      let i0 := insertPos keys k
      match children[i0]? with
      | none => none
      | some c =>
        if c.keysLen = 2 * t - 1 then
          match (BTreeNode.node keys values children isLeaf).splitChild t i0 with
          | .node keys2 values2 children2 isLeaf2 =>
            let i1 := match keys2[i0]? with
              | some ki => if ki < k then i0 + 1 else i0
              | none => i0
            match children2[i1]? with
            | none => none
            | some c1 =>
              (BTreeNode.insertNonFull t k v fuel c1).map
                (fun c2 => .node keys2 values2 (children2.set i1 c2) isLeaf2)
        else
          (BTreeNode.insertNonFull t k v fuel c).map
            (fun c2 => .node keys values (children.set i0 c2) isLeaf)

/-- `BTreeNode* search(const K& k, V* result)`, as key presence. -/
def BTreeNode.containsB {K V : Type} [LinearOrder K] (k : K) :
    Nat → BTreeNode K V → Option Bool
  | 0, _ => none
  | fuel + 1, .node keys values children isLeaf =>
    let i := findKey keys k
    match keys[i]? with
    | some ki =>
      if ki = k then some true
      else if isLeaf then some false
      else
        match children[i]? with
        | none => none
        | some c => BTreeNode.containsB k fuel c
    | none =>
      if isLeaf then some false
      else
        match children[i]? with
        | none => none
        | some c => BTreeNode.containsB k fuel c

/-- The `updateNode` lambda of `BTree::insert`: overwrite the value in the
node holding `k`. -/
def BTreeNode.updateNode {K V : Type} [LinearOrder K] (k : K) (v : V) :
    Nat → BTreeNode K V → Option (BTreeNode K V)
  | 0, _ => none
  | fuel + 1, .node keys values children isLeaf =>
    let i := findKey keys k
    let deeper : Option (BTreeNode K V) :=
      if isLeaf then some (.node keys values children isLeaf)
      else
        match children[i]? with
        | none => none
        | some c =>
          (BTreeNode.updateNode k v fuel c).map
            (fun c2 => .node keys values (children.set i c2) isLeaf)
    match keys[i]? with
    | some ki =>
      if ki = k then some (.node keys (values.set i v) children isLeaf)
      else deeper
    | none => deeper

/-- `void BTree::insert(const K& k, const V& v)`. -/
def BTree.insertB {K V : Type} [LinearOrder K] [Inhabited K] [Inhabited V]
    (tr : BTree K V) (k : K) (v : V) (fuel : Nat) : Option (BTree K V) :=
  match tr.root with
  | none => some ⟨some (.node [k] [v] [] true), tr.minDegree⟩
  | some r =>
    match r.containsB k fuel with
    | none => none
    | some true => (r.updateNode k v fuel).map (fun r2 => ⟨some r2, tr.minDegree⟩)
    | some false =>
      if r.keysLen = 2 * tr.minDegree - 1 then
        match (BTreeNode.node [] [] [r] false).splitChild tr.minDegree 0 with
        | .node keys2 values2 children2 isLeaf2 =>
          let i := match keys2[0]? with
            | some k0 => if k0 < k then 1 else 0
            | none => 0
          match children2[i]? with
          | none => none
          | some c =>
            (BTreeNode.insertNonFull tr.minDegree k v fuel c).map
              (fun c2 => ⟨some (.node keys2 values2 (children2.set i c2) isLeaf2),
                tr.minDegree⟩)
      else
        (BTreeNode.insertNonFull tr.minDegree k v fuel r).map
          (fun r2 => ⟨some r2, tr.minDegree⟩)

/-- Key count of `children[i]` (0 when absent; the C++ dereferences
unchecked). -/
def childKeysLen {K V : Type} (children : List (BTreeNode K V)) (i : Nat) : Nat :=
  match children[i]? with
  | some c => c.keysLen
  | none => 0

/-- The predecessor walk of `removeFromNonLeaf`: rightmost entry of the
subtree. -/
def BTreeNode.predEntry {K V : Type} : Nat → BTreeNode K V → Option (K × V)
  | 0, _ => none
  | fuel + 1, .node keys values children isLeaf =>
    if isLeaf then
      match keys.getLast?, values.getLast? with
      | some pk, some pv => some (pk, pv)
      | _, _ => none
    else
      match children[keys.length]? with
      | none => none
      | some c => BTreeNode.predEntry fuel c

/-- The successor walk of `removeFromNonLeaf`: leftmost entry of the
subtree. -/
def BTreeNode.succEntry {K V : Type} : Nat → BTreeNode K V → Option (K × V)
  | 0, _ => none
  | fuel + 1, .node keys values children isLeaf =>
    if isLeaf then
      match keys[0]?, values[0]? with
      | some sk, some sv => some (sk, sv)
      | _, _ => none
    else
      match children[0]? with
      | none => none
      | some c => BTreeNode.succEntry fuel c

/-- `void merge(int idx)`: fold `keys[idx]` and the right sibling into
`children[idx]`. -/
def BTreeNode.mergeAt {K V : Type} [Inhabited K] [Inhabited V] :
    BTreeNode K V → Nat → BTreeNode K V
  | .node keys values children isLeaf, idx =>
    match children[idx]?, children[idx + 1]? with
    | some (.node ck cv cc cl), some (.node sk sv sc _) =>
      let child2 : BTreeNode K V := .node (ck ++ keys.getD idx default :: sk)
        (cv ++ values.getD idx default :: sv)
        (if cl then cc else cc ++ sc.take (sk.length + 1)) cl
      .node (spliceOut keys idx) (spliceOut values idx)
        (spliceOut (children.set idx child2) (idx + 1)) isLeaf
    | _, _ => .node keys values children isLeaf

/-- `void borrowFromPrev(int idx)`. -/
def BTreeNode.borrowFromPrev {K V : Type} [Inhabited K] [Inhabited V] :
    BTreeNode K V → Nat → BTreeNode K V
  | .node keys values children isLeaf, idx =>
    match children[idx]?, children[idx - 1]? with
    | some (.node ck cv cc cl), some (.node sk sv sc sl) =>
      let child2 : BTreeNode K V := .node (keys.getD (idx - 1) default :: ck)
        (values.getD (idx - 1) default :: cv)
        (if cl then cc else sc.getLastD default :: cc) cl
      let sib2 : BTreeNode K V := .node sk.dropLast sv.dropLast
        (if cl then sc else sc.dropLast) sl
      .node (keys.set (idx - 1) (sk.getLastD default))
        (values.set (idx - 1) (sv.getLastD default))
        ((children.set idx child2).set (idx - 1) sib2) isLeaf
    | _, _ => .node keys values children isLeaf

/-- `void borrowFromNext(int idx)`. -/
def BTreeNode.borrowFromNext {K V : Type} [Inhabited K] [Inhabited V] :
    BTreeNode K V → Nat → BTreeNode K V
  | .node keys values children isLeaf, idx =>
    match children[idx]?, children[idx + 1]? with
    | some (.node ck cv cc cl), some (.node sk sv sc sl) =>
      let child2 : BTreeNode K V := .node (ck ++ [keys.getD idx default])
        (cv ++ [values.getD idx default])
        (if cl then cc else cc ++ [sc.headD default]) cl
      let sib2 : BTreeNode K V := .node sk.tail sv.tail
        (if cl then sc else sc.tail) sl
      .node (keys.set idx (sk.headD default)) (values.set idx (sv.headD default))
        ((children.set idx child2).set (idx + 1) sib2) isLeaf
    | _, _ => .node keys values children isLeaf

/-- `void fill(int idx)`: make `children[idx]` hold at least `t` keys. -/
def BTreeNode.fill {K V : Type} [Inhabited K] [Inhabited V] (t : Nat) :
    BTreeNode K V → Nat → BTreeNode K V
  | .node keys values children isLeaf, idx =>
    if idx ≠ 0 ∧ t ≤ childKeysLen children (idx - 1) then
      (BTreeNode.node keys values children isLeaf).borrowFromPrev idx
    else if idx ≠ keys.length ∧ t ≤ childKeysLen children (idx + 1) then
      (BTreeNode.node keys values children isLeaf).borrowFromNext idx
    else if idx ≠ keys.length then
      (BTreeNode.node keys values children isLeaf).mergeAt idx
    else
      (BTreeNode.node keys values children isLeaf).mergeAt (idx - 1)

/-- `void BTreeNode::remove(const K& k)` (with `removeFromLeaf` /
`removeFromNonLeaf` inlined). -/
def BTreeNode.removeN {K V : Type} [LinearOrder K] [Inhabited K] [Inhabited V]
    (t : Nat) : Nat → K → BTreeNode K V → Option (BTreeNode K V)
  | 0, _, _ => none
  | fuel + 1, k, .node keys values children isLeaf =>
    let idx := findKey keys k
    let notFound : Option (BTreeNode K V) :=
      if isLeaf then some (.node keys values children isLeaf)
      else
        match children[idx]? with
        | none => none
        | some c =>
          let isLastChild := idx = keys.length
          match (if c.keysLen < t then (BTreeNode.node keys values children isLeaf).fill t idx
                 else .node keys values children isLeaf) with
          | .node keys2 values2 children2 isLeaf2 =>
            let idx2 := if isLastChild ∧ keys2.length < idx then idx - 1 else idx
            match children2[idx2]? with
            | none => none
            | some c2 =>
              (BTreeNode.removeN t fuel k c2).map
                (fun c3 => .node keys2 values2 (children2.set idx2 c3) isLeaf2)
    match keys[idx]? with
    | some ki =>
      if ki = k then
        if isLeaf then
          some (.node (spliceOut keys idx) (spliceOut values idx) children isLeaf)
        else
          match children[idx]? with
          | none => none
          | some c =>
            if t ≤ c.keysLen then
              match BTreeNode.predEntry fuel c with
              | none => none
              | some (pk, pv) =>
                (BTreeNode.removeN t fuel pk c).map
                  (fun c2 => .node (keys.set idx pk) (values.set idx pv)
                    (children.set idx c2) isLeaf)
            else
              match children[idx + 1]? with
              | none => none
              | some cnext =>
                if t ≤ cnext.keysLen then
                  match BTreeNode.succEntry fuel cnext with
                  | none => none
                  | some (sk, sv) =>
                    (BTreeNode.removeN t fuel sk cnext).map
                      (fun c2 => .node (keys.set idx sk) (values.set idx sv)
                        (children.set (idx + 1) c2) isLeaf)
                else
                  match (BTreeNode.node keys values children isLeaf).mergeAt idx with
                  | .node keys2 values2 children2 isLeaf2 =>
                    match children2[idx]? with
                    | none => none
                    | some cm =>
                      (BTreeNode.removeN t fuel k cm).map
                        (fun cm2 => .node keys2 values2 (children2.set idx cm2) isLeaf2)
      else notFound
    | none => notFound

/-- `void BTree::remove(const K& k)`. -/
def BTree.removeB {K V : Type} [LinearOrder K] [Inhabited K] [Inhabited V]
    (tr : BTree K V) (k : K) (fuel : Nat) : Option (BTree K V) :=
  match tr.root with
  | none => some tr
  | some r =>
    (r.removeN tr.minDegree fuel k).map (fun r2 =>
      match r2 with
      | .node keys2 values2 children2 isLeaf2 =>
        if keys2.length = 0 then
          if isLeaf2 then ⟨none, tr.minDegree⟩
          else ⟨children2[0]?, tr.minDegree⟩
        else ⟨some (.node keys2 values2 children2 isLeaf2), tr.minDegree⟩)

/-! ### List toolkit for the B-tree proofs -/

theorem takeWhile_getElem_sat {α : Type} (p : α → Bool) :
    ∀ (l : List α) (j : Nat), j < (l.takeWhile p).length →
      ∃ x, l[j]? = some x ∧ p x = true := by
  intro l
  induction l with
  | nil => intro j h; simp [List.takeWhile] at h
  | cons a l ih =>
    intro j h
    cases hp : p a with
    | false => rw [List.takeWhile_cons_of_neg (by simp [hp])] at h; cases h
    | true =>
      rw [List.takeWhile_cons_of_pos hp, List.length_cons] at h
      cases j with
      | zero => exact ⟨a, by simp, hp⟩
      | succ j =>
        rcases ih j (by omega) with ⟨x, hx, hpx⟩
        exact ⟨x, by simpa using hx, hpx⟩

theorem takeWhile_stop {α : Type} (p : α → Bool) :
    ∀ (l : List α) (x : α), l[(l.takeWhile p).length]? = some x → p x = false := by
  intro l
  induction l with
  | nil => intro x h; cases h
  | cons a l ih =>
    intro x h
    cases hp : p a with
    | false =>
      rw [List.takeWhile_cons_of_neg (by simp [hp]), List.length_nil] at h
      rw [List.getElem?_cons_zero] at h
      injection h with h
      rw [← h]
      exact hp
    | true =>
      rw [List.takeWhile_cons_of_pos hp, List.length_cons] at h
      exact ih x (by simpa using h)

theorem takeWhile_length_le {α : Type} (p : α → Bool) (l : List α) :
    (l.takeWhile p).length ≤ l.length :=
  List.Sublist.length_le (List.Sublist.trans (l.takeWhile_prefix p).sublist
    (List.Sublist.refl l))

theorem splice_length {α : Type} {l : List α} {i : Nat} (x : α) (hi : i ≤ l.length) :
    (splice l i x).length = l.length + 1 := by
  rw [splice, List.length_append, List.length_cons, List.length_take, List.length_drop]
  omega

theorem splice_getElem? {α : Type} {l : List α} {i : Nat} (x : α) (hi : i ≤ l.length)
    (j : Nat) :
    (splice l i x)[j]? = if j < i then l[j]? else if j = i then some x else l[j-1]? := by
  rw [splice, List.getElem?_append]
  rw [List.length_take]
  by_cases h1 : j < i
  · rw [if_pos (by omega), if_pos h1, List.getElem?_take, if_pos h1]
  · rw [if_neg (by omega), if_neg h1]
    by_cases h2 : j = i
    · subst h2
      rw [if_pos rfl]
      have : j - min j l.length = 0 := by omega
      rw [this]
      simp
    · rw [if_neg h2]
      have : j - min i l.length = (j - i - 1) + 1 := by omega
      rw [this]
      simp only [List.getElem?_cons_succ]
      rw [List.getElem?_drop]
      congr 1
      omega

theorem splice_mem {α : Type} {l : List α} {i : Nat} {x y : α}
    (h : y ∈ splice l i x) : y = x ∨ y ∈ l := by
  rw [splice] at h
  rcases List.mem_append.mp h with h1 | h1
  · exact Or.inr (List.Sublist.mem h1 (List.take_sublist i l))
  · rcases List.mem_cons.mp h1 with h2 | h2
    · exact Or.inl h2
    · exact Or.inr (List.Sublist.mem h2 (List.drop_sublist i l))

theorem spliceOut_length {α : Type} {l : List α} {i : Nat} (hi : i < l.length) :
    (spliceOut l i).length = l.length - 1 := by
  rw [spliceOut, List.length_append, List.length_take, List.length_drop]
  omega

theorem spliceOut_getElem? {α : Type} {l : List α} {i : Nat} (j : Nat) :
    (spliceOut l i)[j]? = if j < i then l[j]? else l[j+1]? := by
  rw [spliceOut, List.getElem?_append, List.length_take]
  by_cases h1 : j < i
  · by_cases h2 : j < l.length
    · rw [if_pos (by omega), List.getElem?_take, if_pos h1, if_pos h1]
    · rw [if_neg (by omega), List.getElem?_drop, if_pos h1,
        List.getElem?_eq_none (show l.length ≤ i + 1 + (j - min i l.length) by omega),
        List.getElem?_eq_none (show l.length ≤ j by omega)]
  · rw [if_neg (by omega), List.getElem?_drop, if_neg h1]
    by_cases h2 : i ≤ l.length
    · congr 1
      omega
    · rw [List.getElem?_eq_none (show l.length ≤ i + 1 + (j - min i l.length) by omega),
        List.getElem?_eq_none (show l.length ≤ j + 1 by omega)]

theorem spliceOut_mem {α : Type} {l : List α} {i : Nat} {y : α}
    (h : y ∈ spliceOut l i) : y ∈ l := by
  rw [spliceOut] at h
  rcases List.mem_append.mp h with h1 | h1
  · exact List.Sublist.mem h1 (List.take_sublist i l)
  · exact List.Sublist.mem h1 (List.drop_sublist (i+1) l)

/-! ### Characterizations of `findKey` and `insertPos` -/

theorem findKey_le_length {K : Type} [LinearOrder K] (keys : List K) (k : K) :
    findKey keys k ≤ keys.length :=
  takeWhile_length_le _ keys

theorem findKey_prefix {K : Type} [LinearOrder K] {keys : List K} {k : K} {j : Nat}
    (hj : j < findKey keys k) : ∃ kj, keys[j]? = some kj ∧ kj < k := by
  rcases takeWhile_getElem_sat _ keys j hj with ⟨x, hx, hpx⟩
  exact ⟨x, hx, by simpa using hpx⟩

theorem findKey_stop {K : Type} [LinearOrder K] {keys : List K} {k : K} {kj : K}
    (h : keys[findKey keys k]? = some kj) : ¬ kj < k := by
  have := takeWhile_stop _ keys kj h
  simpa using this

theorem insertPos_le_length {K : Type} [LinearOrder K] (keys : List K) (k : K) :
    insertPos keys k ≤ keys.length :=
  Nat.sub_le _ _

theorem insertPos_suffix {K : Type} [LinearOrder K] {keys : List K} {k : K} {j : Nat} {kj : K}
    (hle : insertPos keys k ≤ j) (h : keys[j]? = some kj) : k < kj := by
  have hjl : j < keys.length := (List.getElem?_eq_some_iff.mp h).1
  have htw := takeWhile_length_le (fun x => decide (k < x)) keys.reverse
  rw [List.length_reverse] at htw
  have hrj : keys.reverse[keys.length - 1 - j]? = some kj := by
    rw [List.getElem?_reverse (by omega)]
    have : keys.length - 1 - (keys.length - 1 - j) = j := by omega
    rw [this, h]
  rw [insertPos] at hle
  rcases takeWhile_getElem_sat (fun x => decide (k < x)) keys.reverse
      (keys.length - 1 - j) (by omega) with ⟨x, hx, hpx⟩
  rw [hrj] at hx
  injection hx with hx
  rw [hx]
  simpa using hpx

theorem insertPos_stop {K : Type} [LinearOrder K] {keys : List K} {k : K} {kj : K}
    (hpos : 0 < insertPos keys k) (h : keys[insertPos keys k - 1]? = some kj) :
    ¬ k < kj := by
  have htw := takeWhile_length_le (fun x => decide (k < x)) keys.reverse
  rw [List.length_reverse] at htw
  have hjl : insertPos keys k - 1 < keys.length := by
    have := insertPos_le_length keys k
    omega
  have hrj : keys.reverse[(keys.reverse.takeWhile (fun x => decide (k < x))).length]?
      = some kj := by
    rw [List.getElem?_reverse (by rw [insertPos] at hpos; omega)]
    have : keys.length - 1 - (keys.reverse.takeWhile (fun x => decide (k < x))).length
        = insertPos keys k - 1 := by
      rw [insertPos] at hpos ⊢
      omega
    rw [this, h]
  have := takeWhile_stop (fun x => decide (k < x)) keys.reverse kj hrj
  simpa using this

/-! ### Key-count invariant and further traversal lemmas -/

/-- The claim's key-count discipline: the root holds at least one key, every
other node at least `t - 1`, and all nodes at most `2t - 1`. -/
inductive CountsOK {K V : Type} (t : Nat) : Bool → BTreeNode K V → Prop where
  | mk : ∀ (isRoot : Bool) (keys : List K) (values : List V)
      (children : List (BTreeNode K V)) (isLeaf : Bool),
      (if isRoot then 1 else t - 1) ≤ keys.length →
      keys.length ≤ 2 * t - 1 →
      (∀ (i : Nat) (c : BTreeNode K V), children[i]? = some c → CountsOK t false c) →
      CountsOK t isRoot (.node keys values children isLeaf)

theorem countsOK_elim {K V : Type} {t : Nat} {ρ : Bool} {keys : List K} {values : List V}
    {children : List (BTreeNode K V)} {isLeaf : Bool}
    (h : CountsOK t ρ (.node keys values children isLeaf)) :
    (if ρ then 1 else t - 1) ≤ keys.length ∧ keys.length ≤ 2 * t - 1 ∧
    (∀ (i : Nat) (c : BTreeNode K V), children[i]? = some c → CountsOK t false c) := by
  cases h with
  | mk _ _ _ _ _ h1 h2 h3 => exact ⟨h1, h2, h3⟩

theorem ordered_elim {K V : Type} [LT K] {b1 b2 : Option K} {keys : List K}
    {values : List V} {children : List (BTreeNode K V)} {isLeaf : Bool}
    (h : BTreeNode.Ordered b1 b2 (.node keys values children isLeaf)) :
    keys.length = values.length ∧
    List.Chain' (· < ·) keys ∧
    (∀ k ∈ keys, lbLt b1 k ∧ ubLt k b2) ∧
    (isLeaf = true → children = []) ∧
    (isLeaf = false → children.length = keys.length + 1) ∧
    (∀ (i : Nat) (c : BTreeNode K V), children[i]? = some c →
      BTreeNode.Ordered (childLo b1 keys i) (childHi b2 keys i) c) := by
  cases h with
  | leaf b1 b2 keys values h1 h2 h3 =>
    refine ⟨h1, h2, h3, fun _ => rfl, ?_, ?_⟩
    · intro h
      exact absurd h (by decide)
    · intro i c hc
      simp at hc
  | internal b1 b2 keys values children h1 h2 h3 h4 h5 =>
    refine ⟨h1, h3, h4, ?_, fun _ => h2, h5⟩
    intro h
    exact absurd h (by decide)

/-- Weakening the outer bounds of an ordered subtree. -/
theorem Ordered.weaken {K V : Type} [Preorder K] :
    ∀ {b1 b2 : Option K} {n : BTreeNode K V}, BTreeNode.Ordered b1 b2 n →
      ∀ (b1' b2' : Option K),
      (∀ x : K, lbLt b1 x → lbLt b1' x) → (∀ x : K, ubLt x b2 → ubLt x b2') →
      BTreeNode.Ordered b1' b2' n := by
  intro b1 b2 n hord
  induction hord with
  | leaf b1 b2 keys values h1 h2 h3 =>
    intro b1' b2' hl hu
    exact .leaf _ _ _ _ h1 h2 (fun k hk => ⟨hl k (h3 k hk).1, hu k (h3 k hk).2⟩)
  | internal b1 b2 keys values children h1 h2 h3 h4 h5 ih =>
    intro b1' b2' hl hu
    refine .internal _ _ _ _ _ h1 h2 h3
      (fun k hk => ⟨hl k (h4 k hk).1, hu k (h4 k hk).2⟩) ?_
    intro i c hc
    refine ih i c hc (childLo b1' keys i) (childHi b2' keys i) ?_ ?_
    · intro x hx
      by_cases hi0 : i = 0
      · rw [childLo, if_pos hi0] at hx ⊢
        exact hl x hx
      · rw [childLo, if_neg hi0] at hx ⊢
        exact hx
    · intro x hx
      by_cases hik : i < keys.length
      · rw [childHi, if_pos hik] at hx ⊢
        exact hx
      · rw [childHi, if_neg hik] at hx ⊢
        exact hu x hx

theorem mixT_mem_pair {K V : Type} :
    ∀ (ps : List (K × V)) (cs : List (List (K × V))) (p : K × V),
      p ∈ ps → p ∈ mixT ps cs := by
  intro ps
  induction ps with
  | nil => intro cs p h; cases h
  | cons q ps ih =>
    intro cs p h
    rw [mixT]
    rcases List.mem_cons.mp h with h1 | h1
    · exact List.mem_append.mpr (Or.inr (h1 ▸ List.mem_cons_self q _))
    · exact List.mem_append.mpr (Or.inr (List.mem_cons_of_mem q (ih cs.tail p h1)))

theorem mixT_mem_child {K V : Type} :
    ∀ (ps : List (K × V)) (cs : List (List (K × V))) (i : Nat) (c : List (K × V))
      (p : K × V), cs[i]? = some c → i ≤ ps.length → p ∈ c → p ∈ mixT ps cs := by
  intro ps
  induction ps with
  | nil =>
    intro cs i c p hc hi hp
    have hi0 : i = 0 := by simpa using hi
    subst hi0
    cases cs with
    | nil => cases hc
    | cons c0 cs' =>
      rw [List.getElem?_cons_zero] at hc
      injection hc with hc
      subst hc
      exact hp
  | cons q ps ih =>
    intro cs i c p hc hi hp
    rw [mixT]
    cases i with
    | zero =>
      cases cs with
      | nil => cases hc
      | cons c0 cs' =>
        rw [List.getElem?_cons_zero] at hc
        injection hc with hc
        subst hc
        exact List.mem_append.mpr (Or.inl hp)
    | succ i =>
      cases cs with
      | nil => cases hc
      | cons c0 cs' =>
        rw [List.getElem?_cons_succ] at hc
        exact List.mem_append.mpr (Or.inr (List.mem_cons_of_mem q
          (ih cs' i c p hc (by simpa using hi) hp)))

theorem traverse_keys_mem {K V : Type} {keys : List K} {values : List V}
    {children : List (BTreeNode K V)} {isLeaf : Bool} {j : Nat} {kj : K}
    (hlen : keys.length = values.length) (hj : keys[j]? = some kj) :
    ∃ v, (kj, v) ∈ (BTreeNode.node keys values children isLeaf).traverse := by
  have hjl : j < values.length := by
    rw [← hlen]
    exact (List.getElem?_eq_some_iff.mp hj).1
  rcases hv : values[j]? with _ | vj
  · rw [List.getElem?_eq_none_iff] at hv
    omega
  have hzip : (keys.zip values)[j]? = some (kj, vj) :=
    List.getElem?_zip_eq_some.mpr ⟨hj, hv⟩
  have hmem := List.mem_iff_getElem?.mpr ⟨j, hzip⟩
  refine ⟨vj, ?_⟩
  rw [traverse_node]
  cases isLeaf with
  | true => simpa using hmem
  | false =>
    rw [if_neg (by simp)]
    exact mixT_mem_pair _ _ _ hmem

theorem traverse_child_sub {K V : Type} {keys : List K} {values : List V}
    {children : List (BTreeNode K V)} {i : Nat} {c : BTreeNode K V} {p : K × V}
    (hlen : keys.length = values.length) (hc : children[i]? = some c)
    (hi : i ≤ keys.length) (hp : p ∈ c.traverse) :
    p ∈ (BTreeNode.node keys values children false).traverse := by
  rw [traverse_node, if_neg (by simp)]
  refine mixT_mem_child _ _ i c.traverse p ?_ ?_ hp
  · rw [List.getElem?_map, hc]
    rfl
  · rw [List.length_zip]
    omega

/-- The sorted-interleaving lemma behind the ascending-traversal claim. -/
theorem sorted_mixT {K V : Type} [Preorder K] :
    ∀ (keys : List K) (values : List V) (tcs : List (List (K × V))) (b : Option K),
      ChainL b keys tcs →
      (∀ (i : Nat) (c : List (K × V)), tcs[i]? = some c →
        List.Pairwise (· < ·) (c.map Prod.fst)) →
      List.Pairwise (· < ·) ((mixT (keys.zip values) tcs).map Prod.fst) := by
  intro keys
  induction keys with
  | nil =>
    intro values tcs b hch hsorted
    rw [List.zip_nil_left]
    cases tcs with
    | nil => exact List.Pairwise.nil
    | cons c cs => simpa [mixT] using hsorted 0 c (by simp)
  | cons k ks ih =>
    intro values tcs b hch hsorted
    cases values with
    | nil =>
      rw [List.zip_nil_right]
      cases tcs with
      | nil => exact List.Pairwise.nil
      | cons c cs => simpa [mixT] using hsorted 0 c (by simp)
    | cons v vs =>
      rw [List.zip_cons_cons, mixT, List.map_append, List.map_cons]
      rw [List.pairwise_append]
      have hrest : ∀ p ∈ mixT (ks.zip vs) tcs.tail, k < p.1 :=
        fun p hp => chainL_all ks vs tcs.tail (some k) hch.2.2 p hp
      have hsorted' : ∀ (i : Nat) (c : List (K × V)), tcs.tail[i]? = some c →
          List.Pairwise (· < ·) (c.map Prod.fst) := by
        intro i c hc
        rw [List.getElem?_tail] at hc
        exact hsorted (i+1) c hc
      refine ⟨?_, ?_, ?_⟩
      · cases tcs with
        | nil => simp
        | cons c cs => exact hsorted 0 c (by simp)
      · rw [List.pairwise_cons]
        refine ⟨?_, ih vs tcs.tail (some k) hch.2.2 hsorted'⟩
        intro x hx
        rcases List.mem_map.mp hx with ⟨p, hp, hpx⟩
        rw [← hpx]
        exact hrest p hp
      · intro a ha b hb
        rcases List.mem_map.mp ha with ⟨p, hp, hpa⟩
        have hpk : p.1 < k := (hch.1 p hp).2
        rcases List.mem_cons.mp hb with hb1 | hb1
        · rw [← hpa, hb1]
          exact hpk
        · rcases List.mem_map.mp hb1 with ⟨q, hq, hqb⟩
          rw [← hpa, ← hqb]
          exact lt_trans hpk (hrest q hq)

/-- C3's first conclusion at node level: an ordered subtree traverses in
strictly ascending key order. -/
theorem traverse_sorted {K V : Type} [Preorder K] :
    ∀ {b1 b2 : Option K} {n : BTreeNode K V}, BTreeNode.Ordered b1 b2 n →
      List.Pairwise (· < ·) (n.traverse.map Prod.fst) := by
  intro b1 b2 n hord
  induction hord with
  | leaf b1 b2 keys values hlen hchain hbnd =>
    rw [traverse_node, if_pos rfl, List.map_fst_zip _ _ (by omega)]
    exact List.chain'_iff_pairwise.mp hchain
  | internal b1 b2 keys values children hlen hclen hchain hbnd hch ih =>
    rw [traverse_node, if_neg (by simp)]
    refine sorted_mixT keys values (children.map BTreeNode.traverse) b1
      (chainL_intro keys children b1 b2 (List.chain'_iff_pairwise.mp hchain)
        (fun x hx => (hbnd x hx).1)
        (fun i c hic => traverse_bounds (hch i c hic))) ?_
    intro i tc htc
    rw [List.getElem?_map] at htc
    rcases hc : children[i]? with _ | c
    · rw [hc] at htc
      cases htc
    · rw [hc] at htc
      injection htc with htc
      rw [← htc]
      exact ih i c hc

/-- Tightening the upper bound to anything above the whole traversal. -/
theorem Ordered.set_ub {K V : Type} [Preorder K] :
    ∀ {b1 b2 : Option K} {n : BTreeNode K V}, BTreeNode.Ordered b1 b2 n →
      ∀ (b2' : Option K), (∀ p ∈ n.traverse, ubLt p.1 b2') →
      BTreeNode.Ordered b1 b2' n := by
  intro b1 b2 n hord
  induction hord with
  | leaf b1 b2 keys values h1 h2 h3 =>
    intro b2' hb
    refine .leaf _ _ _ _ h1 h2 ?_
    intro k hk
    rcases List.mem_iff_getElem?.mp hk with ⟨j, hj⟩
    rcases @traverse_keys_mem K V keys values [] true j k h1 hj with ⟨v, hv⟩
    exact ⟨(h3 k hk).1, hb (k, v) hv⟩
  | internal b1 b2 keys values children h1 h2 h3 h4 h5 ih =>
    intro b2' hb
    have hkey : ∀ k ∈ keys, lbLt b1 k ∧ ubLt k b2' := by
      intro k hk
      rcases List.mem_iff_getElem?.mp hk with ⟨j, hj⟩
      rcases @traverse_keys_mem K V keys values children false j k h1 hj with ⟨v, hv⟩
      exact ⟨(h4 k hk).1, hb (k, v) hv⟩
    refine .internal _ _ _ _ _ h1 h2 h3 hkey ?_
    intro i c hc
    by_cases hik : i < keys.length
    · have heq : childHi b2' keys i = childHi b2 keys i := by
        rw [childHi, childHi, if_pos hik, if_pos hik]
      rw [heq]
      exact h5 i c hc
    · have hile : i ≤ keys.length := by
        have := (List.getElem?_eq_some_iff.mp hc).1
        omega
      have heq : childHi b2' keys i = b2' := by rw [childHi, if_neg hik]
      rw [heq]
      refine ih i c hc b2' ?_
      intro p hp
      exact hb p (traverse_child_sub h1 hc hile hp)

/-- Tightening the lower bound to anything below the whole traversal. -/
theorem Ordered.set_lb {K V : Type} [Preorder K] :
    ∀ {b1 b2 : Option K} {n : BTreeNode K V}, BTreeNode.Ordered b1 b2 n →
      ∀ (b1' : Option K), (∀ p ∈ n.traverse, lbLt b1' p.1) →
      BTreeNode.Ordered b1' b2 n := by
  intro b1 b2 n hord
  induction hord with
  | leaf b1 b2 keys values h1 h2 h3 =>
    intro b1' hb
    refine .leaf _ _ _ _ h1 h2 ?_
    intro k hk
    rcases List.mem_iff_getElem?.mp hk with ⟨j, hj⟩
    rcases @traverse_keys_mem K V keys values [] true j k h1 hj with ⟨v, hv⟩
    exact ⟨hb (k, v) hv, (h3 k hk).2⟩
  | internal b1 b2 keys values children h1 h2 h3 h4 h5 ih =>
    intro b1' hb
    have hkey : ∀ k ∈ keys, lbLt b1' k ∧ ubLt k b2 := by
      intro k hk
      rcases List.mem_iff_getElem?.mp hk with ⟨j, hj⟩
      rcases @traverse_keys_mem K V keys values children false j k h1 hj with ⟨v, hv⟩
      exact ⟨hb (k, v) hv, (h4 k hk).2⟩
    refine .internal _ _ _ _ _ h1 h2 h3 hkey ?_
    intro i c hc
    by_cases hi0 : i = 0
    · subst hi0
      have heq : childLo b1' keys 0 = b1' := by rw [childLo, if_pos rfl]
      rw [heq]
      have hile : (0 : Nat) ≤ keys.length := Nat.zero_le _
      refine ih 0 c hc b1' ?_
      intro p hp
      exact hb p (traverse_child_sub h1 hc hile hp)
    · have heq : childLo b1' keys i = childLo b1 keys i := by
        rw [childLo, childLo, if_neg hi0, if_neg hi0]
      rw [heq]
      exact h5 i c hc

/-- A key strictly inside child `i`'s window differs from every node key. -/
theorem window_keys_ne {K : Type} [LinearOrder K] {b1 b2 : Option K} {keys : List K}
    {i : Nat} {k : K} (hpw : List.Pairwise (· < ·) keys) (hi : i ≤ keys.length)
    (hlo : lbLt (childLo b1 keys i) k) (hhi : ubLt k (childHi b2 keys i)) :
    ∀ (j : Nat) (kj : K), keys[j]? = some kj → kj ≠ k := by
  intro j kj hj heq
  subst heq
  have hjl : j < keys.length := (List.getElem?_eq_some_iff.mp hj).1
  have hpw' := List.pairwise_iff_getElem.mp hpw
  by_cases hji : j < i
  · have hi0 : i ≠ 0 := by omega
    have hi1 : i - 1 < keys.length := by omega
    rw [childLo, if_neg hi0, List.getElem?_eq_getElem hi1] at hlo
    have hle : kj ≤ keys[i-1] := by
      rcases Nat.lt_or_ge j (i-1) with hlt | hge
      · have := hpw' j (i-1) hjl hi1 hlt
        rw [List.getElem?_eq_getElem hjl] at hj
        injection hj with hj
        rw [← hj]
        exact le_of_lt this
      · have hji1 : j = i - 1 := by omega
        subst hji1
        rw [List.getElem?_eq_getElem hi1] at hj
        injection hj with hj
        rw [← hj]
    exact absurd (lt_of_le_of_lt hle hlo) (lt_irrefl _)
  · have hik : i < keys.length := by omega
    rw [childHi, if_pos hik, List.getElem?_eq_getElem hik] at hhi
    have hle : keys[i] ≤ kj := by
      rcases Nat.lt_or_ge i j with hlt | hge
      · have := hpw' i j hik hjl hlt
        rw [List.getElem?_eq_getElem hjl] at hj
        injection hj with hj
        rw [← hj]
        exact le_of_lt this
      · have hij : i = j := by omega
        subst hij
        rw [List.getElem?_eq_getElem hik] at hj
        injection hj with hj
        rw [← hj]
    exact absurd (lt_of_lt_of_le hhi hle) (lt_irrefl _)

/-- A key strictly inside child `i`'s window misses every other child's
subtree. -/
theorem window_child_ne {K V : Type} [LinearOrder K] {b1 b2 : Option K} {keys : List K}
    {values : List V} {children : List (BTreeNode K V)} {i : Nat} {k : K}
    (hord : BTreeNode.Ordered b1 b2 (.node keys values children false))
    (hi : i ≤ keys.length)
    (hlo : lbLt (childLo b1 keys i) k) (hhi : ubLt k (childHi b2 keys i)) :
    ∀ (j : Nat) (c : BTreeNode K V), children[j]? = some c → j ≠ i →
      ∀ p ∈ c.traverse, p.1 ≠ k := by
  intro j c hjc hji p hp heq
  obtain ⟨hlen, hchain, hbnd, -, hclen, hchild⟩ := ordered_elim hord
  have hclen2 : children.length = keys.length + 1 := hclen rfl
  have hjl : j < children.length := (List.getElem?_eq_some_iff.mp hjc).1
  have hpb := traverse_bounds (hchild j c hjc) p hp
  have hpw' := List.pairwise_iff_getElem.mp (List.chain'_iff_pairwise.mp hchain)
  rcases Nat.lt_or_ge j i with hlt | hge
  · have hjk : j < keys.length := by omega
    rw [childHi, if_pos hjk, List.getElem?_eq_getElem hjk] at hpb
    have hi0 : i ≠ 0 := by omega
    have hi1 : i - 1 < keys.length := by omega
    rw [childLo, if_neg hi0, List.getElem?_eq_getElem hi1] at hlo
    have hle : keys[j] ≤ keys[i-1] := by
      rcases Nat.lt_or_ge j (i-1) with h2 | h2
      · exact le_of_lt (hpw' j (i-1) hjk hi1 h2)
      · have : j = i - 1 := by omega
        subst this
        exact le_refl _
    have : p.1 < k := lt_of_lt_of_le (lt_of_lt_of_le hpb.2 hle) (le_of_lt hlo)
    rw [heq] at this
    exact absurd this (lt_irrefl _)
  · have hji2 : i < j := by omega
    have hj1 : j - 1 < keys.length := by omega
    have hj0 : j ≠ 0 := by omega
    rw [childLo, if_neg hj0, List.getElem?_eq_getElem hj1] at hpb
    have hik : i < keys.length := by omega
    rw [childHi, if_pos hik, List.getElem?_eq_getElem hik] at hhi
    have hle : keys[i] ≤ keys[j-1] := by
      rcases Nat.lt_or_ge i (j-1) with h2 | h2
      · exact le_of_lt (hpw' i (j-1) hik hj1 h2)
      · have : i = j - 1 := by omega
        subst this
        exact le_refl _
    have : k < p.1 := lt_of_lt_of_le hhi (le_of_lt (lt_of_le_of_lt hle hpb.1))
    rw [heq] at this
    exact absurd this (lt_irrefl _)

/-- The key multiset view of a subtree used by the preservation proofs. -/
def tKeys {K V : Type} (n : BTreeNode K V) : List K :=
  n.traverse.map Prod.fst

theorem tKeys_decomp {K V : Type} {keys : List K} {values : List V}
    {children : List (BTreeNode K V)} {isLeaf : Bool} {x : K}
    (h : x ∈ tKeys (.node keys values children isLeaf)) :
    x ∈ keys ∨ (isLeaf = false ∧ ∃ (j : Nat) (c : BTreeNode K V),
      children[j]? = some c ∧ j ≤ (keys.zip values).length ∧ x ∈ tKeys c) := by
  rcases List.mem_map.mp h with ⟨p, hp, hpx⟩
  rw [traverse_node] at hp
  cases isLeaf with
  | true =>
    rw [if_pos rfl] at hp
    exact Or.inl (hpx ▸ (List.of_mem_zip hp).1)
  | false =>
    rw [if_neg (by simp)] at hp
    rcases mem_mixT _ _ hp with h1 | ⟨j, tc, hle, htc, hptc⟩
    · exact Or.inl (hpx ▸ (List.of_mem_zip h1).1)
    · rw [List.getElem?_map] at htc
      rcases hc : children[j]? with _ | c
      · rw [hc] at htc
        cases htc
      · rw [hc] at htc
        injection htc with htc
        refine Or.inr ⟨rfl, j, c, hc, hle, ?_⟩
        exact List.mem_map.mpr ⟨p, htc ▸ hptc, hpx⟩

theorem tKeys_of_key {K V : Type} {keys : List K} {values : List V}
    {children : List (BTreeNode K V)} {isLeaf : Bool} {x : K}
    (hlen : keys.length = values.length) (hx : x ∈ keys) :
    x ∈ tKeys (.node keys values children isLeaf) := by
  rcases List.mem_iff_getElem?.mp hx with ⟨j, hj⟩
  rcases @traverse_keys_mem K V keys values children isLeaf j x hlen hj with ⟨v, hv⟩
  exact List.mem_map.mpr ⟨(x, v), hv, rfl⟩

theorem tKeys_of_child {K V : Type} {keys : List K} {values : List V}
    {children : List (BTreeNode K V)} {i : Nat} {c : BTreeNode K V} {x : K}
    (hlen : keys.length = values.length) (hc : children[i]? = some c)
    (hi : i ≤ keys.length) (hx : x ∈ tKeys c) :
    x ∈ tKeys (.node keys values children false) := by
  rcases List.mem_map.mp hx with ⟨p, hp, hpx⟩
  exact List.mem_map.mpr ⟨p, traverse_child_sub hlen hc hi hp, hpx⟩

/-- Inserting a key at a position separating smaller from larger keys keeps
the vector sorted. -/
theorem pairwise_splice {K : Type} [LinearOrder K] {keys : List K} {i : Nat} {mid : K}
    (hpw : List.Pairwise (· < ·) keys) (hi : i ≤ keys.length)
    (hlt : ∀ (j : Nat) (x : K), j < i → keys[j]? = some x → x < mid)
    (hgt : ∀ (j : Nat) (x : K), i ≤ j → keys[j]? = some x → mid < x) :
    List.Pairwise (· < ·) (splice keys i mid) := by
  rw [splice, List.pairwise_append]
  have hmemtk : ∀ x ∈ keys.take i, x < mid := by
    intro x hx
    rcases List.mem_iff_getElem?.mp hx with ⟨j, hj⟩
    rw [List.getElem?_take] at hj
    by_cases hji : j < i
    · rw [if_pos hji] at hj
      exact hlt j x hji hj
    · rw [if_neg hji] at hj
      cases hj
  have hmemdk : ∀ x ∈ keys.drop i, mid < x := by
    intro x hx
    rcases List.mem_iff_getElem?.mp hx with ⟨j, hj⟩
    rw [List.getElem?_drop] at hj
    exact hgt (i + j) x (by omega) hj
  refine ⟨List.Pairwise.sublist (List.take_sublist i keys) hpw, ?_, ?_⟩
  · rw [List.pairwise_cons]
    exact ⟨hmemdk, List.Pairwise.sublist (List.drop_sublist i keys) hpw⟩
  · intro a ha b hb
    rcases List.mem_cons.mp hb with hb1 | hb1
    · rw [hb1]
      exact hmemtk a ha
    · exact lt_trans (hmemtk a ha) (hmemdk b hb1)

/-- The left half of a node split at key slot `m` is ordered below that
key. -/
theorem ordered_take_half {K V : Type} [LinearOrder K] {lo hi : Option K}
    {yk : List K} {yv : List V} {yc : List (BTreeNode K V)} {yl : Bool} {m : Nat} {mid : K}
    (hord : BTreeNode.Ordered lo hi (.node yk yv yc yl))
    (hm : yk[m]? = some mid) :
    BTreeNode.Ordered lo (some mid)
      (.node (yk.take m) (yv.take m) (if yl then yc else yc.take (m + 1)) yl) := by
  obtain ⟨hlen, hchain, hbnd, hleafc, hclen, hchild⟩ := ordered_elim hord
  have hml : m < yk.length := (List.getElem?_eq_some_iff.mp hm).1
  have hpw := List.pairwise_iff_getElem.mp (List.chain'_iff_pairwise.mp hchain)
  have hkeybnd : ∀ k ∈ yk.take m, lbLt lo k ∧ ubLt k (some mid) := by
    intro k hk
    rcases List.mem_iff_getElem?.mp hk with ⟨j, hj⟩
    rw [List.getElem?_take] at hj
    by_cases hjm : j < m
    · rw [if_pos hjm] at hj
      have hjl : j < yk.length := by omega
      refine ⟨(hbnd k (List.mem_iff_getElem?.mpr ⟨j, hj⟩)).1, ?_⟩
      have := hpw j m hjl hml hjm
      rw [List.getElem?_eq_getElem hjl] at hj
      injection hj with hj
      rw [List.getElem?_eq_getElem hml] at hm
      injection hm with hm
      show k < mid
      rw [← hj, ← hm]
      exact this
    · rw [if_neg hjm] at hj
      cases hj
  have hchaint : List.Chain' (· < ·) (yk.take m) :=
    List.chain'_iff_pairwise.mpr (List.Pairwise.sublist (List.take_sublist m yk)
      (List.chain'_iff_pairwise.mp hchain))
  cases yl with
  | true =>
    rw [if_pos rfl]
    have hyc : yc = [] := hleafc rfl
    subst hyc
    refine .leaf _ _ _ _ ?_ hchaint hkeybnd
    rw [List.length_take, List.length_take, hlen]
  | false =>
    rw [if_neg (by simp)]
    refine .internal _ _ _ _ _ ?_ ?_ hchaint hkeybnd ?_
    · rw [List.length_take, List.length_take, hlen]
    · rw [List.length_take, List.length_take, hclen rfl]
      omega
    · intro j c hc
      rw [List.getElem?_take] at hc
      by_cases hjm : j < m + 1
      · rw [if_pos hjm] at hc
        have h := hchild j c hc
        have hlo : childLo lo (yk.take m) j = childLo lo yk j := by
          rw [childLo, childLo]
          by_cases hj0 : j = 0
          · rw [if_pos hj0, if_pos hj0]
          · rw [if_neg hj0, if_neg hj0, List.getElem?_take, if_pos (by omega)]
        have hhi : childHi (some mid) (yk.take m) j = childHi hi yk j := by
          rw [childHi, childHi, List.length_take]
          by_cases hjm2 : j < m
          · rw [if_pos (by omega), if_pos (by omega), List.getElem?_take, if_pos hjm2]
          · have hjm3 : j = m := by omega
            subst hjm3
            rw [if_neg (by omega), if_pos hml, hm]
        rw [hlo, hhi]
        exact h
      · rw [if_neg hjm] at hc
        cases hc

/-- The right half of a node split at key slot `m` is ordered above that
key. -/
theorem ordered_drop_half {K V : Type} [LinearOrder K] {lo hi : Option K}
    {yk : List K} {yv : List V} {yc : List (BTreeNode K V)} {yl : Bool} {m : Nat} {mid : K}
    (hord : BTreeNode.Ordered lo hi (.node yk yv yc yl))
    (hm : yk[m]? = some mid) :
    BTreeNode.Ordered (some mid) hi
      (.node (yk.drop (m + 1)) (yv.drop (m + 1))
        (if yl then yc else yc.drop (m + 1)) yl) := by
  obtain ⟨hlen, hchain, hbnd, hleafc, hclen, hchild⟩ := ordered_elim hord
  have hml : m < yk.length := (List.getElem?_eq_some_iff.mp hm).1
  have hpw := List.pairwise_iff_getElem.mp (List.chain'_iff_pairwise.mp hchain)
  have hkeybnd : ∀ k ∈ yk.drop (m + 1), lbLt (some mid) k ∧ ubLt k hi := by
    intro k hk
    rcases List.mem_iff_getElem?.mp hk with ⟨j, hj⟩
    rw [List.getElem?_drop] at hj
    have hjl : m + 1 + j < yk.length := (List.getElem?_eq_some_iff.mp hj).1
    refine ⟨?_, (hbnd k (List.mem_iff_getElem?.mpr ⟨m + 1 + j, hj⟩)).2⟩
    have := hpw m (m + 1 + j) hml hjl (by omega)
    rw [List.getElem?_eq_getElem hjl] at hj
    injection hj with hj
    rw [List.getElem?_eq_getElem hml] at hm
    injection hm with hm
    show mid < k
    rw [← hj, ← hm]
    exact this
  have hchaind : List.Chain' (· < ·) (yk.drop (m + 1)) :=
    List.chain'_iff_pairwise.mpr (List.Pairwise.sublist (List.drop_sublist (m + 1) yk)
      (List.chain'_iff_pairwise.mp hchain))
  cases yl with
  | true =>
    rw [if_pos rfl]
    have hyc : yc = [] := hleafc rfl
    subst hyc
    refine .leaf _ _ _ _ ?_ hchaind hkeybnd
    rw [List.length_drop, List.length_drop, hlen]
  | false =>
    rw [if_neg (by simp)]
    refine .internal _ _ _ _ _ ?_ ?_ hchaind hkeybnd ?_
    · rw [List.length_drop, List.length_drop, hlen]
    · rw [List.length_drop, List.length_drop, hclen rfl]
      omega
    · intro j c hc
      rw [List.getElem?_drop] at hc
      have h := hchild (m + 1 + j) c hc
      have hjl : m + 1 + j < yc.length := (List.getElem?_eq_some_iff.mp hc).1
      have hlo : childLo (some mid) (yk.drop (m + 1)) j = childLo lo yk (m + 1 + j) := by
        rw [childLo, childLo]
        by_cases hj0 : j = 0
        · subst hj0
          rw [if_pos rfl, if_neg (by omega)]
          have : m + 1 + 0 - 1 = m := by omega
          rw [this, hm]
        · rw [if_neg hj0, if_neg (by omega), List.getElem?_drop]
          congr 1
          omega
      have hhi : childHi hi (yk.drop (m + 1)) j = childHi hi yk (m + 1 + j) := by
        rw [childHi, childHi, List.length_drop]
        by_cases hjm : j < yk.length - (m + 1)
        · rw [if_pos hjm, if_pos (by omega), List.getElem?_drop]
        · rw [if_neg hjm, if_neg (by omega)]
      rw [hlo, hhi]
      exact h

/-- A key strictly inside child `i`'s window separates the node's keys. -/
theorem window_keys_split {K : Type} [LinearOrder K] {b1 b2 : Option K} {keys : List K}
    {i : Nat} {k : K} (hpw : List.Pairwise (· < ·) keys) (hi : i ≤ keys.length)
    (hlo : lbLt (childLo b1 keys i) k) (hhi : ubLt k (childHi b2 keys i)) :
    (∀ (j : Nat) (x : K), j < i → keys[j]? = some x → x < k) ∧
    (∀ (j : Nat) (x : K), i ≤ j → keys[j]? = some x → k < x) := by
  have hpw' := List.pairwise_iff_getElem.mp hpw
  constructor
  · intro j x hji hj
    have hjl : j < keys.length := (List.getElem?_eq_some_iff.mp hj).1
    have hi0 : i ≠ 0 := by omega
    have hi1 : i - 1 < keys.length := by omega
    rw [childLo, if_neg hi0, List.getElem?_eq_getElem hi1] at hlo
    rw [List.getElem?_eq_getElem hjl] at hj
    injection hj with hj
    have hle : x ≤ keys[i-1] := by
      rcases Nat.lt_or_ge j (i-1) with h2 | h2
      · rw [← hj]
        exact le_of_lt (hpw' j (i-1) hjl hi1 h2)
      · have : j = i - 1 := by omega
        subst this
        rw [← hj]
    exact lt_of_le_of_lt hle hlo
  · intro j x hij hj
    have hjl : j < keys.length := (List.getElem?_eq_some_iff.mp hj).1
    have hik : i < keys.length := by omega
    rw [childHi, if_pos hik, List.getElem?_eq_getElem hik] at hhi
    rw [List.getElem?_eq_getElem hjl] at hj
    injection hj with hj
    have hle : keys[i] ≤ x := by
      rcases Nat.lt_or_ge i j with h2 | h2
      · rw [← hj]
        exact le_of_lt (hpw' i j hik hjl h2)
      · have : i = j := by omega
        subst this
        rw [← hj]
    exact lt_of_lt_of_le hhi hle

theorem tKeys_take_half {K V : Type} [LinearOrder K] {yk : List K} {yv : List V}
    {yc : List (BTreeNode K V)} {yl : Bool} {m : Nat} {x : K}
    (hlen : yk.length = yv.length) (hm : m < yk.length)
    (hx : x ∈ tKeys (.node (yk.take m) (yv.take m)
      (if yl then yc else yc.take (m + 1)) yl)) :
    x ∈ tKeys (.node yk yv yc yl) := by
  rcases tKeys_decomp hx with h1 | ⟨hyl, j, c, hc, hle, hxc⟩
  · exact tKeys_of_key hlen (List.Sublist.mem h1 (List.take_sublist m yk))
  · subst hyl
    rw [if_neg (by simp)] at hc
    rw [List.getElem?_take] at hc
    by_cases hjm : j < m + 1
    · rw [if_pos hjm] at hc
      exact tKeys_of_child hlen hc (by omega) hxc
    · rw [if_neg hjm] at hc
      cases hc

theorem tKeys_drop_half {K V : Type} [LinearOrder K] {yk : List K} {yv : List V}
    {yc : List (BTreeNode K V)} {yl : Bool} {m : Nat} {x : K}
    (hlen : yk.length = yv.length)
    (hclen : yl = false → yc.length = yk.length + 1)
    (hx : x ∈ tKeys (.node (yk.drop (m + 1)) (yv.drop (m + 1))
      (if yl then yc else yc.drop (m + 1)) yl)) :
    x ∈ tKeys (.node yk yv yc yl) := by
  rcases tKeys_decomp hx with h1 | ⟨hyl, j, c, hc, hle, hxc⟩
  · exact tKeys_of_key hlen (List.Sublist.mem h1 (List.drop_sublist (m + 1) yk))
  · subst hyl
    rw [if_neg (by simp)] at hc
    rw [List.getElem?_drop] at hc
    have hjc : m + 1 + j < yc.length := (List.getElem?_eq_some_iff.mp hc).1
    rw [hclen rfl] at hjc
    exact tKeys_of_child hlen hc (by omega) hxc

/-- `splitChild` on a full child: the explicit result, preservation of the
ordering invariant and of the per-node count bounds, and key-set
containment. -/
theorem splitChild_spec {K V : Type} [LinearOrder K] [Inhabited K] [Inhabited V]
    {t : Nat} {b1 b2 : Option K} {keys : List K} {values : List V}
    {children : List (BTreeNode K V)} {i : Nat}
    {yk : List K} {yv : List V} {yc : List (BTreeNode K V)} {yl : Bool}
    (ht : 2 ≤ t)
    (hord : BTreeNode.Ordered b1 b2 (.node keys values children false))
    (hcnt : ∀ (j : Nat) (c : BTreeNode K V), children[j]? = some c → CountsOK t false c)
    (hy : children[i]? = some (.node yk yv yc yl))
    (hyfull : yk.length = 2 * t - 1) :
    ∃ (mid : K) (midv : V),
      yk[t - 1]? = some mid ∧
      (BTreeNode.node keys values children false).splitChild t i =
        .node (splice keys i mid) (splice values i midv)
          (splice (children.set i
              (.node (yk.take (t - 1)) (yv.take (t - 1))
                (if yl then yc else yc.take t) yl)) (i + 1)
            (.node (yk.drop t) (yv.drop t) (if yl then yc else yc.drop t) yl)) false ∧
      BTreeNode.Ordered b1 b2
        ((BTreeNode.node keys values children false).splitChild t i) ∧
      (∀ (j : Nat) (c : BTreeNode K V),
        (splice (children.set i
            (.node (yk.take (t - 1)) (yv.take (t - 1))
              (if yl then yc else yc.take t) yl)) (i + 1)
          (.node (yk.drop t) (yv.drop t) (if yl then yc else yc.drop t) yl))[j]?
          = some c → CountsOK t false c) ∧
      (∀ x ∈ tKeys ((BTreeNode.node keys values children false).splitChild t i),
        x ∈ tKeys (.node keys values children false)) := by
  obtain ⟨hlen, hchain, hbnd, -, hclen, hchild⟩ := ordered_elim hord
  have hclen2 : children.length = keys.length + 1 := hclen rfl
  have hil : i < children.length := (List.getElem?_eq_some_iff.mp hy).1
  have hile : i ≤ keys.length := by omega
  have hcw := hchild i _ hy
  obtain ⟨hylen, hychain, hybnd, hyleafc, hyclen, hychild⟩ := ordered_elim hcw
  have ht1 : t - 1 < yk.length := by omega
  rcases hmid : yk[t - 1]? with _ | mid
  · rw [List.getElem?_eq_none_iff] at hmid
    omega
  rcases hmidv : yv[t - 1]? with _ | midv
  · rw [List.getElem?_eq_none_iff] at hmidv
    omega
  have hgd : yk.getD (t - 1) default = mid := by
    rw [List.getD_eq_getElem?_getD, hmid]
    rfl
  have hgv : yv.getD (t - 1) default = midv := by
    rw [List.getD_eq_getElem?_getD, hmidv]
    rfl
  have hzk : (yk.drop t).take (t - 1) = yk.drop t :=
    List.take_of_length_le (by rw [List.length_drop]; omega)
  have hzv : (yv.drop t).take (t - 1) = yv.drop t :=
    List.take_of_length_le (by rw [List.length_drop]; omega)
  have hzc : (if yl then ([] : List (BTreeNode K V)) else (yc.drop t).take t)
      = (if yl then yc else yc.drop t) := by
    cases yl with
    | true =>
      rw [if_pos rfl, if_pos rfl]
      exact (hyleafc rfl).symm
    | false =>
      rw [if_neg (by simp), if_neg (by simp)]
      exact List.take_of_length_le (by rw [List.length_drop, hyclen rfl]; omega)
  have heq : (BTreeNode.node keys values children false).splitChild t i =
      .node (splice keys i mid) (splice values i midv)
        (splice (children.set i
            (.node (yk.take (t - 1)) (yv.take (t - 1))
              (if yl then yc else yc.take t) yl)) (i + 1)
          (.node (yk.drop t) (yv.drop t) (if yl then yc else yc.drop t) yl)) false := by
    simp only [BTreeNode.splitChild, hy]
    rw [hgd, hgv, hzk, hzv, hzc]
  have hmidmem : mid ∈ yk := List.mem_iff_getElem?.mpr ⟨t - 1, hmid⟩
  have hmidw := hybnd mid hmidmem
  have hmidb : lbLt b1 mid ∧ ubLt mid b2 := by
    constructor
    · have h1 := hmidw.1
      by_cases hi0 : i = 0
      · rw [childLo, if_pos hi0] at h1
        exact h1
      · rw [childLo, if_neg hi0] at h1
        have hi1 : i - 1 < keys.length := by omega
        rw [List.getElem?_eq_getElem hi1] at h1
        exact lbLt_trans (hbnd _ (List.mem_iff_getElem?.mpr ⟨i - 1,
          List.getElem?_eq_getElem hi1⟩)).1 h1
    · have h2 := hmidw.2
      by_cases hik : i < keys.length
      · rw [childHi, if_pos hik, List.getElem?_eq_getElem hik] at h2
        exact ubLt_trans h2 (hbnd _ (List.mem_iff_getElem?.mpr ⟨i,
          List.getElem?_eq_getElem hik⟩)).2
      · rw [childHi, if_neg hik] at h2
        exact h2
  have hk2len : (splice keys i mid).length = keys.length + 1 := splice_length mid hile
  have hk2get : ∀ j : Nat, (splice keys i mid)[j]? =
      if j < i then keys[j]? else if j = i then some mid else keys[j - 1]? :=
    fun j => splice_getElem? mid hile j
  have hwlo : ∀ j : Nat, j < i →
      childLo b1 (splice keys i mid) j = childLo b1 keys j := by
    intro j hj
    rw [childLo, childLo]
    by_cases hj0 : j = 0
    · rw [if_pos hj0, if_pos hj0]
    · rw [if_neg hj0, if_neg hj0, hk2get, if_pos (by omega)]
  have hwhi : ∀ j : Nat, j < i →
      childHi b2 (splice keys i mid) j = childHi b2 keys j := by
    intro j hj
    rw [childHi, childHi, hk2len, if_pos (by omega), if_pos (by omega), hk2get,
      if_pos hj]
  have hwloi : childLo b1 (splice keys i mid) i = childLo b1 keys i := by
    rw [childLo, childLo]
    by_cases hi0 : i = 0
    · rw [if_pos hi0, if_pos hi0]
    · rw [if_neg hi0, if_neg hi0, hk2get, if_pos (by omega)]
  have hwhii : childHi b2 (splice keys i mid) i = some mid := by
    rw [childHi, hk2len, if_pos (by omega), hk2get, if_neg (by omega), if_pos rfl]
  have hwloi1 : childLo b1 (splice keys i mid) (i + 1) = some mid := by
    rw [childLo, if_neg (by omega)]
    have h01 : i + 1 - 1 = i := by omega
    rw [h01, hk2get, if_neg (by omega), if_pos rfl]
  have hwhii1 : childHi b2 (splice keys i mid) (i + 1) = childHi b2 keys i := by
    rw [childHi, childHi, hk2len]
    by_cases hik : i < keys.length
    · rw [if_pos (by omega), if_pos hik, hk2get, if_neg (by omega), if_neg (by omega)]
      have h01 : i + 1 - 1 = i := by omega
      rw [h01]
    · rw [if_neg (by omega), if_neg hik]
  have hwloj : ∀ j : Nat, i + 2 ≤ j →
      childLo b1 (splice keys i mid) j = childLo b1 keys (j - 1) := by
    intro j hj
    rw [childLo, childLo, if_neg (by omega), if_neg (by omega), hk2get,
      if_neg (by omega), if_neg (by omega)]
  have hwhij : ∀ j : Nat, i + 2 ≤ j →
      childHi b2 (splice keys i mid) j = childHi b2 keys (j - 1) := by
    intro j hj
    rw [childHi, childHi, hk2len]
    by_cases hjk : j - 1 < keys.length
    · rw [if_pos (by omega), if_pos hjk, hk2get, if_neg (by omega), if_neg (by omega)]
    · rw [if_neg (by omega), if_neg hjk]
  have hc2get : ∀ j : Nat,
      (splice (children.set i
          (BTreeNode.node (yk.take (t - 1)) (yv.take (t - 1))
            (if yl then yc else yc.take t) yl)) (i + 1)
        (BTreeNode.node (yk.drop t) (yv.drop t) (if yl then yc else yc.drop t) yl))[j]?
      = if j < i then children[j]?
        else if j = i then some (BTreeNode.node (yk.take (t - 1)) (yv.take (t - 1))
            (if yl then yc else yc.take t) yl)
        else if j = i + 1 then some (BTreeNode.node (yk.drop t) (yv.drop t)
            (if yl then yc else yc.drop t) yl)
        else children[j - 1]? := by
    intro j
    rw [splice_getElem? _ (by rw [List.length_set]; omega) j]
    by_cases h1 : j < i
    · rw [if_pos (show j < i + 1 by omega), List.getElem?_set,
        if_neg (show ¬ i = j by omega), if_pos h1]
    · by_cases h2 : j = i
      · subst h2
        rw [if_pos (show j < j + 1 by omega), List.getElem?_set,
          if_pos (show j = j from rfl), if_pos (show j < children.length by omega),
          if_neg h1, if_pos (show j = j from rfl)]
      · by_cases h3 : j = i + 1
        · subst h3
          rw [if_neg (show ¬ i + 1 < i + 1 by omega),
            if_pos (show i + 1 = i + 1 from rfl), if_neg h1, if_neg h2,
            if_pos (show i + 1 = i + 1 from rfl)]
        · rw [if_neg (show ¬ j < i + 1 by omega), if_neg h3, List.getElem?_set,
            if_neg (show ¬ i = j - 1 by omega), if_neg h1, if_neg h2, if_neg h3]
  have hc2len : (splice (children.set i
      (BTreeNode.node (yk.take (t - 1)) (yv.take (t - 1))
        (if yl then yc else yc.take t) yl)) (i + 1)
      (BTreeNode.node (yk.drop t) (yv.drop t) (if yl then yc else yc.drop t) yl)).length
      = children.length + 1 := by
    rw [splice_length _ (by rw [List.length_set]; omega), List.length_set]
  have hpw := List.chain'_iff_pairwise.mp hchain
  have hsep := window_keys_split hpw hile hmidw.1 hmidw.2
  have ht2 : t - 1 + 1 = t := by omega
  refine ⟨mid, midv, rfl, heq, ?_, ?_, ?_⟩
  · rw [heq]
    refine .internal _ _ _ _ _ ?_ ?_ ?_ ?_ ?_
    · rw [splice_length mid hile, splice_length midv (by rw [← hlen]; exact hile), hlen]
    · rw [hc2len, hk2len, hclen2]
    · exact List.chain'_iff_pairwise.mpr (pairwise_splice hpw hile hsep.1 hsep.2)
    · intro x hx
      rcases splice_mem hx with hxm | hxk
      · rw [hxm]
        exact hmidb
      · exact hbnd x hxk
    · intro j c hc
      rw [hc2get j] at hc
      by_cases h1 : j < i
      · rw [if_pos h1] at hc
        rw [hwlo j h1, hwhi j h1]
        exact hchild j c hc
      · by_cases h2 : j = i
        · subst h2
          rw [if_neg h1, if_pos rfl] at hc
          injection hc with hc
          subst hc
          rw [hwloi, hwhii]
          have hth := ordered_take_half hcw hmid
          rw [ht2] at hth
          exact hth
        · by_cases h3 : j = i + 1
          · subst h3
            rw [if_neg h1, if_neg h2, if_pos rfl] at hc
            injection hc with hc
            subst hc
            rw [hwloi1, hwhii1]
            have hdh := ordered_drop_half hcw hmid
            rw [ht2] at hdh
            exact hdh
          · rw [if_neg h1, if_neg h2, if_neg h3] at hc
            rw [hwloj j (by omega), hwhij j (by omega)]
            exact hchild (j - 1) c hc
  · intro j c hc
    rw [hc2get j] at hc
    obtain ⟨hyc1, hyc2, hyc3⟩ := countsOK_elim (hcnt i _ hy)
    by_cases h1 : j < i
    · rw [if_pos h1] at hc
      exact hcnt j c hc
    · by_cases h2 : j = i
      · subst h2
        rw [if_neg h1, if_pos rfl] at hc
        injection hc with hc
        subst hc
        refine .mk _ _ _ _ _ ?_ ?_ ?_
        · show t - 1 ≤ (yk.take (t - 1)).length
          rw [List.length_take]
          omega
        · rw [List.length_take]
          omega
        · intro jc cc hcc
          cases yl with
          | true =>
            rw [if_pos rfl] at hcc
            exact hyc3 jc cc hcc
          | false =>
            rw [if_neg (by simp)] at hcc
            rw [List.getElem?_take] at hcc
            by_cases hjt : jc < t
            · rw [if_pos hjt] at hcc
              exact hyc3 jc cc hcc
            · rw [if_neg hjt] at hcc
              cases hcc
      · by_cases h3 : j = i + 1
        · subst h3
          rw [if_neg h1, if_neg h2, if_pos rfl] at hc
          injection hc with hc
          subst hc
          refine .mk _ _ _ _ _ ?_ ?_ ?_
          · show t - 1 ≤ (yk.drop t).length
            rw [List.length_drop]
            omega
          · rw [List.length_drop]
            omega
          · intro jc cc hcc
            cases yl with
            | true =>
              rw [if_pos rfl] at hcc
              exact hyc3 jc cc hcc
            | false =>
              rw [if_neg (by simp)] at hcc
              rw [List.getElem?_drop] at hcc
              exact hyc3 (t + jc) cc hcc
        · rw [if_neg h1, if_neg h2, if_neg h3] at hc
          exact hcnt (j - 1) c hc
  · intro x hx
    rw [heq] at hx
    rcases tKeys_decomp hx with hxk | ⟨-, j, c, hc, hjle, hxc⟩
    · rcases splice_mem hxk with hxm | hxk2
      · subst hxm
        exact tKeys_of_child hlen hy hile (tKeys_of_key hylen hmidmem)
      · exact tKeys_of_key hlen hxk2
    · rw [hc2get j] at hc
      by_cases h1 : j < i
      · rw [if_pos h1] at hc
        exact tKeys_of_child hlen hc (by omega) hxc
      · by_cases h2 : j = i
        · subst h2
          rw [if_neg h1, if_pos rfl] at hc
          injection hc with hc
          subst hc
          refine tKeys_of_child hlen hy hile ?_
          exact tKeys_take_half hylen ht1 (by rw [ht2]; exact hxc)
        · by_cases h3 : j = i + 1
          · subst h3
            rw [if_neg h1, if_neg h2, if_pos rfl] at hc
            injection hc with hc
            subst hc
            refine tKeys_of_child hlen hy hile ?_
            exact @tKeys_drop_half K V _ yk yv yc yl (t - 1) x hylen hyclen
              (by rw [ht2]; exact hxc)
          · rw [if_neg h1, if_neg h2, if_neg h3] at hc
            have hjb : j - 1 < children.length := (List.getElem?_eq_some_iff.mp hc).1
            exact tKeys_of_child hlen hc (by omega) hxc

/-- A failed `search` certifies that the key is absent from the subtree. -/
theorem containsB_miss {K V : Type} [LinearOrder K] :
    ∀ (fuel : Nat) {b1 b2 : Option K} {n : BTreeNode K V} {k : K},
      BTreeNode.Ordered b1 b2 n → lbLt b1 k → ubLt k b2 →
      BTreeNode.containsB k fuel n = some false →
      ∀ x ∈ tKeys n, x ≠ k := by
  intro fuel
  induction fuel with
  | zero =>
    intro b1 b2 n k hord hlo hhi hc
    cases n with
    | node keys values children isLeaf =>
      simp only [BTreeNode.containsB] at hc
      cases hc
  | succ fuel ih =>
    intro b1 b2 n k hord hlo hhi hc
    cases n with
    | node keys values children isLeaf =>
    obtain ⟨hlen, hchain, hbnd, hleafc, hclen, hchild⟩ := ordered_elim hord
    have hpw := List.chain'_iff_pairwise.mp hchain
    have hile := findKey_le_length keys k
    have hlo' : lbLt (childLo b1 keys (findKey keys k)) k := by
      by_cases hi0 : findKey keys k = 0
      · rw [childLo, if_pos hi0]
        exact hlo
      · rw [childLo, if_neg hi0]
        rcases findKey_prefix (show findKey keys k - 1 < findKey keys k by omega)
          with ⟨kj, hkj, hkjlt⟩
        rw [hkj]
        exact hkjlt
    rcases hki : keys[findKey keys k]? with _ | ki
    · have hieq : findKey keys k = keys.length := by
        rw [List.getElem?_eq_none_iff] at hki
        omega
      have hhi' : ubLt k (childHi b2 keys (findKey keys k)) := by
        rw [childHi, if_neg (by omega)]
        exact hhi
      simp only [BTreeNode.containsB, hki] at hc
      cases isLeaf with
      | true =>
        intro x hx hxe
        rcases tKeys_decomp hx with hxk | ⟨hf, -⟩
        · rcases List.mem_iff_getElem?.mp hxk with ⟨j, hj⟩
          exact window_keys_ne hpw hile hlo' hhi' j x hj hxe
        · cases hf
      | false =>
        rw [if_neg (by simp)] at hc
        rcases hcc : children[findKey keys k]? with _ | c
        · rw [hcc] at hc
          cases hc
        · rw [hcc] at hc
          have hsub := ih (hchild _ c hcc) hlo' hhi' hc
          intro x hx hxe
          rcases tKeys_decomp hx with hxk | ⟨-, j, c2, hc2, hjle, hxc2⟩
          · rcases List.mem_iff_getElem?.mp hxk with ⟨j, hj⟩
            exact window_keys_ne hpw hile hlo' hhi' j x hj hxe
          · by_cases hji : j = findKey keys k
            · subst hji
              rw [hc2] at hcc
              injection hcc with hcc
              subst hcc
              exact hsub x hxc2 hxe
            · rcases List.mem_map.mp hxc2 with ⟨p, hp, hpx⟩
              exact window_child_ne hord hile hlo' hhi' j c2 hc2 hji p hp
                (hpx.trans hxe)
    · simp only [BTreeNode.containsB, hki] at hc
      by_cases hkik : ki = k
      · rw [if_pos hkik] at hc
        cases hc
      · rw [if_neg hkik] at hc
        have hkik2 : k < ki :=
          lt_of_le_of_ne (not_lt.mp (findKey_stop hki)) (fun h => hkik h.symm)
        have hifk : findKey keys k < keys.length := (List.getElem?_eq_some_iff.mp hki).1
        have hhi' : ubLt k (childHi b2 keys (findKey keys k)) := by
          rw [childHi, if_pos hifk, hki]
          exact hkik2
        cases isLeaf with
        | true =>
          intro x hx hxe
          rcases tKeys_decomp hx with hxk | ⟨hf, -⟩
          · rcases List.mem_iff_getElem?.mp hxk with ⟨j, hj⟩
            exact window_keys_ne hpw hile hlo' hhi' j x hj hxe
          · cases hf
        | false =>
          rw [if_neg (by simp)] at hc
          rcases hcc : children[findKey keys k]? with _ | c
          · rw [hcc] at hc
            cases hc
          · rw [hcc] at hc
            have hsub := ih (hchild _ c hcc) hlo' hhi' hc
            intro x hx hxe
            rcases tKeys_decomp hx with hxk | ⟨-, j, c2, hc2, hjle, hxc2⟩
            · rcases List.mem_iff_getElem?.mp hxk with ⟨j, hj⟩
              exact window_keys_ne hpw hile hlo' hhi' j x hj hxe
            · by_cases hji : j = findKey keys k
              · subst hji
                rw [hc2] at hcc
                injection hcc with hcc
                subst hcc
                exact hsub x hxc2 hxe
              · rcases List.mem_map.mp hxc2 with ⟨p, hp, hpx⟩
                exact window_child_ne hord hile hlo' hhi' j c2 hc2 hji p hp
                  (hpx.trans hxe)

/-- Replacing child `i` by a subtree ordered in the same window keeps the
node ordered. -/
theorem ordered_set_child {K V : Type} [LinearOrder K] {b1 b2 : Option K} {keys : List K}
    {values : List V} {children : List (BTreeNode K V)} {i : Nat} {c2 : BTreeNode K V}
    (hord : BTreeNode.Ordered b1 b2 (.node keys values children false))
    (hc2 : BTreeNode.Ordered (childLo b1 keys i) (childHi b2 keys i) c2) :
    BTreeNode.Ordered b1 b2 (.node keys values (children.set i c2) false) := by
  obtain ⟨hlen, hchain, hbnd, -, hclen, hchild⟩ := ordered_elim hord
  refine .internal _ _ _ _ _ hlen ?_ hchain hbnd ?_
  · rw [List.length_set]
    exact hclen rfl
  · intro j c hc
    rw [List.getElem?_set] at hc
    by_cases hij : i = j
    · subst hij
      by_cases hil : i < children.length
      · rw [if_pos rfl, if_pos hil] at hc
        injection hc with hc
        subst hc
        exact hc2
      · rw [if_pos rfl, if_neg hil] at hc
        cases hc
    · rw [if_neg hij] at hc
      exact hchild j c hc

/-- Replacing a child by a count-respecting subtree keeps all children
count-respecting. -/
theorem countsOK_set_child {K V : Type} {t : Nat} {children : List (BTreeNode K V)}
    {i : Nat} {c2 : BTreeNode K V}
    (hcnt : ∀ (j : Nat) (c : BTreeNode K V), children[j]? = some c → CountsOK t false c)
    (hc2 : CountsOK t false c2) :
    ∀ (j : Nat) (c : BTreeNode K V), (children.set i c2)[j]? = some c →
      CountsOK t false c := by
  intro j c hc
  rw [List.getElem?_set] at hc
  by_cases hij : i = j
  · subst hij
    by_cases hil : i < children.length
    · rw [if_pos rfl, if_pos hil] at hc
      injection hc with hc
      subst hc
      exact hc2
    · rw [if_pos rfl, if_neg hil] at hc
      cases hc
  · rw [if_neg hij] at hc
    exact hcnt j c hc

/-- Introduction form of `CountsOK` through the field accessors. -/
theorem countsOK_intro {K V : Type} {t : Nat} {ρ : Bool} {n : BTreeNode K V}
    (h1 : (if ρ then 1 else t - 1) ≤ n.keysLen) (h2 : n.keysLen ≤ 2 * t - 1)
    (h3 : ∀ (j : Nat) (c : BTreeNode K V), n.childrenOf[j]? = some c →
      CountsOK t false c) :
    CountsOK t ρ n := by
  cases n with
  | node keys values children isLeaf => exact .mk _ _ _ _ _ h1 h2 h3

/-- The key-set effect of replacing one child. -/
theorem tKeys_set_child {K V : Type} {keys : List K} {values : List V}
    {children : List (BTreeNode K V)} {i : Nat} {c c2 : BTreeNode K V} {k : K}
    (hlen : keys.length = values.length)
    (hclen : children.length = keys.length + 1)
    (hc : children[i]? = some c)
    (hsub : ∀ x ∈ tKeys c2, x = k ∨ x ∈ tKeys c) :
    ∀ x ∈ tKeys (.node keys values (children.set i c2) false),
      x = k ∨ x ∈ tKeys (.node keys values children false) := by
  intro x hx
  rcases tKeys_decomp hx with hxk | ⟨-, j, c3, hc3, hjle, hxc3⟩
  · exact Or.inr (tKeys_of_key hlen hxk)
  · rw [List.getElem?_set] at hc3
    have hil : i < children.length := (List.getElem?_eq_some_iff.mp hc).1
    by_cases hij : i = j
    · subst hij
      rw [if_pos rfl, if_pos hil] at hc3
      injection hc3 with hc3
      subst hc3
      rcases hsub x hxc3 with h | h
      · exact Or.inl h
      · exact Or.inr (tKeys_of_child hlen hc (by omega) h)
    · rw [if_neg hij] at hc3
      have hjl : j < children.length := (List.getElem?_eq_some_iff.mp hc3).1
      exact Or.inr (tKeys_of_child hlen hc3 (by omega) hxc3)

/-- `insertNonFull` preserves ordering and counts, grows the node by at most
one key, and only adds the inserted key. -/
theorem insertNonFull_wf {K V : Type} [LinearOrder K] [Inhabited K] [Inhabited V] {t : Nat}
    (ht : 2 ≤ t) :
    ∀ (fuel : Nat) {b1 b2 : Option K} {n n' : BTreeNode K V} {k : K} {v : V},
      BTreeNode.Ordered b1 b2 n →
      lbLt b1 k → ubLt k b2 →
      (∀ x ∈ tKeys n, x ≠ k) →
      (∀ (j : Nat) (c : BTreeNode K V), n.childrenOf[j]? = some c → CountsOK t false c) →
      BTreeNode.insertNonFull t k v fuel n = some n' →
      BTreeNode.Ordered b1 b2 n' ∧
      n.keysLen ≤ n'.keysLen ∧ n'.keysLen ≤ n.keysLen + 1 ∧
      (∀ (j : Nat) (c : BTreeNode K V), n'.childrenOf[j]? = some c →
        CountsOK t false c) ∧
      (∀ x ∈ tKeys n', x = k ∨ x ∈ tKeys n) := by
  intro fuel
  induction fuel with
  | zero =>
    intro b1 b2 n n' k v hord hlo hhi hfresh hcnt hins
    cases n with
    | node keys values children isLeaf =>
      simp only [BTreeNode.insertNonFull] at hins
      cases hins
  | succ fuel ih =>
    intro b1 b2 n n' k v hord hlo hhi hfresh hcnt hins
    cases n with
    | node keys values children isLeaf =>
    obtain ⟨hlen, hchain, hbnd, hleafc, hclen, hchild⟩ := ordered_elim hord
    have hcnt' : ∀ (j : Nat) (c : BTreeNode K V), children[j]? = some c →
        CountsOK t false c := hcnt
    have hpw := List.chain'_iff_pairwise.mp hchain
    have hpw' := List.pairwise_iff_getElem.mp hpw
    have hple := insertPos_le_length keys k
    have hpre : ∀ (j : Nat) (x : K), j < insertPos keys k → keys[j]? = some x →
        x < k := by
      intro j x hj hx
      have hjl : j < keys.length := (List.getElem?_eq_some_iff.mp hx).1
      have hp0 : 0 < insertPos keys k := by omega
      have hp1 : insertPos keys k - 1 < keys.length := by omega
      rcases hq : keys[insertPos keys k - 1]? with _ | q
      · rw [List.getElem?_eq_none_iff] at hq
        omega
      have hqk : ¬ k < q := insertPos_stop hp0 hq
      have hqne : q ≠ k :=
        hfresh q (tKeys_of_key hlen (List.mem_iff_getElem?.mpr ⟨_, hq⟩))
      have hqlt : q < k := lt_of_le_of_ne (not_lt.mp hqk) hqne
      rcases Nat.lt_or_ge j (insertPos keys k - 1) with h2 | h2
      · have h3 := hpw' j (insertPos keys k - 1) hjl hp1 h2
        rw [List.getElem?_eq_getElem hjl] at hx
        injection hx with hx
        rw [List.getElem?_eq_getElem hp1] at hq
        injection hq with hq
        rw [← hx]
        rw [← hq] at hqlt
        exact lt_trans h3 hqlt
      · have hj1 : j = insertPos keys k - 1 := by omega
        subst hj1
        rw [hq] at hx
        injection hx with hx
        rw [← hx]
        exact hqlt
    have hlo' : lbLt (childLo b1 keys (insertPos keys k)) k := by
      by_cases hp0 : insertPos keys k = 0
      · rw [childLo, if_pos hp0]
        exact hlo
      · rw [childLo, if_neg hp0]
        have hp1 : insertPos keys k - 1 < keys.length := by omega
        rcases hq : keys[insertPos keys k - 1]? with _ | q
        · rw [List.getElem?_eq_none_iff] at hq
          omega
        exact hpre _ q (by omega) hq
    have hhi' : ubLt k (childHi b2 keys (insertPos keys k)) := by
      rw [childHi]
      by_cases hpk : insertPos keys k < keys.length
      · rw [if_pos hpk]
        rcases hq : keys[insertPos keys k]? with _ | q
        · rw [List.getElem?_eq_none_iff] at hq
          omega
        exact insertPos_suffix (le_refl _) hq
      · rw [if_neg hpk]
        exact hhi
    simp only [BTreeNode.insertNonFull] at hins
    cases isLeaf with
    | true =>
      rw [if_pos rfl] at hins
      injection hins with hins
      subst hins
      have hce : children = [] := hleafc rfl
      subst hce
      refine ⟨?_, ?_, ?_, ?_, ?_⟩
      · refine .leaf _ _ _ _ ?_ ?_ ?_
        · rw [splice_length k hple, splice_length v (by rw [← hlen]; exact hple), hlen]
        · exact List.chain'_iff_pairwise.mpr
            (pairwise_splice hpw hple hpre (fun j x hj hx => insertPos_suffix hj hx))
        · intro x hx
          rcases splice_mem hx with hxm | hxk
          · rw [hxm]
            exact ⟨hlo, hhi⟩
          · exact hbnd x hxk
      · show keys.length ≤ (splice keys (insertPos keys k) k).length
        rw [splice_length k hple]
        omega
      · show (splice keys (insertPos keys k) k).length ≤ keys.length + 1
        rw [splice_length k hple]
      · exact hcnt
      · intro x hx
        rcases tKeys_decomp hx with hxk | ⟨hf, -⟩
        · rcases splice_mem hxk with hxm | hxk2
          · exact Or.inl hxm
          · exact Or.inr (tKeys_of_key hlen hxk2)
        · cases hf
    | false =>
      rw [if_neg (by simp)] at hins
      rcases hc0 : children[insertPos keys k]? with _ | c
      · simp only [hc0] at hins
        cases hins
      · simp only [hc0] at hins
        cases c with
        | node yk yv yc yl =>
        have hcl : insertPos keys k < children.length :=
          (List.getElem?_eq_some_iff.mp hc0).1
        by_cases hcfull : BTreeNode.keysLen (BTreeNode.node yk yv yc yl) = 2 * t - 1
        · rw [if_pos hcfull] at hins
          have hykfull : yk.length = 2 * t - 1 := hcfull
          obtain ⟨mid, midv, hmid, heq, hordres, hcntres, hsubres⟩ :=
            splitChild_spec ht hord hcnt' hc0 hykfull
          simp only [heq] at hins hordres hsubres
          have hk2p : (splice keys (insertPos keys k) mid)[insertPos keys k]? = some mid := by
            rw [splice_getElem? mid hple (insertPos keys k), if_neg (by omega),
              if_pos rfl]
          have hk2len : (splice keys (insertPos keys k) mid).length = keys.length + 1 := splice_length mid hple
          simp only [hk2p] at hins
          obtain ⟨hlen2, hchain2, hbnd2, -, hclen2, hchild2⟩ := ordered_elim hordres
          have hcy2 : (splice (children.set (insertPos keys k) (BTreeNode.node (yk.take (t - 1)) (yv.take (t - 1)) (if yl then yc else yc.take t) yl)) (insertPos keys k + 1) (BTreeNode.node (yk.drop t) (yv.drop t) (if yl then yc else yc.drop t) yl))[insertPos keys k]? = some (BTreeNode.node (yk.take (t - 1)) (yv.take (t - 1)) (if yl then yc else yc.take t) yl) := by
            rw [splice_getElem? _ (by rw [List.length_set]; omega) (insertPos keys k),
              if_pos (by omega), List.getElem?_set, if_pos rfl, if_pos (by omega)]
          have hcz : (splice (children.set (insertPos keys k) (BTreeNode.node (yk.take (t - 1)) (yv.take (t - 1)) (if yl then yc else yc.take t) yl)) (insertPos keys k + 1) (BTreeNode.node (yk.drop t) (yv.drop t) (if yl then yc else yc.drop t) yl))[insertPos keys k + 1]? = some (BTreeNode.node (yk.drop t) (yv.drop t) (if yl then yc else yc.drop t) yl) := by
            rw [splice_getElem? _ (by rw [List.length_set]; omega)
              (insertPos keys k + 1), if_neg (by omega), if_pos rfl]
          have hwloi : childLo b1 (splice keys (insertPos keys k) mid) (insertPos keys k)
              = childLo b1 keys (insertPos keys k) := by
            rw [childLo, childLo]
            by_cases hp0 : insertPos keys k = 0
            · rw [if_pos hp0, if_pos hp0]
            · rw [if_neg hp0, if_neg hp0, splice_getElem? mid hple, if_pos (by omega)]
          have hwhii : childHi b2 (splice keys (insertPos keys k) mid) (insertPos keys k) = some mid := by
            rw [childHi, hk2len, if_pos (by omega), hk2p]
          have hwloi1 : childLo b1 (splice keys (insertPos keys k) mid) (insertPos keys k + 1) = some mid := by
            rw [childLo, if_neg (by omega)]
            have h01 : insertPos keys k + 1 - 1 = insertPos keys k := by omega
            rw [h01, hk2p]
          have hwhii1 : childHi b2 (splice keys (insertPos keys k) mid) (insertPos keys k + 1)
              = childHi b2 keys (insertPos keys k) := by
            rw [childHi, childHi, hk2len]
            by_cases hpk : insertPos keys k < keys.length
            · rw [if_pos (by omega), if_pos hpk, splice_getElem? mid hple,
                if_neg (by omega), if_neg (by omega)]
              have h01 : insertPos keys k + 1 - 1 = insertPos keys k := by omega
              rw [h01]
            · rw [if_neg (by omega), if_neg hpk]
          obtain ⟨hylen, hychain, hybnd, hyleafc, hyclen, hychild⟩ :=
            ordered_elim (hchild _ _ hc0)
          have hmidyk : mid ∈ yk := List.mem_iff_getElem?.mpr ⟨t - 1, hmid⟩
          have hmidn : mid ∈ tKeys (BTreeNode.node keys values children false) :=
            tKeys_of_child hlen hc0 hple (tKeys_of_key hylen hmidyk)
          have hy2len : (BTreeNode.node (yk.take (t - 1)) (yv.take (t - 1)) (if yl then yc else yc.take t) yl).keysLen = t - 1 := by
            show (yk.take (t - 1)).length = t - 1
            rw [List.length_take]
            omega
          have hzlen : (BTreeNode.node (yk.drop t) (yv.drop t) (if yl then yc else yc.drop t) yl).keysLen = t - 1 := by
            show (yk.drop t).length = t - 1
            rw [List.length_drop]
            omega
          have hcy2cnt := hcntres (insertPos keys k) _ hcy2
          have hczcnt := hcntres (insertPos keys k + 1) _ hcz
          by_cases hmk : mid < k
          · rw [if_pos hmk] at hins
            simp only [hcz] at hins
            rcases hrec : BTreeNode.insertNonFull t k v fuel (BTreeNode.node (yk.drop t) (yv.drop t) (if yl then yc else yc.drop t) yl) with _ | c2
            · simp only [hrec] at hins
              cases hins
            · simp only [hrec] at hins
              injection hins with hins
              subst hins
              have hfreshz : ∀ x ∈ tKeys (BTreeNode.node (yk.drop t) (yv.drop t) (if yl then yc else yc.drop t) yl), x ≠ k := by
                intro x hx
                exact hfresh x (hsubres x
                  (tKeys_of_child hlen2 hcz (by rw [hk2len]; omega) hx))
              obtain ⟨hordc2, hszge, hszle, hcntc2, hsubc2⟩ :=
                ih (hchild2 _ _ hcz) (by rw [hwloi1]; exact hmk)
                  (by rw [hwhii1]; exact hhi') hfreshz (countsOK_elim hczcnt).2.2 hrec
              refine ⟨?_, ?_, ?_, ?_, ?_⟩
              · exact ordered_set_child hordres hordc2
              · show keys.length ≤ (splice keys (insertPos keys k) mid).length
                rw [hk2len]
                omega
              · show (splice keys (insertPos keys k) mid).length ≤ keys.length + 1
                rw [hk2len]
              · refine countsOK_set_child hcntres (countsOK_intro ?_ ?_ hcntc2)
                · show t - 1 ≤ c2.keysLen
                  omega
                · omega
              · intro x hx
                rcases tKeys_set_child hlen2 (hclen2 rfl) hcz hsubc2 x hx with h | h
                · exact Or.inl h
                · exact Or.inr (hsubres x h)
          · rw [if_neg hmk] at hins
            simp only [hcy2] at hins
            have hkm : k < mid :=
              lt_of_le_of_ne (not_lt.mp hmk) (fun h => hfresh mid hmidn h.symm)
            rcases hrec : BTreeNode.insertNonFull t k v fuel (BTreeNode.node (yk.take (t - 1)) (yv.take (t - 1)) (if yl then yc else yc.take t) yl) with _ | c2
            · simp only [hrec] at hins
              cases hins
            · simp only [hrec] at hins
              injection hins with hins
              subst hins
              have hfreshy : ∀ x ∈ tKeys (BTreeNode.node (yk.take (t - 1)) (yv.take (t - 1)) (if yl then yc else yc.take t) yl), x ≠ k := by
                intro x hx
                exact hfresh x (hsubres x
                  (tKeys_of_child hlen2 hcy2 (by rw [hk2len]; omega) hx))
              obtain ⟨hordc2, hszge, hszle, hcntc2, hsubc2⟩ :=
                ih (hchild2 _ _ hcy2) (by rw [hwloi]; exact hlo')
                  (by rw [hwhii]; exact hkm) hfreshy (countsOK_elim hcy2cnt).2.2 hrec
              refine ⟨?_, ?_, ?_, ?_, ?_⟩
              · exact ordered_set_child hordres hordc2
              · show keys.length ≤ (splice keys (insertPos keys k) mid).length
                rw [hk2len]
                omega
              · show (splice keys (insertPos keys k) mid).length ≤ keys.length + 1
                rw [hk2len]
              · refine countsOK_set_child hcntres (countsOK_intro ?_ ?_ hcntc2)
                · show t - 1 ≤ c2.keysLen
                  omega
                · omega
              · intro x hx
                rcases tKeys_set_child hlen2 (hclen2 rfl) hcy2 hsubc2 x hx with h | h
                · exact Or.inl h
                · exact Or.inr (hsubres x h)
        · rw [if_neg hcfull] at hins
          rcases hrec : BTreeNode.insertNonFull t k v fuel (BTreeNode.node yk yv yc yl)
            with _ | c2
          · simp only [hrec] at hins
            cases hins
          · simp only [hrec] at hins
            injection hins with hins
            subst hins
            have hfreshc : ∀ x ∈ tKeys (BTreeNode.node yk yv yc yl), x ≠ k := by
              intro x hx
              exact hfresh x (tKeys_of_child hlen hc0 hple hx)
            obtain ⟨hcc1, hcc2, hcc3⟩ := countsOK_elim (hcnt' _ _ hc0)
            have hcc1' : t - 1 ≤ yk.length := hcc1
            have hcfull' : ¬ yk.length = 2 * t - 1 := hcfull
            obtain ⟨hordc2, hszge, hszle, hcntc2, hsubc2⟩ :=
              ih (hchild _ _ hc0) hlo' hhi' hfreshc hcc3 hrec
            have hckl : BTreeNode.keysLen (BTreeNode.node yk yv yc yl) = yk.length := rfl
            refine ⟨?_, ?_, ?_, ?_, ?_⟩
            · exact ordered_set_child hord hordc2
            · show keys.length ≤ keys.length
              exact le_refl _
            · show keys.length ≤ keys.length + 1
              omega
            · refine countsOK_set_child hcnt' (countsOK_intro ?_ ?_ hcntc2)
              · show t - 1 ≤ c2.keysLen
                omega
              · omega
            · intro x hx
              rcases tKeys_set_child hlen (hclen rfl) hc0 hsubc2 x hx with h | h
              · exact Or.inl h
              · exact Or.inr h

/-- The `updateNode` overwrite pass never changes keys or structure. -/
theorem updateNode_wf {K V : Type} [LinearOrder K] {t : Nat} :
    ∀ (fuel : Nat) {b1 b2 : Option K} {n n' : BTreeNode K V} {k : K} {v : V},
      BTreeNode.Ordered b1 b2 n →
      (∀ (j : Nat) (c : BTreeNode K V), n.childrenOf[j]? = some c →
        CountsOK t false c) →
      BTreeNode.updateNode k v fuel n = some n' →
      BTreeNode.Ordered b1 b2 n' ∧
      n'.keysLen = n.keysLen ∧
      (∀ (j : Nat) (c : BTreeNode K V), n'.childrenOf[j]? = some c →
        CountsOK t false c) := by
  intro fuel
  induction fuel with
  | zero =>
    intro b1 b2 n n' k v hord hcnt hins
    cases n with
    | node keys values children isLeaf =>
      simp only [BTreeNode.updateNode] at hins
      cases hins
  | succ fuel ih =>
    intro b1 b2 n n' k v hord hcnt hins
    cases n with
    | node keys values children isLeaf =>
    obtain ⟨hlen, hchain, hbnd, hleafc, hclen, hchild⟩ := ordered_elim hord
    have hcnt' : ∀ (j : Nat) (c : BTreeNode K V), children[j]? = some c →
        CountsOK t false c := hcnt
    simp only [BTreeNode.updateNode] at hins
    rcases hki : keys[findKey keys k]? with _ | ki
    · simp only [hki] at hins
      cases isLeaf with
      | true =>
        rw [if_pos rfl] at hins
        injection hins with hins
        subst hins
        exact ⟨hord, rfl, hcnt⟩
      | false =>
        rw [if_neg (by simp)] at hins
        rcases hcc : children[findKey keys k]? with _ | c
        · simp only [hcc] at hins
          cases hins
        · simp only [hcc] at hins
          cases c with
          | node ck cv cc cl =>
          rcases hrec : BTreeNode.updateNode k v fuel (BTreeNode.node ck cv cc cl) with _ | c2
          · simp only [hrec] at hins
            cases hins
          · simp only [hrec] at hins
            injection hins with hins
            subst hins
            obtain ⟨hordc2, hklc2, hcntc2⟩ :=
              ih (hchild _ _ hcc) (countsOK_elim (hcnt' _ _ hcc)).2.2 hrec
            obtain ⟨hcl1, hcl2, -⟩ := countsOK_elim (hcnt' _ _ hcc)
            have hcl1' : t - 1 ≤ ck.length := hcl1
            have hcl2' : ck.length ≤ 2 * t - 1 := hcl2
            have hckl : BTreeNode.keysLen (BTreeNode.node ck cv cc cl) = ck.length := rfl
            refine ⟨ordered_set_child hord hordc2, rfl, ?_⟩
            refine countsOK_set_child hcnt' (countsOK_intro ?_ ?_ hcntc2)
            · show t - 1 ≤ c2.keysLen
              omega
            · omega
    · simp only [hki] at hins
      by_cases hk : ki = k
      · rw [if_pos hk] at hins
        injection hins with hins
        subst hins
        refine ⟨?_, rfl, hcnt⟩
        cases isLeaf with
        | true =>
          have hce : children = [] := hleafc rfl
          subst hce
          refine .leaf _ _ _ _ ?_ hchain hbnd
          rw [List.length_set]
          exact hlen
        | false =>
          refine .internal _ _ _ _ _ ?_ (hclen rfl) hchain hbnd hchild
          rw [List.length_set]
          exact hlen
      · rw [if_neg hk] at hins
        cases isLeaf with
        | true =>
          rw [if_pos rfl] at hins
          injection hins with hins
          subst hins
          exact ⟨hord, rfl, hcnt⟩
        | false =>
          rw [if_neg (by simp)] at hins
          rcases hcc : children[findKey keys k]? with _ | c
          · simp only [hcc] at hins
            cases hins
          · simp only [hcc] at hins
            cases c with
            | node ck cv cc cl =>
            rcases hrec : BTreeNode.updateNode k v fuel (BTreeNode.node ck cv cc cl) with _ | c2
            · simp only [hrec] at hins
              cases hins
            · simp only [hrec] at hins
              injection hins with hins
              subst hins
              obtain ⟨hordc2, hklc2, hcntc2⟩ :=
                ih (hchild _ _ hcc) (countsOK_elim (hcnt' _ _ hcc)).2.2 hrec
              obtain ⟨hcl1, hcl2, -⟩ := countsOK_elim (hcnt' _ _ hcc)
              have hcl1' : t - 1 ≤ ck.length := hcl1
              have hcl2' : ck.length ≤ 2 * t - 1 := hcl2
              have hckl : BTreeNode.keysLen (BTreeNode.node ck cv cc cl) = ck.length := rfl
              refine ⟨ordered_set_child hord hordc2, rfl, ?_⟩
              refine countsOK_set_child hcnt' (countsOK_intro ?_ ?_ hcntc2)
              · show t - 1 ≤ c2.keysLen
                omega
              · omega

/-- The tree-level count invariant: the root satisfies the root-relaxed
count bounds, all other nodes the full ones. -/
def BTree.CountsT {K V : Type} (tr : BTree K V) : Prop :=
  ∀ r, tr.root = some r → CountsOK tr.minDegree true r

/-- `BTree::insert` preserves the ordering and count invariants. -/
theorem insertB_wf {K V : Type} [LinearOrder K] [Inhabited K] [Inhabited V]
    {tr tr2 : BTree K V} {k : K} {v : V} {fuel : Nat}
    (ht : 2 ≤ tr.minDegree)
    (hordT : tr.OrderedT) (hcntT : tr.CountsT)
    (hins : tr.insertB k v fuel = some tr2) :
    tr2.OrderedT ∧ tr2.CountsT ∧ tr2.minDegree = tr.minDegree := by
  obtain ⟨root0, t0⟩ := tr
  have ht' : 2 ≤ t0 := ht
  simp only [BTree.insertB] at hins
  rcases root0 with _ | r
  · injection hins with hins
    subst hins
    refine ⟨?_, ?_, rfl⟩
    · intro r' hr'
      injection hr' with hr'
      subst hr'
      refine .leaf _ _ _ _ rfl (by simp) ?_
      intro x hx
      exact ⟨trivial, trivial⟩
    · intro r' hr'
      injection hr' with hr'
      subst hr'
      refine countsOK_intro ?_ ?_ ?_
      · show 1 ≤ 1
        exact le_refl 1
      · show 1 ≤ 2 * t0 - 1
        omega
      · intro j c hc
        simp [BTreeNode.childrenOf] at hc
  · have hordr := hordT r rfl
    have hcntr := hcntT r rfl
    cases r with
    | node rk rv rc rl =>
    obtain ⟨hrlen, hrchain, hrbnd, hrleafc, hrclen, hrchild⟩ := ordered_elim hordr
    obtain ⟨hrc1, hrc2, hrc3⟩ := countsOK_elim hcntr
    have hroot1 : 1 ≤ rk.length := hrc1
    have hroot2 : rk.length ≤ 2 * t0 - 1 := hrc2
    rcases hcon : BTreeNode.containsB k fuel (BTreeNode.node rk rv rc rl) with _ | b
    · simp only [hcon] at hins
      cases hins
    · simp only [hcon] at hins
      cases b with
      | true =>
        rcases hupd : BTreeNode.updateNode k v fuel (BTreeNode.node rk rv rc rl)
          with _ | r2
        · simp only [hupd] at hins
          cases hins
        · simp only [hupd] at hins
          injection hins with hins
          subst hins
          obtain ⟨hordr2, hklr2, hcntr2⟩ := updateNode_wf fuel hordr hrc3 hupd
          have hrkl : BTreeNode.keysLen (BTreeNode.node rk rv rc rl) = rk.length := rfl
          refine ⟨?_, ?_, rfl⟩
          · intro r' hr'
            injection hr' with hr'
            subst hr'
            exact hordr2
          · intro r' hr'
            injection hr' with hr'
            subst hr'
            show CountsOK t0 true r2
            refine countsOK_intro ?_ ?_ hcntr2
            · show 1 ≤ r2.keysLen
              omega
            · show r2.keysLen ≤ 2 * t0 - 1
              omega
      | false =>
        have hfresh : ∀ x ∈ tKeys (BTreeNode.node rk rv rc rl), x ≠ k :=
          containsB_miss fuel hordr trivial trivial hcon
        by_cases hrfull : BTreeNode.keysLen (BTreeNode.node rk rv rc rl) = 2 * t0 - 1
        · rw [if_pos hrfull] at hins
          have hrfull2 : rk.length = 2 * t0 - 1 := hrfull
          have hordp : BTreeNode.Ordered none none
              (BTreeNode.node ([] : List K) ([] : List V)
                [BTreeNode.node rk rv rc rl] false) := by
            refine .internal _ _ _ _ _ rfl rfl trivial ?_ ?_
            · intro x hx
              simp at hx
            · intro i c hc
              cases i with
              | zero =>
                rw [List.getElem?_cons_zero] at hc
                injection hc with hc
                subst hc
                have h1 : childLo (none : Option K) [] 0 = none := by
                  rw [childLo, if_pos rfl]
                have h2 : childHi (none : Option K) [] 0 = none := by
                  rw [childHi, if_neg (by simp)]
                rw [h1, h2]
                exact hordr
              | succ i =>
                rw [List.getElem?_cons_succ] at hc
                simp at hc
          have hcntp : ∀ (j : Nat) (c : BTreeNode K V),
              [BTreeNode.node rk rv rc rl][j]? = some c → CountsOK t0 false c := by
            intro j c hc
            cases j with
            | zero =>
              rw [List.getElem?_cons_zero] at hc
              injection hc with hc
              subst hc
              refine countsOK_intro ?_ ?_ hrc3
              · show t0 - 1 ≤ rk.length
                omega
              · show rk.length ≤ 2 * t0 - 1
                omega
            | succ j =>
              rw [List.getElem?_cons_succ] at hc
              simp at hc
          obtain ⟨mid, midv, hmid, heq, hordres, hcntres, hsubres⟩ :=
            splitChild_spec ht' hordp hcntp
              (show [BTreeNode.node rk rv rc rl][0]? = some (BTreeNode.node rk rv rc rl)
                by rw [List.getElem?_cons_zero]) hrfull2
          simp only [heq] at hins hordres hsubres
          obtain ⟨hlen2, hchain2, hbnd2, -, hclen2, hchild2⟩ := ordered_elim hordres
          have hk2len : (splice ([] : List K) 0 mid).length = 1 := by simp [splice]
          have hk2p : (splice ([] : List K) 0 mid)[0]? = some mid := by simp [splice]
          simp only [hk2p] at hins
          have hcy2 : (splice (List.set [BTreeNode.node rk rv rc rl] 0 (BTreeNode.node (rk.take (t0 - 1)) (rv.take (t0 - 1)) (if rl then rc else rc.take t0) rl)) (0 + 1) (BTreeNode.node (rk.drop t0) (rv.drop t0) (if rl then rc else rc.drop t0) rl))[0]? = some (BTreeNode.node (rk.take (t0 - 1)) (rv.take (t0 - 1)) (if rl then rc else rc.take t0) rl) := by
            rw [splice_getElem? _ (by simp) 0, if_pos (by omega), List.getElem?_set,
              if_pos rfl, if_pos (by simp)]
          have hcz : (splice (List.set [BTreeNode.node rk rv rc rl] 0 (BTreeNode.node (rk.take (t0 - 1)) (rv.take (t0 - 1)) (if rl then rc else rc.take t0) rl)) (0 + 1) (BTreeNode.node (rk.drop t0) (rv.drop t0) (if rl then rc else rc.drop t0) rl))[1]? = some (BTreeNode.node (rk.drop t0) (rv.drop t0) (if rl then rc else rc.drop t0) rl) := by
            rw [splice_getElem? _ (by simp) 1, if_neg (by omega), if_pos (by omega)]
          have hwloi0 : childLo none (splice ([] : List K) 0 mid) 0 = none := by
            rw [childLo, if_pos rfl]
          have hwhii0 : childHi none (splice ([] : List K) 0 mid) 0 = some mid := by
            rw [childHi, if_pos (by rw [hk2len]; omega), hk2p]
          have hwloi1 : childLo none (splice ([] : List K) 0 mid) 1 = some mid := by
            rw [childLo, if_neg (by omega), Nat.sub_self 1, hk2p]
          have hwhii1 : childHi none (splice ([] : List K) 0 mid) 1 = none := by
            rw [childHi, if_neg (by rw [hk2len]; omega)]
          have hy2len : (BTreeNode.node (rk.take (t0 - 1)) (rv.take (t0 - 1)) (if rl then rc else rc.take t0) rl).keysLen = t0 - 1 := by
            show (rk.take (t0 - 1)).length = t0 - 1
            rw [List.length_take]
            omega
          have hzlen : (BTreeNode.node (rk.drop t0) (rv.drop t0) (if rl then rc else rc.drop t0) rl).keysLen = t0 - 1 := by
            show (rk.drop t0).length = t0 - 1
            rw [List.length_drop]
            omega
          have hpar : tKeys (BTreeNode.node ([] : List K) ([] : List V)
              [BTreeNode.node rk rv rc rl] false)
              = tKeys (BTreeNode.node rk rv rc rl) := by
            rw [tKeys, tKeys, traverse_node, if_neg (by simp)]
            rfl
          by_cases hmk : mid < k
          · rw [if_pos hmk] at hins
            simp only [hcz] at hins
            rcases hrec : BTreeNode.insertNonFull t0 k v fuel (BTreeNode.node (rk.drop t0) (rv.drop t0) (if rl then rc else rc.drop t0) rl) with _ | c2
            · simp only [hrec] at hins
              cases hins
            · simp only [hrec] at hins
              injection hins with hins
              subst hins
              have hfreshz : ∀ x ∈ tKeys (BTreeNode.node (rk.drop t0) (rv.drop t0) (if rl then rc else rc.drop t0) rl), x ≠ k := by
                intro x hx
                refine hfresh x (hpar ▸ hsubres x
                  (tKeys_of_child hlen2 hcz (by rw [hk2len]) hx))
              obtain ⟨hordc2, hszge, hszle, hcntc2, -⟩ :=
                insertNonFull_wf ht' fuel (hchild2 _ _ hcz) (by rw [hwloi1]; exact hmk)
                  (by rw [hwhii1]; exact trivial) hfreshz
                  (countsOK_elim (hcntres _ _ hcz)).2.2 hrec
              refine ⟨?_, ?_, rfl⟩
              · intro r' hr'
                injection hr' with hr'
                subst hr'
                exact ordered_set_child hordres hordc2
              · intro r' hr'
                injection hr' with hr'
                subst hr'
                show CountsOK t0 true _
                refine countsOK_intro ?_ ?_ ?_
                · show 1 ≤ (splice ([] : List K) 0 mid).length
                  rw [hk2len]
                · show (splice ([] : List K) 0 mid).length ≤ 2 * t0 - 1
                  rw [hk2len]
                  omega
                · refine countsOK_set_child hcntres (countsOK_intro ?_ ?_ hcntc2)
                  · show t0 - 1 ≤ c2.keysLen
                    omega
                  · show c2.keysLen ≤ 2 * t0 - 1
                    omega
          · rw [if_neg hmk] at hins
            simp only [hcy2] at hins
            have hmidn : mid ∈ tKeys (BTreeNode.node rk rv rc rl) :=
              tKeys_of_key hrlen (List.mem_iff_getElem?.mpr ⟨t0 - 1, hmid⟩)
            have hkm : k < mid :=
              lt_of_le_of_ne (not_lt.mp hmk) (fun h => hfresh mid hmidn h.symm)
            rcases hrec : BTreeNode.insertNonFull t0 k v fuel (BTreeNode.node (rk.take (t0 - 1)) (rv.take (t0 - 1)) (if rl then rc else rc.take t0) rl) with _ | c2
            · simp only [hrec] at hins
              cases hins
            · simp only [hrec] at hins
              injection hins with hins
              subst hins
              have hfreshy : ∀ x ∈ tKeys (BTreeNode.node (rk.take (t0 - 1)) (rv.take (t0 - 1)) (if rl then rc else rc.take t0) rl), x ≠ k := by
                intro x hx
                refine hfresh x (hpar ▸ hsubres x
                  (tKeys_of_child hlen2 hcy2 (by rw [hk2len]; omega) hx))
              obtain ⟨hordc2, hszge, hszle, hcntc2, -⟩ :=
                insertNonFull_wf ht' fuel (hchild2 _ _ hcy2) (by rw [hwloi0]; exact trivial)
                  (by rw [hwhii0]; exact hkm) hfreshy
                  (countsOK_elim (hcntres _ _ hcy2)).2.2 hrec
              refine ⟨?_, ?_, rfl⟩
              · intro r' hr'
                injection hr' with hr'
                subst hr'
                exact ordered_set_child hordres hordc2
              · intro r' hr'
                injection hr' with hr'
                subst hr'
                show CountsOK t0 true _
                refine countsOK_intro ?_ ?_ ?_
                · show 1 ≤ (splice ([] : List K) 0 mid).length
                  rw [hk2len]
                · show (splice ([] : List K) 0 mid).length ≤ 2 * t0 - 1
                  rw [hk2len]
                  omega
                · refine countsOK_set_child hcntres (countsOK_intro ?_ ?_ hcntc2)
                  · show t0 - 1 ≤ c2.keysLen
                    omega
                  · show c2.keysLen ≤ 2 * t0 - 1
                    omega
        · rw [if_neg hrfull] at hins
          have hrfull2 : ¬ rk.length = 2 * t0 - 1 := hrfull
          rcases hrec : BTreeNode.insertNonFull t0 k v fuel (BTreeNode.node rk rv rc rl)
            with _ | r2
          · simp only [hrec] at hins
            cases hins
          · simp only [hrec] at hins
            injection hins with hins
            subst hins
            obtain ⟨hordr2, hszge, hszle, hcntr2, -⟩ :=
              insertNonFull_wf ht' fuel hordr trivial trivial hfresh hrc3 hrec
            have hrkl : BTreeNode.keysLen (BTreeNode.node rk rv rc rl) = rk.length := rfl
            refine ⟨?_, ?_, rfl⟩
            · intro r' hr'
              injection hr' with hr'
              subst hr'
              exact hordr2
            · intro r' hr'
              injection hr' with hr'
              subst hr'
              show CountsOK t0 true r2
              refine countsOK_intro ?_ ?_ hcntr2
              · show 1 ≤ r2.keysLen
                omega
              · show r2.keysLen ≤ 2 * t0 - 1
                omega

/-- All leaves at the same depth: the B-tree balance invariant the code
maintains and `merge` relies on (merged siblings share their leaf flag). -/
inductive BTreeNode.Balanced {K V : Type} : Nat → BTreeNode K V → Prop where
  | leaf : ∀ (keys : List K) (values : List V) (children : List (BTreeNode K V)),
      BTreeNode.Balanced 0 (.node keys values children true)
  | internal : ∀ (h : Nat) (keys : List K) (values : List V)
      (children : List (BTreeNode K V)),
      (∀ (j : Nat) (c : BTreeNode K V), children[j]? = some c →
        BTreeNode.Balanced h c) →
      BTreeNode.Balanced (h + 1) (.node keys values children false)

theorem balanced_elim {K V : Type} {h : Nat} {keys : List K} {values : List V}
    {children : List (BTreeNode K V)} {isLeaf : Bool}
    (hb : BTreeNode.Balanced h (.node keys values children isLeaf)) :
    (isLeaf = true → h = 0) ∧
    (isLeaf = false → 0 < h ∧ (∀ (j : Nat) (c : BTreeNode K V),
      children[j]? = some c → BTreeNode.Balanced (h - 1) c)) := by
  cases hb with
  | leaf keys values children =>
    exact ⟨fun _ => rfl, fun hf => absurd hf (by decide)⟩
  | internal h keys values children hch =>
    refine ⟨fun ht => absurd ht (by decide), fun _ => ⟨Nat.succ_pos h, ?_⟩⟩
    intro j c hc
    have hh : h + 1 - 1 = h := rfl
    rw [hh]
    exact hch j c hc

/-- Leaf flags are determined by the balance height. -/
theorem balanced_leaf_iff {K V : Type} {h : Nat} {keys : List K} {values : List V}
    {children : List (BTreeNode K V)} {isLeaf : Bool}
    (hb : BTreeNode.Balanced h (.node keys values children isLeaf)) :
    isLeaf = decide (h = 0) := by
  cases hb with
  | leaf keys values children => rfl
  | internal h keys values children hch => simp

theorem balanced_set_child {K V : Type} {h : Nat} {keys : List K} {values : List V}
    {children : List (BTreeNode K V)} {i : Nat} {c2 : BTreeNode K V}
    (hb : BTreeNode.Balanced (h + 1) (.node keys values children false))
    (hc2 : BTreeNode.Balanced h c2) :
    BTreeNode.Balanced (h + 1) (.node keys values (children.set i c2) false) := by
  cases hb with
  | internal h keys values children hch =>
    refine .internal _ _ _ _ ?_
    intro j c hc
    rw [List.getElem?_set] at hc
    by_cases hij : i = j
    · subst hij
      by_cases hil : i < children.length
      · rw [if_pos rfl, if_pos hil] at hc
        injection hc with hc
        subst hc
        exact hc2
      · rw [if_pos rfl, if_neg hil] at hc
        cases hc
    · rw [if_neg hij] at hc
      exact hch j c hc

theorem balanced_children_mem {K V : Type} {h : Nat} {keys : List K} {values : List V}
    {children : List (BTreeNode K V)}
    (hb : BTreeNode.Balanced h (.node keys values children false)) :
    ∀ c ∈ children, BTreeNode.Balanced (h - 1) c := by
  intro c hc
  rcases List.mem_iff_getElem?.mp hc with ⟨j, hj⟩
  exact ((balanced_elim hb).2 rfl).2 j c hj

theorem balanced_internal_mem {K V : Type} {h : Nat} {keys : List K} {values : List V}
    {children : List (BTreeNode K V)}
    (H : ∀ c ∈ children, BTreeNode.Balanced h c) :
    BTreeNode.Balanced (h + 1) (.node keys values children false) :=
  .internal _ _ _ _ (fun j c hc => H c (List.mem_iff_getElem?.mpr ⟨j, hc⟩))

/-- `splitChild` keeps all leaves at the same depth. -/
theorem splitChild_balance {K V : Type} [Inhabited K] [Inhabited V]
    {h t i : Nat} {keys : List K} {values : List V}
    {children : List (BTreeNode K V)}
    (hb : BTreeNode.Balanced (h + 1) (.node keys values children false)) :
    BTreeNode.Balanced (h + 1)
      ((BTreeNode.node keys values children false).splitChild t i) := by
  rcases hy : children[i]? with _ | c
  · simp only [BTreeNode.splitChild, hy]
    exact hb
  · cases c with
    | node yk yv yc yl =>
    simp only [BTreeNode.splitChild, hy]
    have hcb : BTreeNode.Balanced h (.node yk yv yc yl) :=
      balanced_children_mem hb _ (List.mem_iff_getElem?.mpr ⟨i, hy⟩)
    refine balanced_internal_mem ?_
    intro c hc
    rcases splice_mem hc with hz | hc2
    · subst hz
      cases yl with
      | true =>
        have h0 : h = 0 := (balanced_elim hcb).1 rfl
        subst h0
        exact .leaf _ _ _
      | false =>
        cases h with
        | zero => exact absurd ((balanced_elim hcb).2 rfl).1 (lt_irrefl 0)
        | succ h2 =>
          refine balanced_internal_mem ?_
          intro c' hc'
          rw [if_neg (by simp)] at hc'
          exact balanced_children_mem hcb c'
            (List.Sublist.mem hc' ((List.take_sublist _ _).trans (List.drop_sublist _ _)))
    · rcases List.mem_or_eq_of_mem_set hc2 with hc3 | hy2
      · have := balanced_children_mem hb c hc3
        exact this
      · subst hy2
        cases yl with
        | true =>
          have h0 : h = 0 := (balanced_elim hcb).1 rfl
          subst h0
          exact .leaf _ _ _
        | false =>
          cases h with
          | zero => exact absurd ((balanced_elim hcb).2 rfl).1 (lt_irrefl 0)
          | succ h2 =>
            refine balanced_internal_mem ?_
            intro c' hc'
            rw [if_neg (by simp)] at hc'
            exact balanced_children_mem hcb c'
              (List.Sublist.mem hc' (List.take_sublist _ _))

/-- `insertNonFull` keeps all leaves at the same depth. -/
theorem insertNonFull_balance {K V : Type} [LinearOrder K] [Inhabited K] [Inhabited V]
    {t : Nat} :
    ∀ (fuel : Nat) {h : Nat} {n n' : BTreeNode K V} {k : K} {v : V},
      BTreeNode.Balanced h n →
      BTreeNode.insertNonFull t k v fuel n = some n' →
      BTreeNode.Balanced h n' := by
  intro fuel
  induction fuel with
  | zero =>
    intro h n n' k v hb hins
    cases n with
    | node keys values children isLeaf =>
      simp only [BTreeNode.insertNonFull] at hins
      cases hins
  | succ fuel ih =>
    intro h n n' k v hb hins
    cases n with
    | node keys values children isLeaf =>
    simp only [BTreeNode.insertNonFull] at hins
    cases isLeaf with
    | true =>
      rw [if_pos rfl] at hins
      injection hins with hins
      subst hins
      have h0 : h = 0 := (balanced_elim hb).1 rfl
      subst h0
      exact .leaf _ _ _
    | false =>
      cases h with
      | zero => exact absurd ((balanced_elim hb).2 rfl).1 (lt_irrefl 0)
      | succ h2 =>
      rw [if_neg (by simp)] at hins
      rcases hc0 : children[insertPos keys k]? with _ | c
      · simp only [hc0] at hins
        cases hins
      · simp only [hc0] at hins
        by_cases hf : c.keysLen = 2 * t - 1
        · rw [if_pos hf] at hins
          rcases hsp : (BTreeNode.node keys values children false).splitChild t
            (insertPos keys k) with ⟨k2, v2, c2, l2⟩
          simp only [hsp] at hins
          have hb2 := hsp ▸ splitChild_balance (t := t) (i := insertPos keys k) hb
          have hl2 : l2 = false := by
            have := balanced_leaf_iff hb2
            simpa using this
          subst hl2
          rcases hki : k2[insertPos keys k]? with _ | ki
          · simp only [hki] at hins
            rcases hcc : c2[insertPos keys k]? with _ | c1
            · simp only [hcc] at hins
              cases hins
            · simp only [hcc] at hins
              rcases hrec : BTreeNode.insertNonFull t k v fuel c1 with _ | c2x
              · simp only [hrec] at hins
                cases hins
              · simp only [hrec] at hins
                injection hins with hins
                subst hins
                exact balanced_set_child hb2
                  (ih (balanced_children_mem hb2 c1 (List.mem_iff_getElem?.mpr ⟨insertPos keys k, hcc⟩)) hrec)
          · simp only [hki] at hins
            by_cases hkk : ki < k
            · rw [if_pos hkk] at hins
              rcases hcc : c2[(insertPos keys k + 1)]? with _ | c1
              · simp only [hcc] at hins
                cases hins
              · simp only [hcc] at hins
                rcases hrec : BTreeNode.insertNonFull t k v fuel c1 with _ | c2x
                · simp only [hrec] at hins
                  cases hins
                · simp only [hrec] at hins
                  injection hins with hins
                  subst hins
                  exact balanced_set_child hb2
                    (ih (balanced_children_mem hb2 c1 (List.mem_iff_getElem?.mpr ⟨(insertPos keys k + 1), hcc⟩)) hrec)
            · rw [if_neg hkk] at hins
              rcases hcc : c2[insertPos keys k]? with _ | c1
              · simp only [hcc] at hins
                cases hins
              · simp only [hcc] at hins
                rcases hrec : BTreeNode.insertNonFull t k v fuel c1 with _ | c2x
                · simp only [hrec] at hins
                  cases hins
                · simp only [hrec] at hins
                  injection hins with hins
                  subst hins
                  exact balanced_set_child hb2
                    (ih (balanced_children_mem hb2 c1 (List.mem_iff_getElem?.mpr ⟨insertPos keys k, hcc⟩)) hrec)
        · rw [if_neg hf] at hins
          rcases hrec : BTreeNode.insertNonFull t k v fuel c with _ | c2x
          · simp only [hrec] at hins
            cases hins
          · simp only [hrec] at hins
            injection hins with hins
            subst hins
            exact balanced_set_child hb
              (ih (balanced_children_mem hb c (List.mem_iff_getElem?.mpr ⟨_, hc0⟩)) hrec)

/-- `updateNode` keeps all leaves at the same depth. -/
theorem updateNode_balance {K V : Type} [LinearOrder K] :
    ∀ (fuel : Nat) {h : Nat} {n n' : BTreeNode K V} {k : K} {v : V},
      BTreeNode.Balanced h n →
      BTreeNode.updateNode k v fuel n = some n' →
      BTreeNode.Balanced h n' := by
  intro fuel
  induction fuel with
  | zero =>
    intro h n n' k v hb hins
    cases n with
    | node keys values children isLeaf =>
      simp only [BTreeNode.updateNode] at hins
      cases hins
  | succ fuel ih =>
    intro h n n' k v hb hins
    cases n with
    | node keys values children isLeaf =>
    simp only [BTreeNode.updateNode] at hins
    rcases hki : keys[findKey keys k]? with _ | ki
    · simp only [hki] at hins
      cases isLeaf with
      | true =>
        rw [if_pos rfl] at hins
        injection hins with hins
        subst hins
        exact hb
      | false =>
        cases h with
        | zero => exact absurd ((balanced_elim hb).2 rfl).1 (lt_irrefl 0)
        | succ h2 =>
        rw [if_neg (by simp)] at hins
        rcases hcc : children[findKey keys k]? with _ | c
        · simp only [hcc] at hins
          cases hins
        · simp only [hcc] at hins
          rcases hrec : BTreeNode.updateNode k v fuel c with _ | c2
          · simp only [hrec] at hins
            cases hins
          · simp only [hrec] at hins
            injection hins with hins
            subst hins
            exact balanced_set_child hb
              (ih (balanced_children_mem hb c (List.mem_iff_getElem?.mpr ⟨_, hcc⟩)) hrec)
    · simp only [hki] at hins
      by_cases hk : ki = k
      · rw [if_pos hk] at hins
        injection hins with hins
        subst hins
        cases hb with
        | leaf keys values children => exact .leaf _ _ _
        | internal h keys values children hch => exact .internal _ _ _ _ hch
      · rw [if_neg hk] at hins
        cases isLeaf with
        | true =>
          rw [if_pos rfl] at hins
          injection hins with hins
          subst hins
          exact hb
        | false =>
          cases h with
          | zero => exact absurd ((balanced_elim hb).2 rfl).1 (lt_irrefl 0)
          | succ h2 =>
          rw [if_neg (by simp)] at hins
          rcases hcc : children[findKey keys k]? with _ | c
          · simp only [hcc] at hins
            cases hins
          · simp only [hcc] at hins
            rcases hrec : BTreeNode.updateNode k v fuel c with _ | c2
            · simp only [hrec] at hins
              cases hins
            · simp only [hrec] at hins
              injection hins with hins
              subst hins
              exact balanced_set_child hb
                (ih (balanced_children_mem hb c (List.mem_iff_getElem?.mpr ⟨_, hcc⟩)) hrec)

/-- The tree-level balance invariant. -/
def BTree.BalancedT {K V : Type} (tr : BTree K V) : Prop :=
  ∀ r, tr.root = some r → ∃ h, BTreeNode.Balanced h r

/-- `BTree::insert` keeps all leaves at the same depth. -/
theorem insertB_balance {K V : Type} [LinearOrder K] [Inhabited K] [Inhabited V]
    {tr tr2 : BTree K V} {k : K} {v : V} {fuel : Nat}
    (hbT : tr.BalancedT) (hins : tr.insertB k v fuel = some tr2) :
    tr2.BalancedT := by
  obtain ⟨root0, t0⟩ := tr
  simp only [BTree.insertB] at hins
  rcases root0 with _ | r
  · injection hins with hins
    subst hins
    intro r' hr'
    injection hr' with hr'
    subst hr'
    exact ⟨0, .leaf _ _ _⟩
  · obtain ⟨h, hb⟩ := hbT r rfl
    rcases hcon : BTreeNode.containsB k fuel r with _ | b
    · simp only [hcon] at hins
      cases hins
    · simp only [hcon] at hins
      cases b with
      | true =>
        rcases hupd : BTreeNode.updateNode k v fuel r with _ | r2
        · simp only [hupd] at hins
          cases hins
        · simp only [hupd] at hins
          injection hins with hins
          subst hins
          intro r' hr'
          injection hr' with hr'
          subst hr'
          exact ⟨h, updateNode_balance fuel hb hupd⟩
      | false =>
        by_cases hrfull : r.keysLen = 2 * t0 - 1
        · rw [if_pos hrfull] at hins
          have hbp : BTreeNode.Balanced (h + 1)
              (BTreeNode.node ([] : List K) ([] : List V) [r] false) := by
            refine .internal _ _ _ _ ?_
            intro j c hc
            cases j with
            | zero =>
              rw [List.getElem?_cons_zero] at hc
              injection hc with hc
              subst hc
              exact hb
            | succ j =>
              rw [List.getElem?_cons_succ] at hc
              simp at hc
          rcases hsp : (BTreeNode.node ([] : List K) ([] : List V) [r] false).splitChild t0 0
            with ⟨k2, v2, c2, l2⟩
          simp only [hsp] at hins
          have hb2 := hsp ▸ splitChild_balance (t := t0) (i := 0) hbp
          have hl2 : l2 = false := by
            have := balanced_leaf_iff hb2
            simpa using this
          subst hl2
          rcases hki : k2[0]? with _ | k0
          · simp only [hki] at hins
            rcases hcc : c2[0]? with _ | c1
            · simp only [hcc] at hins
              cases hins
            · simp only [hcc] at hins
              rcases hrec : BTreeNode.insertNonFull t0 k v fuel c1 with _ | c2x
              · simp only [hrec] at hins
                cases hins
              · simp only [hrec] at hins
                injection hins with hins
                subst hins
                intro r' hr'
                injection hr' with hr'
                subst hr'
                exact ⟨h + 1, balanced_set_child hb2 (insertNonFull_balance fuel
                  (balanced_children_mem hb2 c1 (List.mem_iff_getElem?.mpr ⟨0, hcc⟩))
                  hrec)⟩
          · simp only [hki] at hins
            by_cases hkk : k0 < k
            · rw [if_pos hkk] at hins
              rcases hcc : c2[1]? with _ | c1
              · simp only [hcc] at hins
                cases hins
              · simp only [hcc] at hins
                rcases hrec : BTreeNode.insertNonFull t0 k v fuel c1 with _ | c2x
                · simp only [hrec] at hins
                  cases hins
                · simp only [hrec] at hins
                  injection hins with hins
                  subst hins
                  intro r' hr'
                  injection hr' with hr'
                  subst hr'
                  exact ⟨h + 1, balanced_set_child hb2 (insertNonFull_balance fuel
                    (balanced_children_mem hb2 c1 (List.mem_iff_getElem?.mpr ⟨1, hcc⟩))
                    hrec)⟩
            · rw [if_neg hkk] at hins
              rcases hcc : c2[0]? with _ | c1
              · simp only [hcc] at hins
                cases hins
              · simp only [hcc] at hins
                rcases hrec : BTreeNode.insertNonFull t0 k v fuel c1 with _ | c2x
                · simp only [hrec] at hins
                  cases hins
                · simp only [hrec] at hins
                  injection hins with hins
                  subst hins
                  intro r' hr'
                  injection hr' with hr'
                  subst hr'
                  exact ⟨h + 1, balanced_set_child hb2 (insertNonFull_balance fuel
                    (balanced_children_mem hb2 c1 (List.mem_iff_getElem?.mpr ⟨0, hcc⟩))
                    hrec)⟩
        · rw [if_neg hrfull] at hins
          rcases hrec : BTreeNode.insertNonFull t0 k v fuel r with _ | r2
          · simp only [hrec] at hins
            cases hins
          · simp only [hrec] at hins
            injection hins with hins
            subst hins
            intro r' hr'
            injection hr' with hr'
            subst hr'
            exact ⟨h, insertNonFull_balance fuel hb hrec⟩

/-- Joining two adjacent ordered siblings around their separating key, as
`merge` does. -/
theorem ordered_join {K V : Type} [LinearOrder K] {blo bhi : Option K} {a : K} {av : V}
    {ck sk : List K} {cv sv : List V} {cc sc : List (BTreeNode K V)} {fl : Bool}
    (hc : BTreeNode.Ordered blo (some a) (.node ck cv cc fl))
    (hs : BTreeNode.Ordered (some a) bhi (.node sk sv sc fl))
    (hla : lbLt blo a) (hua : ubLt a bhi) :
    BTreeNode.Ordered blo bhi
      (.node (ck ++ a :: sk) (cv ++ av :: sv) (if fl then cc else cc ++ sc) fl) := by
  obtain ⟨hclen, hcchain, hcbnd, hcleafc, hcclen, hcchild⟩ := ordered_elim hc
  obtain ⟨hslen, hschain, hsbnd, hsleafc, hsclen, hschild⟩ := ordered_elim hs
  have hlen2 : (ck ++ a :: sk).length = (cv ++ av :: sv).length := by
    rw [List.length_append, List.length_append, List.length_cons, List.length_cons,
      hclen, hslen]
  have hchain2 : List.Chain' (· < ·) (ck ++ a :: sk) := by
    rw [List.chain'_iff_pairwise, List.pairwise_append]
    refine ⟨List.chain'_iff_pairwise.mp hcchain, ?_, ?_⟩
    · rw [List.pairwise_cons]
      exact ⟨fun x hx => (hsbnd x hx).1, List.chain'_iff_pairwise.mp hschain⟩
    · intro x hx y hy
      have hxa : x < a := (hcbnd x hx).2
      rcases List.mem_cons.mp hy with hy1 | hy1
      · rw [hy1]
        exact hxa
      · exact lt_trans hxa (hsbnd y hy1).1
  have hbnd2 : ∀ x ∈ ck ++ a :: sk, lbLt blo x ∧ ubLt x bhi := by
    intro x hx
    rcases List.mem_append.mp hx with hx1 | hx1
    · exact ⟨(hcbnd x hx1).1, ubLt_trans (hcbnd x hx1).2 hua⟩
    · rcases List.mem_cons.mp hx1 with hx2 | hx2
      · rw [hx2]
        exact ⟨hla, hua⟩
      · exact ⟨lbLt_trans hla (hsbnd x hx2).1, (hsbnd x hx2).2⟩
  cases fl with
  | true =>
    rw [if_pos rfl]
    have hcc0 : cc = [] := hcleafc rfl
    subst hcc0
    exact .leaf _ _ _ _ hlen2 hchain2 hbnd2
  | false =>
    rw [if_neg (by simp)]
    have hccl : cc.length = ck.length + 1 := hcclen rfl
    have hscl : sc.length = sk.length + 1 := hsclen rfl
    refine .internal _ _ _ _ _ hlen2 ?_ hchain2 hbnd2 ?_
    · rw [List.length_append, List.length_append, List.length_cons, hccl, hscl]
      omega
    · intro j c hj
      rw [List.getElem?_append] at hj
      by_cases hjc : j < cc.length
      · rw [if_pos hjc] at hj
        have hres := hcchild j c hj
        have hlo2 : childLo blo (ck ++ a :: sk) j = childLo blo ck j := by
          rw [childLo, childLo]
          by_cases hj0 : j = 0
          · rw [if_pos hj0, if_pos hj0]
          · rw [if_neg hj0, if_neg hj0, List.getElem?_append, if_pos (by omega)]
        have hhi2 : childHi bhi (ck ++ a :: sk) j = childHi (some a) ck j := by
          rw [childHi, childHi, List.length_append, List.length_cons]
          by_cases hjk : j < ck.length
          · rw [if_pos (by omega), if_pos hjk, List.getElem?_append, if_pos hjk]
          · have hje : j = ck.length := by omega
            subst hje
            rw [if_pos (by omega), if_neg hjk, List.getElem?_append,
              if_neg (by omega), Nat.sub_self, List.getElem?_cons_zero]
        rw [hlo2, hhi2]
        exact hres
      · rw [if_neg hjc] at hj
        have hjb : j - cc.length < sc.length := (List.getElem?_eq_some_iff.mp hj).1
        have hres := hschild (j - cc.length) c hj
        have hlo2 : childLo blo (ck ++ a :: sk) j
            = childLo (some a) sk (j - cc.length) := by
          rw [childLo, childLo]
          by_cases hj20 : j - cc.length = 0
          · rw [if_pos hj20, if_neg (by omega), List.getElem?_append,
              if_neg (by omega)]
            have he : j - 1 - ck.length = 0 := by omega
            rw [he, List.getElem?_cons_zero]
          · rw [if_neg hj20, if_neg (by omega), List.getElem?_append,
              if_neg (by omega)]
            have he : j - 1 - ck.length = (j - cc.length - 1) + 1 := by omega
            rw [he, List.getElem?_cons_succ]
        have hhi2 : childHi bhi (ck ++ a :: sk) j = childHi bhi sk (j - cc.length) := by
          rw [childHi, childHi, List.length_append, List.length_cons]
          by_cases hjk : j - cc.length < sk.length
          · rw [if_pos (by omega), if_pos hjk, List.getElem?_append,
              if_neg (by omega)]
            have he : j - ck.length = (j - cc.length) + 1 := by omega
            rw [he, List.getElem?_cons_succ]
          · rw [if_neg (by omega), if_neg hjk]
        rw [hlo2, hhi2]
        exact hres

/-- The predecessor walk returns the maximum entry of the subtree. -/
theorem predEntry_spec {K V : Type} [LinearOrder K] :
    ∀ (fuel : Nat) {b1 b2 : Option K} {n : BTreeNode K V} {pk : K} {pv : V},
      BTreeNode.Ordered b1 b2 n →
      BTreeNode.predEntry fuel n = some (pk, pv) →
      pk ∈ tKeys n ∧ ∀ x ∈ tKeys n, x ≤ pk := by
  intro fuel
  induction fuel with
  | zero =>
    intro b1 b2 n pk pv hord hp
    cases n with
    | node keys values children isLeaf =>
      simp only [BTreeNode.predEntry] at hp
      cases hp
  | succ fuel ih =>
    intro b1 b2 n pk pv hord hp
    cases n with
    | node keys values children isLeaf =>
    obtain ⟨hlen, hchain, hbnd, hleafc, hclen, hchild⟩ := ordered_elim hord
    have hpw' := List.pairwise_iff_getElem.mp (List.chain'_iff_pairwise.mp hchain)
    simp only [BTreeNode.predEntry] at hp
    cases isLeaf with
    | true =>
      rw [if_pos rfl] at hp
      rcases hkl : keys.getLast? with _ | pk0
      · simp only [hkl] at hp
        cases hp
      · rcases hvl : values.getLast? with _ | pv0
        · simp only [hkl, hvl] at hp
          cases hp
        · simp only [hkl, hvl] at hp
          injection hp with hp
          injection hp with hp1 hp2
          subst hp1
          rw [List.getLast?_eq_getElem?] at hkl
          have hkm : pk0 ∈ keys := List.mem_iff_getElem?.mpr ⟨_, hkl⟩
          refine ⟨tKeys_of_key hlen hkm, ?_⟩
          intro x hx
          rcases tKeys_decomp hx with hxk | ⟨hf, -⟩
          · rcases List.mem_iff_getElem?.mp hxk with ⟨j, hj⟩
            have hjl : j < keys.length := (List.getElem?_eq_some_iff.mp hj).1
            have hll : keys.length - 1 < keys.length := by omega
            rw [List.getElem?_eq_getElem hll] at hkl
            injection hkl with hkl
            rw [List.getElem?_eq_getElem hjl] at hj
            injection hj with hj
            rcases Nat.lt_or_ge j (keys.length - 1) with h2 | h2
            · have h3 := hpw' j (keys.length - 1) hjl hll h2
              rw [← hj, ← hkl]
              exact le_of_lt h3
            · have hje : j = keys.length - 1 := by omega
              subst hje
              rw [← hj, ← hkl]
          · cases hf
    | false =>
      rw [if_neg (by simp)] at hp
      rcases hcc : children[keys.length]? with _ | c
      · simp only [hcc] at hp
        cases hp
      · simp only [hcc] at hp
        obtain ⟨hpkm, hpmax⟩ := ih (hchild _ _ hcc) hp
        have hple : keys.length ≤ keys.length := le_refl _
        refine ⟨tKeys_of_child hlen hcc hple hpkm, ?_⟩
        have hpkw : lbLt (childLo b1 keys keys.length) pk := by
          rcases List.mem_map.mp hpkm with ⟨p, hpmem, hpfst⟩
          have := (traverse_bounds (hchild _ _ hcc) p hpmem).1
          rw [hpfst] at this
          exact this
        intro x hx
        rcases tKeys_decomp hx with hxk | ⟨-, j, c2, hc2, hjle, hxc2⟩
        · rcases List.mem_iff_getElem?.mp hxk with ⟨j, hj⟩
          have hjl : j < keys.length := (List.getElem?_eq_some_iff.mp hj).1
          have hk0 : keys.length ≠ 0 := by omega
          rw [childLo, if_neg hk0] at hpkw
          have hll : keys.length - 1 < keys.length := by omega
          rw [List.getElem?_eq_getElem hll] at hpkw
          rw [List.getElem?_eq_getElem hjl] at hj
          injection hj with hj
          have hxle : x ≤ keys[keys.length - 1] := by
            rcases Nat.lt_or_ge j (keys.length - 1) with h2 | h2
            · rw [← hj]
              exact le_of_lt (hpw' j (keys.length - 1) hjl hll h2)
            · have hje : j = keys.length - 1 := by omega
              subst hje
              rw [← hj]
          exact le_of_lt (lt_of_le_of_lt hxle hpkw)
        · by_cases hje : j = keys.length
          · subst hje
            rw [hc2] at hcc
            injection hcc with hcc
            subst hcc
            exact hpmax x hxc2
          · rw [List.length_zip, ← hlen, Nat.min_self] at hjle
            have hjlt : j < keys.length := by omega
            rcases List.mem_map.mp hxc2 with ⟨p, hpmem, hpfst⟩
            have hxw := (traverse_bounds (hchild _ _ hc2) p hpmem).2
            rw [childHi, if_pos hjlt, hpfst] at hxw
            rcases hkj : keys[j]? with _ | kj
            · rw [List.getElem?_eq_none_iff] at hkj
              omega
            rw [hkj] at hxw
            have hk0 : keys.length ≠ 0 := by omega
            rw [childLo, if_neg hk0] at hpkw
            have hll : keys.length - 1 < keys.length := by omega
            rw [List.getElem?_eq_getElem hll] at hpkw
            rw [List.getElem?_eq_getElem hjlt] at hkj
            injection hkj with hkj
            have hkle : kj ≤ keys[keys.length - 1] := by
              rcases Nat.lt_or_ge j (keys.length - 1) with h2 | h2
              · rw [← hkj]
                exact le_of_lt (hpw' j (keys.length - 1) hjlt hll h2)
              · have hje2 : j = keys.length - 1 := by omega
                subst hje2
                rw [← hkj]
            exact le_of_lt (lt_trans hxw (lt_of_le_of_lt hkle hpkw))

/-- The successor walk returns the minimum entry of the subtree. -/
theorem succEntry_spec {K V : Type} [LinearOrder K] :
    ∀ (fuel : Nat) {b1 b2 : Option K} {n : BTreeNode K V} {sk : K} {sv : V},
      BTreeNode.Ordered b1 b2 n →
      BTreeNode.succEntry fuel n = some (sk, sv) →
      sk ∈ tKeys n ∧ ∀ x ∈ tKeys n, sk ≤ x := by
  intro fuel
  induction fuel with
  | zero =>
    intro b1 b2 n sk sv hord hp
    cases n with
    | node keys values children isLeaf =>
      simp only [BTreeNode.succEntry] at hp
      cases hp
  | succ fuel ih =>
    intro b1 b2 n sk sv hord hp
    cases n with
    | node keys values children isLeaf =>
    obtain ⟨hlen, hchain, hbnd, hleafc, hclen, hchild⟩ := ordered_elim hord
    have hpw' := List.pairwise_iff_getElem.mp (List.chain'_iff_pairwise.mp hchain)
    simp only [BTreeNode.succEntry] at hp
    cases isLeaf with
    | true =>
      rw [if_pos rfl] at hp
      rcases hkl : keys[0]? with _ | sk0
      · simp only [hkl] at hp
        cases hp
      · rcases hvl : values[0]? with _ | sv0
        · simp only [hkl, hvl] at hp
          cases hp
        · simp only [hkl, hvl] at hp
          injection hp with hp
          injection hp with hp1 hp2
          subst hp1
          have hkm : sk0 ∈ keys := List.mem_iff_getElem?.mpr ⟨_, hkl⟩
          refine ⟨tKeys_of_key hlen hkm, ?_⟩
          intro x hx
          rcases tKeys_decomp hx with hxk | ⟨hf, -⟩
          · rcases List.mem_iff_getElem?.mp hxk with ⟨j, hj⟩
            have hjl : j < keys.length := (List.getElem?_eq_some_iff.mp hj).1
            have h0l : 0 < keys.length := by omega
            rw [List.getElem?_eq_getElem h0l] at hkl
            injection hkl with hkl
            rw [List.getElem?_eq_getElem hjl] at hj
            injection hj with hj
            rcases Nat.lt_or_ge 0 j with h2 | h2
            · have h3 := hpw' 0 j h0l hjl h2
              rw [← hj, ← hkl]
              exact le_of_lt h3
            · have hje : j = 0 := by omega
              subst hje
              rw [← hj, ← hkl]
          · cases hf
    | false =>
      rw [if_neg (by simp)] at hp
      rcases hcc : children[0]? with _ | c
      · simp only [hcc] at hp
        cases hp
      · simp only [hcc] at hp
        obtain ⟨hskm, hsmin⟩ := ih (hchild _ _ hcc) hp
        have hple : (0 : Nat) ≤ keys.length := Nat.zero_le _
        refine ⟨tKeys_of_child hlen hcc hple hskm, ?_⟩
        have hskw : ubLt sk (childHi b2 keys 0) := by
          rcases List.mem_map.mp hskm with ⟨p, hpmem, hpfst⟩
          have h4 := (traverse_bounds (hchild _ _ hcc) p hpmem).2
          rw [hpfst] at h4
          exact h4
        intro x hx
        rcases tKeys_decomp hx with hxk | ⟨-, j, c2, hc2, hjle, hxc2⟩
        · rcases List.mem_iff_getElem?.mp hxk with ⟨j, hj⟩
          have hjl : j < keys.length := (List.getElem?_eq_some_iff.mp hj).1
          rw [childHi, if_pos (by omega)] at hskw
          have h0l : 0 < keys.length := by omega
          rw [List.getElem?_eq_getElem h0l] at hskw
          rw [List.getElem?_eq_getElem hjl] at hj
          injection hj with hj
          have hxge : keys[0] ≤ x := by
            rcases Nat.lt_or_ge 0 j with h2 | h2
            · rw [← hj]
              exact le_of_lt (hpw' 0 j h0l hjl h2)
            · have hje : j = 0 := by omega
              subst hje
              rw [← hj]
          exact le_of_lt (lt_of_lt_of_le hskw hxge)
        · by_cases hje : j = 0
          · subst hje
            rw [hc2] at hcc
            injection hcc with hcc
            subst hcc
            exact hsmin x hxc2
          · rw [List.length_zip, ← hlen, Nat.min_self] at hjle
            have hj1 : j - 1 < keys.length := by omega
            rcases List.mem_map.mp hxc2 with ⟨p, hpmem, hpfst⟩
            have hxw := (traverse_bounds (hchild _ _ hc2) p hpmem).1
            rw [childLo, if_neg hje, hpfst] at hxw
            rcases hkj : keys[j - 1]? with _ | kj
            · rw [List.getElem?_eq_none_iff] at hkj
              omega
            rw [hkj] at hxw
            rw [childHi, if_pos (by omega : 0 < keys.length)] at hskw
            have h0l : 0 < keys.length := by omega
            rw [List.getElem?_eq_getElem h0l] at hskw
            rw [List.getElem?_eq_getElem hj1] at hkj
            injection hkj with hkj
            have hkge : keys[0] ≤ kj := by
              rcases Nat.lt_or_ge 0 (j - 1) with h2 | h2
              · rw [← hkj]
                exact le_of_lt (hpw' 0 (j - 1) h0l hj1 h2)
              · have hje2 : j - 1 = 0 := by omega
                simp only [hje2] at hkj
                exact le_of_eq hkj
            exact le_of_lt (lt_of_lt_of_le hskw (le_of_lt (lt_of_le_of_lt hkge hxw)))

theorem spliceOut_sublist {α : Type} (l : List α) (i : Nat) :
    List.Sublist (spliceOut l i) l := by
  rw [spliceOut]
  conv_rhs => rw [← List.take_append_drop i l]
  refine List.Sublist.append (List.Sublist.refl _) ?_
  rw [← List.tail_drop]
  exact List.tail_sublist _

/-- Key membership in a merged sibling pair. -/
theorem tKeys_join {K V : Type} {a : K} {av : V} {ck sk : List K} {cv sv : List V}
    {cc sc : List (BTreeNode K V)} {fl : Bool}
    (hclen : ck.length = cv.length) (hslen : sk.length = sv.length)
    (hccl : fl = false → cc.length = ck.length + 1) :
    ∀ x ∈ tKeys (.node (ck ++ a :: sk) (cv ++ av :: sv)
        (if fl then cc else cc ++ sc) fl),
      x = a ∨ x ∈ tKeys (.node ck cv cc fl) ∨ x ∈ tKeys (.node sk sv sc fl) := by
  intro x hx
  rcases tKeys_decomp hx with hxk | ⟨hfl, j, c, hcj, hjle, hxc⟩
  · rcases List.mem_append.mp hxk with h1 | h1
    · exact Or.inr (Or.inl (tKeys_of_key hclen h1))
    · rcases List.mem_cons.mp h1 with h2 | h2
      · exact Or.inl h2
      · exact Or.inr (Or.inr (tKeys_of_key hslen h2))
  · subst hfl
    rw [if_neg (by simp)] at hcj
    rw [List.getElem?_append] at hcj
    by_cases hjc : j < cc.length
    · rw [if_pos hjc] at hcj
      refine Or.inr (Or.inl (tKeys_of_child hclen hcj ?_ hxc))
      rw [hccl rfl] at hjc
      omega
    · rw [if_neg hjc] at hcj
      refine Or.inr (Or.inr (tKeys_of_child hslen hcj ?_ hxc))
      rw [List.length_zip, List.length_append, List.length_append, List.length_cons,
        List.length_cons, ← hclen, ← hslen, Nat.min_self] at hjle
      have hccl2 := hccl rfl
      omega

/-- `merge(idx)` on two minimal siblings: explicit result and preservation of
order, balance, counts and the key set. -/
theorem mergeAt_spec {K V : Type} [LinearOrder K] [Inhabited K] [Inhabited V]
    {t h : Nat} {b1 b2 : Option K} {keys : List K} {values : List V}
    {children : List (BTreeNode K V)} {idx : Nat}
    {ck sk : List K} {cv sv : List V} {cc sc : List (BTreeNode K V)} {cl sl : Bool}
    (ht : 2 ≤ t)
    (hord : BTreeNode.Ordered b1 b2 (.node keys values children false))
    (hb : BTreeNode.Balanced (h + 1) (.node keys values children false))
    (hcnt : ∀ (j : Nat) (c : BTreeNode K V), children[j]? = some c → CountsOK t false c)
    (hidx : idx < keys.length)
    (hc : children[idx]? = some (.node ck cv cc cl))
    (hs : children[idx + 1]? = some (.node sk sv sc sl))
    (hcsmall : ck.length ≤ t - 1) (hssmall : sk.length ≤ t - 1) :
    ∃ (km : K) (vm : V),
      keys[idx]? = some km ∧ values[idx]? = some vm ∧
      (BTreeNode.node keys values children false).mergeAt idx =
        .node (spliceOut keys idx) (spliceOut values idx) (spliceOut (children.set idx (BTreeNode.node (ck ++ km :: sk) (cv ++ vm :: sv) (if cl then cc else cc ++ sc) cl)) (idx + 1)) false ∧
      BTreeNode.Ordered b1 b2 (.node (spliceOut keys idx) (spliceOut values idx) (spliceOut (children.set idx (BTreeNode.node (ck ++ km :: sk) (cv ++ vm :: sv) (if cl then cc else cc ++ sc) cl)) (idx + 1)) false) ∧
      BTreeNode.Balanced (h + 1) (.node (spliceOut keys idx) (spliceOut values idx) (spliceOut (children.set idx (BTreeNode.node (ck ++ km :: sk) (cv ++ vm :: sv) (if cl then cc else cc ++ sc) cl)) (idx + 1)) false) ∧
      (∀ (j : Nat) (c : BTreeNode K V), (spliceOut (children.set idx (BTreeNode.node (ck ++ km :: sk) (cv ++ vm :: sv) (if cl then cc else cc ++ sc) cl)) (idx + 1))[j]? = some c → CountsOK t false c) ∧
      (∀ x ∈ tKeys (BTreeNode.node (spliceOut keys idx) (spliceOut values idx) (spliceOut (children.set idx (BTreeNode.node (ck ++ km :: sk) (cv ++ vm :: sv) (if cl then cc else cc ++ sc) cl)) (idx + 1)) false),
        x ∈ tKeys (.node keys values children false)) := by
  obtain ⟨hlen, hchain, hbnd, -, hclen, hchild⟩ := ordered_elim hord
  have hclen2 : children.length = keys.length + 1 := hclen rfl
  have hpw := List.chain'_iff_pairwise.mp hchain
  have hpw' := List.pairwise_iff_getElem.mp hpw
  have hcb : BTreeNode.Balanced h (.node ck cv cc cl) :=
    balanced_children_mem hb _ (List.mem_iff_getElem?.mpr ⟨idx, hc⟩)
  have hsb : BTreeNode.Balanced h (.node sk sv sc sl) :=
    balanced_children_mem hb _ (List.mem_iff_getElem?.mpr ⟨idx + 1, hs⟩)
  have hflag : sl = cl := by
    rw [balanced_leaf_iff hsb, balanced_leaf_iff hcb]
  rw [hflag] at hsb
  obtain ⟨hcklen, -, -, hcleafc, hcclen, -⟩ := ordered_elim (hchild _ _ hc)
  obtain ⟨hsklen, -, -, hsleafc, hscclen, -⟩ := ordered_elim (hchild _ _ hs)
  rcases hkm : keys[idx]? with _ | km
  · rw [List.getElem?_eq_none_iff] at hkm
    omega
  rcases hvm : values[idx]? with _ | vm
  · rw [List.getElem?_eq_none_iff] at hvm
    omega
  have hkgd : keys.getD idx default = km := by
    rw [List.getD_eq_getElem?_getD, hkm]
    rfl
  have hvgd : values.getD idx default = vm := by
    rw [List.getD_eq_getElem?_getD, hvm]
    rfl
  have hsctake : (if cl then cc else cc ++ sc.take (sk.length + 1))
      = (if cl then cc else cc ++ sc) := by
    cases cl with
    | true => rw [if_pos rfl, if_pos rfl]
    | false =>
      rw [if_neg (by simp), if_neg (by simp),
        List.take_of_length_le (by rw [hscclen hflag])]
  have heq : (BTreeNode.node keys values children false).mergeAt idx =
      .node (spliceOut keys idx) (spliceOut values idx) (spliceOut (children.set idx (BTreeNode.node (ck ++ km :: sk) (cv ++ vm :: sv) (if cl then cc else cc ++ sc) cl)) (idx + 1)) false := by
    simp only [BTreeNode.mergeAt, hc, hs]
    rw [hkgd, hvgd, hsctake]
  have hkmmem : km ∈ keys := List.mem_iff_getElem?.mpr ⟨idx, hkm⟩
  have hk2get : ∀ j : Nat, (spliceOut keys idx)[j]? = if j < idx then keys[j]? else keys[j + 1]? :=
    fun j => spliceOut_getElem? j
  have hk2len : (spliceOut keys idx).length = keys.length - 1 := spliceOut_length hidx
  have hcl2 : idx < children.length := (List.getElem?_eq_some_iff.mp hc).1
  have hc2get : ∀ j : Nat, (spliceOut (children.set idx (BTreeNode.node (ck ++ km :: sk) (cv ++ vm :: sv) (if cl then cc else cc ++ sc) cl)) (idx + 1))[j]? =
      if j < idx then children[j]?
      else if j = idx then some (BTreeNode.node (ck ++ km :: sk) (cv ++ vm :: sv) (if cl then cc else cc ++ sc) cl)
      else children[j + 1]? := by
    intro j
    rw [spliceOut_getElem?]
    by_cases h1 : j < idx
    · rw [if_pos (by omega), List.getElem?_set, if_neg (by omega), if_pos h1]
    · by_cases h2 : j = idx
      · subst h2
        rw [if_pos (by omega), List.getElem?_set, if_pos rfl, if_pos (by omega),
          if_neg h1, if_pos rfl]
      · rw [if_neg (by omega), List.getElem?_set, if_neg (by omega), if_neg h1,
          if_neg h2]
  have hwlo_lt : ∀ j : Nat, j < idx → childLo b1 (spliceOut keys idx) j = childLo b1 keys j := by
    intro j hj
    rw [childLo, childLo]
    by_cases hj0 : j = 0
    · rw [if_pos hj0, if_pos hj0]
    · rw [if_neg hj0, if_neg hj0, hk2get, if_pos (by omega)]
  have hwhi_lt : ∀ j : Nat, j < idx → childHi b2 (spliceOut keys idx) j = childHi b2 keys j := by
    intro j hj
    rw [childHi, childHi, hk2len, if_pos (by omega), if_pos (by omega), hk2get,
      if_pos hj]
  have hwlo_i : childLo b1 (spliceOut keys idx) idx = childLo b1 keys idx := by
    rw [childLo, childLo]
    by_cases hj0 : idx = 0
    · rw [if_pos hj0, if_pos hj0]
    · rw [if_neg hj0, if_neg hj0, hk2get, if_pos (by omega)]
  have hwhi_i : childHi b2 (spliceOut keys idx) idx = childHi b2 keys (idx + 1) := by
    rw [childHi, childHi, hk2len]
    by_cases hj : idx + 1 < keys.length
    · rw [if_pos (by omega), if_pos hj, hk2get, if_neg (by omega)]
    · rw [if_neg (by omega), if_neg hj]
  have hwlo_gt : ∀ j : Nat, idx < j → childLo b1 (spliceOut keys idx) j = childLo b1 keys (j + 1) := by
    intro j hj
    rw [childLo, childLo, if_neg (by omega), if_neg (by omega), hk2get,
      if_neg (by omega)]
    have h1 : j - 1 + 1 = j := by omega
    have h2 : j + 1 - 1 = j := by omega
    rw [h1, h2]
  have hwhi_gt : ∀ j : Nat, idx < j → childHi b2 (spliceOut keys idx) j = childHi b2 keys (j + 1) := by
    intro j hj
    rw [childHi, childHi, hk2len]
    by_cases hjk : j + 1 < keys.length
    · rw [if_pos (by omega), if_pos hjk, hk2get, if_neg (by omega)]
    · rw [if_neg (by omega), if_neg hjk]
  have hchii : childHi b2 keys idx = some km := by
    rw [childHi, if_pos hidx, hkm]
  have hcloi1 : childLo b1 keys (idx + 1) = some km := by
    rw [childLo, if_neg (by omega)]
    have he : idx + 1 - 1 = idx := by omega
    rw [he, hkm]
  have hcord := hchild _ _ hc
  rw [hchii] at hcord
  have hsord := hchild _ _ hs
  rw [hcloi1, hflag] at hsord
  have hla : lbLt (childLo b1 keys idx) km := by
    by_cases hj0 : idx = 0
    · rw [childLo, if_pos hj0]
      exact (hbnd km hkmmem).1
    · rw [childLo, if_neg hj0]
      have hi1 : idx - 1 < keys.length := by omega
      rw [List.getElem?_eq_getElem hi1]
      have h3 := hpw' (idx - 1) idx hi1 hidx (by omega)
      rw [List.getElem?_eq_getElem hidx] at hkm
      injection hkm with hkm
      rw [← hkm]
      exact h3
  have hua : ubLt km (childHi b2 keys (idx + 1)) := by
    rw [childHi]
    by_cases hj : idx + 1 < keys.length
    · rw [if_pos hj]
      rw [List.getElem?_eq_getElem hj]
      have h3 := hpw' idx (idx + 1) hidx hj (by omega)
      rw [List.getElem?_eq_getElem hidx] at hkm
      injection hkm with hkm
      rw [← hkm]
      exact h3
    · rw [if_neg hj]
      exact (hbnd km hkmmem).2
  have hmord : BTreeNode.Ordered (childLo b1 keys idx) (childHi b2 keys (idx + 1))
      (BTreeNode.node (ck ++ km :: sk) (cv ++ vm :: sv) (if cl then cc else cc ++ sc) cl) := ordered_join hcord hsord hla hua
  have hmbal : BTreeNode.Balanced h (BTreeNode.node (ck ++ km :: sk) (cv ++ vm :: sv) (if cl then cc else cc ++ sc) cl) := by
    cases cl with
    | true =>
      have h0 : h = 0 := (balanced_elim hcb).1 rfl
      subst h0
      exact .leaf _ _ _
    | false =>
      cases h with
      | zero => exact absurd ((balanced_elim hcb).2 rfl).1 (lt_irrefl 0)
      | succ h2 =>
        refine balanced_internal_mem ?_
        intro c' hc'
        rw [if_neg (by simp)] at hc'
        rcases List.mem_append.mp hc' with h1 | h1
        · exact balanced_children_mem hcb c' h1
        · exact balanced_children_mem hsb c' h1
  have hmcnt : CountsOK t false (BTreeNode.node (ck ++ km :: sk) (cv ++ vm :: sv) (if cl then cc else cc ++ sc) cl) := by
    obtain ⟨hce1, hce2, hce3⟩ := countsOK_elim (hcnt _ _ hc)
    obtain ⟨hse1, hse2, hse3⟩ := countsOK_elim (hcnt _ _ hs)
    have hce1' : t - 1 ≤ ck.length := hce1
    have hse1' : t - 1 ≤ sk.length := hse1
    refine countsOK_intro ?_ ?_ ?_
    · show t - 1 ≤ (ck ++ km :: sk).length
      rw [List.length_append, List.length_cons]
      omega
    · show (ck ++ km :: sk).length ≤ 2 * t - 1
      rw [List.length_append, List.length_cons]
      omega
    · intro j c' hcj
      show CountsOK t false c'
      simp only [BTreeNode.childrenOf] at hcj
      cases cl with
      | true =>
        rw [if_pos rfl] at hcj
        exact hce3 j c' hcj
      | false =>
        rw [if_neg (by simp)] at hcj
        rw [List.getElem?_append] at hcj
        by_cases hjc : j < cc.length
        · rw [if_pos hjc] at hcj
          exact hce3 _ _ hcj
        · rw [if_neg hjc] at hcj
          exact hse3 _ _ hcj
  refine ⟨km, vm, rfl, rfl, heq, ?_, ?_, ?_, ?_⟩
  · refine .internal _ _ _ _ _ ?_ ?_ ?_ ?_ ?_
    · rw [spliceOut_length hidx, spliceOut_length (by rw [← hlen]; exact hidx), hlen]
    · rw [spliceOut_length (show idx + 1 < (children.set idx (BTreeNode.node (ck ++ km :: sk) (cv ++ vm :: sv) (if cl then cc else cc ++ sc) cl)).length by
        rw [List.length_set]; omega), List.length_set, spliceOut_length hidx, hclen2]
      omega
    · exact List.chain'_iff_pairwise.mpr
        (List.Pairwise.sublist (spliceOut_sublist keys idx) hpw)
    · intro x hx
      exact hbnd x (spliceOut_mem hx)
    · intro j c' hcj
      rw [hc2get] at hcj
      by_cases h1 : j < idx
      · rw [if_pos h1] at hcj
        rw [hwlo_lt j h1, hwhi_lt j h1]
        exact hchild j c' hcj
      · by_cases h2 : j = idx
        · subst h2
          rw [if_neg h1, if_pos rfl] at hcj
          injection hcj with hcj
          subst hcj
          rw [hwlo_i, hwhi_i]
          exact hmord
        · rw [if_neg h1, if_neg h2] at hcj
          rw [hwlo_gt j (by omega), hwhi_gt j (by omega)]
          exact hchild _ _ hcj
  · refine balanced_internal_mem ?_
    intro c' hc'
    rcases List.mem_or_eq_of_mem_set (List.Sublist.mem hc' (spliceOut_sublist _ _))
      with h1 | h1
    · exact balanced_children_mem hb c' h1
    · subst h1
      exact hmbal
  · intro j c' hcj
    rw [hc2get] at hcj
    by_cases h1 : j < idx
    · rw [if_pos h1] at hcj
      exact hcnt _ _ hcj
    · by_cases h2 : j = idx
      · subst h2
        rw [if_neg h1, if_pos rfl] at hcj
        injection hcj with hcj
        subst hcj
        exact hmcnt
      · rw [if_neg h1, if_neg h2] at hcj
        exact hcnt _ _ hcj
  · intro x hx
    rcases tKeys_decomp hx with hxk | ⟨-, j, c', hcj, hjle, hxc⟩
    · exact tKeys_of_key hlen (List.Sublist.mem hxk (spliceOut_sublist _ _))
    · rw [hc2get] at hcj
      by_cases h1 : j < idx
      · rw [if_pos h1] at hcj
        exact tKeys_of_child hlen hcj (by omega) hxc
      · by_cases h2 : j = idx
        · subst h2
          rw [if_neg h1, if_pos rfl] at hcj
          injection hcj with hcj
          subst hcj
          rcases tKeys_join hcklen hsklen hcclen x hxc with h3 | h3 | h3
          · subst h3
            exact tKeys_of_key hlen hkmmem
          · exact tKeys_of_child hlen hc (by omega) h3
          · rw [← hflag] at h3
            exact tKeys_of_child hlen hs (by omega) h3
        · rw [if_neg h1, if_neg h2] at hcj
          have hjb : j + 1 < children.length := (List.getElem?_eq_some_iff.mp hcj).1
          exact tKeys_of_child hlen hcj (by omega) hxc

/-- Overwriting one key with a value separating its neighbours keeps the
vector sorted. -/
theorem pairwise_set {K : Type} [LinearOrder K] {keys : List K} {i : Nat} {a : K}
    (hpw : List.Pairwise (· < ·) keys)
    (hlt : ∀ (j : Nat) (x : K), j < i → keys[j]? = some x → x < a)
    (hgt : ∀ (j : Nat) (x : K), i < j → keys[j]? = some x → a < x) :
    List.Pairwise (· < ·) (keys.set i a) := by
  rw [List.pairwise_iff_getElem]
  have hpw' := List.pairwise_iff_getElem.mp hpw
  intro p q hp hq hpq
  rw [List.length_set] at hp hq
  rw [List.getElem_set, List.getElem_set]
  by_cases hip : i = p
  · subst hip
    rw [if_pos rfl, if_neg (by omega)]
    exact hgt q _ (by omega) (List.getElem?_eq_getElem hq)
  · rw [if_neg hip]
    by_cases hiq : i = q
    · subst hiq
      rw [if_pos rfl]
      exact hlt p _ (by omega) (List.getElem?_eq_getElem hp)
    · rw [if_neg hiq]
      exact hpw' p q hp hq hpq

/-- `borrowFromPrev(idx)`: explicit result and preservation of order,
balance, counts and the key set. -/
theorem borrowFromPrev_spec {K V : Type} [LinearOrder K] [Inhabited K] [Inhabited V]
    {t h : Nat} {b1 b2 : Option K} {keys : List K} {values : List V}
    {children : List (BTreeNode K V)} {idx : Nat}
    {ck sk : List K} {cv sv : List V} {cc sc : List (BTreeNode K V)} {cl sl : Bool}
    (ht : 2 ≤ t)
    (hord : BTreeNode.Ordered b1 b2 (.node keys values children false))
    (hb : BTreeNode.Balanced (h + 1) (.node keys values children false))
    (hcnt : ∀ (j : Nat) (c : BTreeNode K V), children[j]? = some c → CountsOK t false c)
    (hidx0 : idx ≠ 0) (hidxle : idx ≤ keys.length)
    (hc : children[idx]? = some (.node ck cv cc cl))
    (hs : children[idx - 1]? = some (.node sk sv sc sl))
    (hsbig : t ≤ sk.length)
    (hcsmall : ck.length ≤ 2 * t - 2) :
    ∃ (lastk : K) (lastv : V) (km : K) (vm : V),
      sk[sk.length - 1]? = some lastk ∧
      keys[idx - 1]? = some km ∧
      lastk < km ∧
      (BTreeNode.node keys values children false).borrowFromPrev idx =
        .node (keys.set (idx - 1) lastk) (values.set (idx - 1) lastv) ((children.set idx (BTreeNode.node (km :: ck) (vm :: cv) (if cl then cc else sc.getLastD default :: cc) cl)).set (idx - 1) (BTreeNode.node sk.dropLast sv.dropLast (if cl then sc else sc.dropLast) sl)) false ∧
      BTreeNode.Ordered b1 b2 (.node (keys.set (idx - 1) lastk) (values.set (idx - 1) lastv) ((children.set idx (BTreeNode.node (km :: ck) (vm :: cv) (if cl then cc else sc.getLastD default :: cc) cl)).set (idx - 1) (BTreeNode.node sk.dropLast sv.dropLast (if cl then sc else sc.dropLast) sl)) false) ∧
      BTreeNode.Balanced (h + 1) (.node (keys.set (idx - 1) lastk) (values.set (idx - 1) lastv) ((children.set idx (BTreeNode.node (km :: ck) (vm :: cv) (if cl then cc else sc.getLastD default :: cc) cl)).set (idx - 1) (BTreeNode.node sk.dropLast sv.dropLast (if cl then sc else sc.dropLast) sl)) false) ∧
      (∀ (j : Nat) (c : BTreeNode K V), ((children.set idx (BTreeNode.node (km :: ck) (vm :: cv) (if cl then cc else sc.getLastD default :: cc) cl)).set (idx - 1) (BTreeNode.node sk.dropLast sv.dropLast (if cl then sc else sc.dropLast) sl))[j]? = some c → CountsOK t false c) ∧
      (∀ x ∈ tKeys (BTreeNode.node (keys.set (idx - 1) lastk) (values.set (idx - 1) lastv) ((children.set idx (BTreeNode.node (km :: ck) (vm :: cv) (if cl then cc else sc.getLastD default :: cc) cl)).set (idx - 1) (BTreeNode.node sk.dropLast sv.dropLast (if cl then sc else sc.dropLast) sl)) false),
        x ∈ tKeys (.node keys values children false)) := by
  obtain ⟨hlen, hchain, hbnd, -, hclen, hchild⟩ := ordered_elim hord
  have hclen2 : children.length = keys.length + 1 := hclen rfl
  have hpw := List.chain'_iff_pairwise.mp hchain
  have hpw' := List.pairwise_iff_getElem.mp hpw
  have hkl1 : idx - 1 < keys.length := by omega
  have hcb : BTreeNode.Balanced h (.node ck cv cc cl) :=
    balanced_children_mem hb _ (List.mem_iff_getElem?.mpr ⟨idx, hc⟩)
  have hsb : BTreeNode.Balanced h (.node sk sv sc sl) :=
    balanced_children_mem hb _ (List.mem_iff_getElem?.mpr ⟨idx - 1, hs⟩)
  have hflag : sl = cl := by
    rw [balanced_leaf_iff hsb, balanced_leaf_iff hcb]
  obtain ⟨hcklen, hcchain, hcbnd2, hcleafc, hcclen, hcchild⟩ := ordered_elim (hchild _ _ hc)
  obtain ⟨hsklen, hschain, hsbnd2, hsleafc, hscln, hschild⟩ := ordered_elim (hchild _ _ hs)
  rcases hkm : keys[idx - 1]? with _ | km
  · rw [List.getElem?_eq_none_iff] at hkm
    omega
  rcases hvm : values[idx - 1]? with _ | vm
  · rw [List.getElem?_eq_none_iff] at hvm
    omega
  rcases hlast : sk[sk.length - 1]? with _ | lastk
  · rw [List.getElem?_eq_none_iff] at hlast
    omega
  rcases hlastv : sv[sv.length - 1]? with _ | lastv
  · rw [List.getElem?_eq_none_iff] at hlastv
    omega
  have hkgd : keys.getD (idx - 1) default = km := by
    rw [List.getD_eq_getElem?_getD, hkm]
    rfl
  have hvgd : values.getD (idx - 1) default = vm := by
    rw [List.getD_eq_getElem?_getD, hvm]
    rfl
  have hlgd : sk.getLastD default = lastk := by
    rw [List.getLastD_eq_getLast?, List.getLast?_eq_getElem?, hlast]
    rfl
  have hlvgd : sv.getLastD default = lastv := by
    rw [List.getLastD_eq_getLast?, List.getLast?_eq_getElem?, hlastv]
    rfl
  have heq : (BTreeNode.node keys values children false).borrowFromPrev idx =
      .node (keys.set (idx - 1) lastk) (values.set (idx - 1) lastv) ((children.set idx (BTreeNode.node (km :: ck) (vm :: cv) (if cl then cc else sc.getLastD default :: cc) cl)).set (idx - 1) (BTreeNode.node sk.dropLast sv.dropLast (if cl then sc else sc.dropLast) sl)) false := by
    simp only [BTreeNode.borrowFromPrev, hc, hs]
    rw [hkgd, hvgd, hlgd, hlvgd]
  have hkmmem : km ∈ keys := List.mem_iff_getElem?.mpr ⟨idx - 1, hkm⟩
  have hlastmem : lastk ∈ sk := List.mem_iff_getElem?.mpr ⟨sk.length - 1, hlast⟩
  have hchis1 : childHi b2 keys (idx - 1) = some km := by
    rw [childHi, if_pos hkl1, hkm]
  have hcloi : childLo b1 keys idx = some km := by
    rw [childLo, if_neg hidx0]
    have he : idx - 1 + 1 - 1 = idx - 1 := by omega
    rw [hkm]
  have hllo := (hsbnd2 lastk hlastmem).1
  have hlhi := (hsbnd2 lastk hlastmem).2
  rw [hchis1] at hlhi
  have hlk_km : lastk < km := hlhi
  have hkmhi : ubLt km (childHi b2 keys idx) := by
    rw [childHi]
    by_cases hik : idx < keys.length
    · rw [if_pos hik, List.getElem?_eq_getElem hik]
      have h3 := hpw' (idx - 1) idx hkl1 hik (by omega)
      rw [List.getElem?_eq_getElem hkl1] at hkm
      injection hkm with hkm
      rw [← hkm]
      exact h3
    · rw [if_neg hik]
      exact (hbnd km hkmmem).2
  have hlastlo : lbLt b1 lastk := by
    by_cases hj2 : idx - 1 = 0
    · rw [childLo, if_pos hj2] at hllo
      exact hllo
    · rw [childLo, if_neg hj2] at hllo
      have hi2 : idx - 1 - 1 < keys.length := by omega
      rw [List.getElem?_eq_getElem hi2] at hllo
      exact lbLt_trans (hbnd _ (List.mem_iff_getElem?.mpr ⟨idx - 1 - 1,
        List.getElem?_eq_getElem hi2⟩)).1 hllo
  have hkspw : List.Pairwise (· < ·) (keys.set (idx - 1) lastk) := by
    refine pairwise_set hpw ?_ ?_
    · intro j x hj hx
      have hj2 : idx - 1 ≠ 0 := by omega
      rw [childLo, if_neg hj2] at hllo
      have hi2 : idx - 1 - 1 < keys.length := by omega
      rw [List.getElem?_eq_getElem hi2] at hllo
      have hjl : j < keys.length := (List.getElem?_eq_some_iff.mp hx).1
      rw [List.getElem?_eq_getElem hjl] at hx
      injection hx with hx
      rcases Nat.lt_or_ge j (idx - 1 - 1) with h2 | h2
      · have h3 := hpw' j (idx - 1 - 1) hjl hi2 h2
        rw [← hx]
        exact lt_trans h3 hllo
      · have hje : j = idx - 1 - 1 := by omega
        subst hje
        rw [← hx]
        exact hllo
    · intro j x hj hx
      have hjl : j < keys.length := (List.getElem?_eq_some_iff.mp hx).1
      have h3 := hpw' (idx - 1) j hkl1 hjl (by omega)
      rw [List.getElem?_eq_getElem hkl1] at hkm
      injection hkm with hkm
      rw [List.getElem?_eq_getElem hjl] at hx
      injection hx with hx
      rw [← hx]
      exact lt_trans hlk_km (hkm ▸ h3)
  have hksbnd : ∀ x ∈ (keys.set (idx - 1) lastk), lbLt b1 x ∧ ubLt x b2 := by
    intro x hx
    rcases List.mem_or_eq_of_mem_set hx with h1 | h1
    · exact hbnd x h1
    · subst h1
      exact ⟨hlastlo, ubLt_trans hlk_km (hbnd km hkmmem).2⟩
  have hkset : ∀ j : Nat, j ≠ idx - 1 → (keys.set (idx - 1) lastk)[j]? = keys[j]? := by
    intro j hj
    rw [List.getElem?_set, if_neg (by omega)]
  have hksetl : (keys.set (idx - 1) lastk)[idx - 1]? = some lastk := by
    rw [List.getElem?_set, if_pos rfl, if_pos (by omega)]
  have hscsz : cl = false → sc.length = sk.length + 1 := by
    intro hcf
    exact hscln (by rw [hflag, hcf])
  have hdk : sk.dropLast = sk.take (sk.length - 1) := List.dropLast_eq_take sk
  have hdv : sv.dropLast = sv.take (sk.length - 1) := by
    rw [List.dropLast_eq_take, ← hsklen]
  have hdc : (if cl then sc else sc.dropLast)
      = (if sl then sc else sc.take (sk.length - 1 + 1)) := by
    rw [hflag]
    cases cl with
    | true => rw [if_pos rfl, if_pos rfl]
    | false =>
      rw [if_neg (by simp), if_neg (by simp), List.dropLast_eq_take]
      have h1 : sc.length - 1 = sk.length - 1 + 1 := by
        rw [hscsz rfl]
        omega
      rw [h1]
  have hs2ord : BTreeNode.Ordered (childLo b1 keys (idx - 1)) (some lastk) (BTreeNode.node sk.dropLast sv.dropLast (if cl then sc else sc.dropLast) sl) := by
    have h4 := ordered_take_half (hchild _ _ hs) hlast
    rw [← hdk, ← hdv, ← hdc] at h4
    exact h4
  have hc2ord : BTreeNode.Ordered (some lastk) (childHi b2 keys idx) (BTreeNode.node (km :: ck) (vm :: cv) (if cl then cc else sc.getLastD default :: cc) cl) := by
    rw [hcloi] at hcbnd2 hcchild
    cases cl with
    | true =>
      have hcc0 : cc = [] := hcleafc rfl
      subst hcc0
      rw [if_pos rfl]
      refine .leaf _ _ _ _ ?_ ?_ ?_
      · show (km :: ck).length = (vm :: cv).length
        rw [List.length_cons, List.length_cons, hcklen]
      · rw [List.chain'_iff_pairwise, List.pairwise_cons]
        exact ⟨fun x hx => (hcbnd2 x hx).1, List.chain'_iff_pairwise.mp hcchain⟩
      · intro x hx
        rcases List.mem_cons.mp hx with h1 | h1
        · rw [h1]
          exact ⟨hlk_km, hkmhi⟩
        · exact ⟨lt_trans hlk_km (hcbnd2 x h1).1, (hcbnd2 x h1).2⟩
    | false =>
      have hsl : sl = false := by rw [hflag]
      rcases hmc : sc[sc.length - 1]? with _ | mc
      · rw [List.getElem?_eq_none_iff] at hmc
        rw [hscsz rfl] at hmc
        omega
      have hmcgd : sc.getLastD default = mc := by
        rw [List.getLastD_eq_getLast?, List.getLast?_eq_getElem?, hmc]
        rfl
      have hmco := hschild _ _ hmc
      have h1 : sc.length - 1 = sk.length := by
        rw [hscsz rfl]
        omega
      have hw1 : childLo (childLo b1 keys (idx - 1)) sk (sc.length - 1)
          = some lastk := by
        rw [h1, childLo, if_neg (by omega), hlast]
      have hw2 : childHi (childHi b2 keys (idx - 1)) sk (sc.length - 1)
          = some km := by
        rw [h1, childHi, if_neg (by omega), hchis1]
      rw [hw1, hw2] at hmco
      rw [if_neg (by simp), hmcgd]
      refine .internal _ _ _ _ _ ?_ ?_ ?_ ?_ ?_
      · show (km :: ck).length = (vm :: cv).length
        rw [List.length_cons, List.length_cons, hcklen]
      · show (mc :: cc).length = (km :: ck).length + 1
        rw [List.length_cons, List.length_cons, hcclen rfl]
      · rw [List.chain'_iff_pairwise, List.pairwise_cons]
        exact ⟨fun x hx => (hcbnd2 x hx).1, List.chain'_iff_pairwise.mp hcchain⟩
      · intro x hx
        rcases List.mem_cons.mp hx with h1 | h1
        · rw [h1]
          exact ⟨hlk_km, hkmhi⟩
        · exact ⟨lt_trans hlk_km (hcbnd2 x h1).1, (hcbnd2 x h1).2⟩
      · intro j c' hcj
        cases j with
        | zero =>
          rw [List.getElem?_cons_zero] at hcj
          injection hcj with hcj
          subst hcj
          have hg1 : childLo (some lastk) (km :: ck) 0 = some lastk := by
            rw [childLo, if_pos rfl]
          have hg2 : childHi (childHi b2 keys idx) (km :: ck) 0 = some km := by
            rw [childHi, if_pos (by simp), List.getElem?_cons_zero]
          rw [hg1, hg2]
          exact hmco
        | succ j =>
          rw [List.getElem?_cons_succ] at hcj
          rw [childLo_succ, childHi_succ]
          exact hcchild j c' hcj
  refine ⟨lastk, lastv, km, vm, rfl, rfl, hlk_km, heq, ?_, ?_, ?_, ?_⟩
  · refine .internal _ _ _ _ _ ?_ ?_ (List.chain'_iff_pairwise.mpr hkspw) hksbnd ?_
    · rw [List.length_set, List.length_set, hlen]
    · rw [List.length_set, List.length_set, List.length_set, hclen2]
    · intro j c' hcj
      rw [List.getElem?_set] at hcj
      by_cases h1 : idx - 1 = j
      · rw [if_pos h1, if_pos (by rw [List.length_set]; omega)] at hcj
        injection hcj with hcj
        subst hcj
        subst h1
        have hg1 : childLo b1 (keys.set (idx - 1) lastk) (idx - 1) = childLo b1 keys (idx - 1) := by
          rw [childLo, childLo]
          by_cases hj0 : idx - 1 = 0
          · rw [if_pos hj0, if_pos hj0]
          · rw [if_neg hj0, if_neg hj0, hkset _ (by omega)]
        have hg2 : childHi b2 (keys.set (idx - 1) lastk) (idx - 1) = some lastk := by
          rw [childHi, List.length_set, if_pos (by omega), hksetl]
        rw [hg1, hg2]
        exact hs2ord
      · rw [if_neg h1, List.getElem?_set] at hcj
        by_cases h2 : idx = j
        · rw [if_pos h2, if_pos (by omega)] at hcj
          injection hcj with hcj
          subst hcj
          subst h2
          have hg1 : childLo b1 (keys.set (idx - 1) lastk) idx = some lastk := by
            rw [childLo, if_neg hidx0, hksetl]
          have hg2 : childHi b2 (keys.set (idx - 1) lastk) idx = childHi b2 keys idx := by
            rw [childHi, childHi, List.length_set]
            by_cases hik : idx < keys.length
            · rw [if_pos hik, if_pos hik, hkset _ (by omega)]
            · rw [if_neg hik, if_neg hik]
          rw [hg1, hg2]
          exact hc2ord
        · rw [if_neg h2] at hcj
          have hg1 : childLo b1 (keys.set (idx - 1) lastk) j = childLo b1 keys j := by
            rw [childLo, childLo]
            by_cases hj0 : j = 0
            · rw [if_pos hj0, if_pos hj0]
            · rw [if_neg hj0, if_neg hj0, hkset _ (by omega)]
          have hg2 : childHi b2 (keys.set (idx - 1) lastk) j = childHi b2 keys j := by
            rw [childHi, childHi, List.length_set]
            by_cases hik : j < keys.length
            · rw [if_pos hik, if_pos hik, hkset _ (by omega)]
            · rw [if_neg hik, if_neg hik]
          rw [hg1, hg2]
          exact hchild j c' hcj
  · refine balanced_internal_mem ?_
    intro c' hc'
    rcases List.mem_or_eq_of_mem_set hc' with h1 | h1
    · rcases List.mem_or_eq_of_mem_set h1 with h2 | h2
      · exact balanced_children_mem hb c' h2
      · subst h2
        cases cl with
        | true =>
          have h0 : h = 0 := (balanced_elim hcb).1 rfl
          subst h0
          exact .leaf _ _ _
        | false =>
          cases h with
          | zero => exact absurd ((balanced_elim hcb).2 rfl).1 (lt_irrefl 0)
          | succ h2 =>
            have hsl : sl = false := by rw [hflag]
            rw [hsl] at hsb
            refine balanced_internal_mem ?_
            intro c3 hc3
            rw [if_neg (by simp)] at hc3
            rcases List.mem_cons.mp hc3 with h4 | h4
            · subst h4
              rcases hmc : sc[sc.length - 1]? with _ | mc
              · rw [List.getElem?_eq_none_iff] at hmc
                rw [hscsz rfl] at hmc
                omega
              · have hmcgd : sc.getLastD default = mc := by
                  rw [List.getLastD_eq_getLast?, List.getLast?_eq_getElem?, hmc]
                  rfl
                rw [hmcgd]
                exact balanced_children_mem hsb mc (List.mem_iff_getElem?.mpr ⟨_, hmc⟩)
            · exact balanced_children_mem hcb c3 h4
    · subst h1
      cases cl with
      | true =>
        have h0 : h = 0 := (balanced_elim hcb).1 rfl
        subst h0
        have hsl : sl = true := by rw [hflag]
        rw [hsl]
        exact .leaf _ _ _
      | false =>
        cases h with
        | zero => exact absurd ((balanced_elim hcb).2 rfl).1 (lt_irrefl 0)
        | succ h2 =>
          have hsl : sl = false := by rw [hflag]
          rw [hsl] at hsb ⊢
          refine balanced_internal_mem ?_
          intro c3 hc3
          rw [if_neg (by simp)] at hc3
          exact balanced_children_mem hsb c3
            (List.Sublist.mem hc3 (List.dropLast_sublist sc))
  · intro j c' hcj
    rw [List.getElem?_set] at hcj
    obtain ⟨hce1, hce2, hce3⟩ := countsOK_elim (hcnt _ _ hc)
    obtain ⟨hse1, hse2, hse3⟩ := countsOK_elim (hcnt _ _ hs)
    have hce1' : t - 1 ≤ ck.length := hce1
    have hse2' : sk.length ≤ 2 * t - 1 := hse2
    by_cases h1 : idx - 1 = j
    · rw [if_pos h1, if_pos (by rw [List.length_set]; omega)] at hcj
      injection hcj with hcj
      subst hcj
      refine countsOK_intro ?_ ?_ ?_
      · show t - 1 ≤ sk.dropLast.length
        rw [List.dropLast_eq_take, List.length_take]
        omega
      · show sk.dropLast.length ≤ 2 * t - 1
        rw [List.dropLast_eq_take, List.length_take]
        omega
      · intro j2 c3 hc3
        show CountsOK t false c3
        simp only [BTreeNode.childrenOf] at hc3
        have hmem := List.mem_iff_getElem?.mpr ⟨j2, hc3⟩
        have hmem2 : c3 ∈ sc := by
          rcases hcl : cl with _ | _
          · rw [hcl] at hmem
            rw [if_neg (by simp)] at hmem
            exact List.Sublist.mem hmem (List.dropLast_sublist sc)
          · rw [hcl] at hmem
            rw [if_pos rfl] at hmem
            exact hmem
        rcases List.mem_iff_getElem?.mp hmem2 with ⟨j3, hj3⟩
        exact hse3 j3 c3 hj3
    · rw [if_neg h1, List.getElem?_set] at hcj
      by_cases h2 : idx = j
      · rw [if_pos h2, if_pos (by omega)] at hcj
        injection hcj with hcj
        subst hcj
        refine countsOK_intro ?_ ?_ ?_
        · show t - 1 ≤ (km :: ck).length
          rw [List.length_cons]
          omega
        · show (km :: ck).length ≤ 2 * t - 1
          rw [List.length_cons]
          omega
        · intro j2 c3 hc3
          show CountsOK t false c3
          simp only [BTreeNode.childrenOf] at hc3
          rcases hcl : cl with _ | _
          · rw [hcl] at hc3
            rw [if_neg (by simp)] at hc3
            cases j2 with
            | zero =>
              rw [List.getElem?_cons_zero] at hc3
              injection hc3 with hc3
              subst hc3
              rcases hmc : sc[sc.length - 1]? with _ | mc
              · rw [List.getElem?_eq_none_iff] at hmc
                rw [hscsz hcl] at hmc
                omega
              · have hmcgd : sc.getLastD default = mc := by
                  rw [List.getLastD_eq_getLast?, List.getLast?_eq_getElem?, hmc]
                  rfl
                rw [hmcgd]
                exact hse3 _ _ hmc
            | succ j2 =>
              rw [List.getElem?_cons_succ] at hc3
              exact hce3 _ _ hc3
          · rw [hcl] at hc3
            rw [if_pos rfl] at hc3
            exact hce3 _ _ hc3
      · rw [if_neg h2] at hcj
        exact hcnt _ _ hcj
  · intro x hx
    rcases tKeys_decomp hx with hxk | ⟨-, j, c', hcj, hjle, hxc⟩
    · rcases List.mem_or_eq_of_mem_set hxk with h1 | h1
      · exact tKeys_of_key hlen h1
      · subst h1
        exact tKeys_of_child hlen hs (by omega) (tKeys_of_key hsklen hlastmem)
    · rw [List.getElem?_set] at hcj
      by_cases h1 : idx - 1 = j
      · rw [if_pos h1, if_pos (by rw [List.length_set]; omega)] at hcj
        injection hcj with hcj
        subst hcj
        refine tKeys_of_child hlen hs (by omega) ?_
        rw [hdk, hdv, hdc] at hxc
        exact tKeys_take_half hsklen (by omega) hxc
      · rw [if_neg h1, List.getElem?_set] at hcj
        by_cases h2 : idx = j
        · rw [if_pos h2, if_pos (by omega)] at hcj
          injection hcj with hcj
          subst hcj
          rcases tKeys_decomp hxc with hxk2 | ⟨hclf, j2, c3, hc3, hj2le, hxc3⟩
          · rcases List.mem_cons.mp hxk2 with h3 | h3
            · subst h3
              exact tKeys_of_key hlen hkmmem
            · exact tKeys_of_child hlen hc (by omega) (tKeys_of_key hcklen h3)
          · rw [hclf] at hc3
            rw [if_neg (by simp)] at hc3
            cases j2 with
            | zero =>
              rw [List.getElem?_cons_zero] at hc3
              injection hc3 with hc3
              subst hc3
              refine tKeys_of_child hlen hs (by omega) ?_
              have hsl : sl = false := by rw [hflag]; exact hclf
              rw [hsl]
              rcases hmc : sc[sc.length - 1]? with _ | mc
              · rw [List.getElem?_eq_none_iff] at hmc
                rw [hscsz hclf] at hmc
                omega
              · have hmcgd : sc.getLastD default = mc := by
                  rw [List.getLastD_eq_getLast?, List.getLast?_eq_getElem?, hmc]
                  rfl
                rw [hmcgd] at hxc3
                refine tKeys_of_child hsklen hmc ?_ hxc3
                rw [hscsz hclf]
                omega
            | succ j2 =>
              rw [List.getElem?_cons_succ] at hc3
              refine tKeys_of_child hlen hc (by omega) ?_
              have hj2b : j2 < cc.length := (List.getElem?_eq_some_iff.mp hc3).1
              rw [hcclen hclf] at hj2b
              rw [hclf]
              exact tKeys_of_child hcklen hc3 (by omega) hxc3
        · rw [if_neg h2] at hcj
          have hjb : j < children.length := (List.getElem?_eq_some_iff.mp hcj).1
          exact tKeys_of_child hlen hcj (by omega) hxc

end TrafficOpt
